import Mathlib

/-!
# chipaca/quantity: fixed-width quantity formatters

A shallow embedding of `quantity.go` (`FormatAmount`, `FormatBytes`, `FormatBPS`,
`divmod`, `FormatDuration`) together with the parts of the Go runtime the code leans
on: IEEE-754 binary64 arithmetic (round to nearest, ties to even) and the
`fmt.Sprintf` verbs `%d`, `%f`, `%c`, `%s` with their width / precision handling.

Floats are modelled exactly: a finite binary64 is `(-1)^neg * m * 2^e`, every
operation computes the exact rational result and rounds it once.
-/

namespace Quantity

/-! ## binary64 -/

/-- A `float64`: a finite value `(-1)^neg * m * 2^e`, an infinity, or NaN. -/
inductive F64 where
  | fin (neg : Bool) (m : Nat) (e : Int)
  | inf (neg : Bool)
  | nan
  deriving DecidableEq

/-- Round-half-even of the fraction `num / den` to a natural number. -/
def rhe (num den : Nat) : Nat :=
  if 2 * (num % den) < den then num / den
  else if den < 2 * (num % den) then num / den + 1
  else if (num / den) % 2 = 0 then num / den
  else num / den + 1

/-- Binary logarithm by repeated halving, at most `fuel` times. -/
def log2Fuel : Nat → Nat → Nat
  | 0, _ => 0
  | fuel + 1, n => if n < 2 then 0 else log2Fuel fuel (n / 2) + 1

/-- Floor of the binary logarithm of a positive natural number. -/
def blog2 (n : Nat) : Nat := log2Fuel n n

/-- Floor of the binary logarithm of `num / den` (both positive). -/
def flog2 (num den : Nat) : Int :=
  if den * 2 ^ ((blog2 num : Int) - (blog2 den : Int)).toNat
      ≤ num * 2 ^ ((blog2 den : Int) - (blog2 num : Int)).toNat
  then (blog2 num : Int) - (blog2 den : Int)
  else (blog2 num : Int) - (blog2 den : Int) - 1

/-- Exponent of the unit in the last place used for a positive `num / den`:
53 significant bits, bottoming out at the subnormal spacing `2^-1074`. -/
def ulpExp (num den : Nat) : Int := max (flog2 num den - 52) (-1074)

/-- Significand obtained by rounding `num / den` at spacing `2 ^ ulpExp`. -/
def roundMant (num den : Nat) : Nat :=
  rhe (num * 2 ^ (-(ulpExp num den)).toNat) (den * 2 ^ (ulpExp num den).toNat)

/-- IEEE-754 rounding (nearest, ties to even) of `(-1)^neg * num / den`, `den > 0`,
overflowing to infinity from `2^1024` on. -/
def F64.round (neg : Bool) (num den : Nat) : F64 :=
  if num = 0 then .fin neg 0 (-1074)
  else if 2 ^ 1024 ≤ (roundMant num den : Int) * 2 ^ (ulpExp num den).toNat
      ∧ 0 ≤ ulpExp num den then .inf neg
  else .fin neg (roundMant num den) (ulpExp num den)

/-- Conversion `float64(n)` of an unsigned integer. -/
def F64.ofNat (n : Nat) : F64 := F64.round false n 1

/-- Unary minus. -/
def F64.neg : F64 → F64
  | .fin s m e => .fin (!s) m e
  | .inf s => .inf (!s)
  | .nan => .nan

/-- Signed numerator of a finite value over the common denominator `2^(-k)`, `k ≤ e`. -/
def snum (neg : Bool) (m : Nat) (e k : Int) : Int :=
  (if neg then -1 else 1) * ((m : Int) * 2 ^ (e - k).toNat)

/-- The comparison `a < b` (false as soon as a NaN is involved). -/
def F64.lt : F64 → F64 → Bool
  | .nan, _ => false
  | _, .nan => false
  | .inf s, .inf t => s && !t
  | .inf s, .fin _ _ _ => s
  | .fin _ _ _, .inf t => !t
  | .fin s m e, .fin t n f => decide (snum s m e (min e f) < snum t n f (min e f))

/-- The comparison `a <= b`. -/
def F64.le : F64 → F64 → Bool
  | .nan, _ => false
  | _, .nan => false
  | .inf s, .inf t => s || !t
  | .inf s, .fin _ _ _ => s
  | .fin _ _ _, .inf t => !t
  | .fin s m e, .fin t n f => decide (snum s m e (min e f) ≤ snum t n f (min e f))

/-- Division `a / b`. -/
def F64.div : F64 → F64 → F64
  | .nan, _ => .nan
  | _, .nan => .nan
  | .inf _, .inf _ => .nan
  | .inf s, .fin t _ _ => .inf (xor s t)
  | .fin s _ _, .inf t => .fin (xor s t) 0 0
  | .fin s m e, .fin t n f =>
    if n = 0 then (if m = 0 then .nan else .inf (xor s t))
    else F64.round (xor s t) (m * 2 ^ (e - f).toNat) (n * 2 ^ (f - e).toNat)

/-- Multiplication `a * b`. -/
def F64.mul : F64 → F64 → F64
  | .nan, _ => .nan
  | _, .nan => .nan
  | .inf s, .inf t => .inf (xor s t)
  | .inf s, .fin t n _ => if n = 0 then .nan else .inf (xor s t)
  | .fin s m _, .inf t => if m = 0 then .nan else .inf (xor s t)
  | .fin s m e, .fin t n f =>
    F64.round (xor s t) (m * n * 2 ^ (e + f).toNat) (2 ^ (-(e + f)).toNat)

/-- Subtraction `a - b`. -/
def F64.sub : F64 → F64 → F64
  | .nan, _ => .nan
  | _, .nan => .nan
  | .inf s, .inf t => if s = t then .nan else .inf s
  | .inf s, .fin _ _ _ => .inf s
  | .fin _ _ _, .inf t => .inf (!t)
  | .fin s m e, .fin t n f =>
    if snum s m e (min e f) = snum t n f (min e f) then .fin (s && !t) 0 0
    else F64.round (decide (snum s m e (min e f) < snum t n f (min e f)))
      ((snum s m e (min e f) - snum t n f (min e f)).natAbs * 2 ^ (min e f).toNat)
      (2 ^ (-(min e f)).toNat)

/-- The function `math.Floor`. -/
def F64.floor : F64 → F64
  | .fin s m e => .fin s (Int.natAbs (Int.fdiv (snum s m e (min e 0)) (2 ^ (-(min e 0)).toNat))) 0
  | x => x

/-- A finite binary64 literal given as an exact decimal fraction `num / den`. -/
def F64.lit (num den : Nat) : F64 := F64.round false num den

/-! ## `fmt` -/

/-- The state of a `fmt` verb: width and precision (when present) and the flags. -/
structure Fmt where
  wid : Option Nat := none
  prec : Option Nat := none
  minus : Bool := false
  zero : Bool := false

/-- Pad a rendered operand to the verb's width, as `(*fmt).pad`. -/
def Fmt.pad (f : Fmt) (s : String) : String :=
  match f.wid with
  | none => s
  | some w =>
    if f.minus then s ++ String.mk (List.replicate (w - s.length) ' ')
    else String.mk (List.replicate (w - s.length) (if f.zero then '0' else ' ')) ++ s

/-- Whether `fmt` refuses an integer as a width or precision: `tooLarge` in `fmt/print.go`,
which caps the magnitude of a `*` argument at `1e6`. -/
def tooLarge (x : Int) : Bool := decide (x > 1000000 ∨ x < -1000000)

/-- A `*` width argument: out of range it is reported and dropped, a negative one
means left-justification. Returns the text written and the new state. -/
def Fmt.starWidth (f : Fmt) (w : Int) : String × Fmt :=
  if tooLarge w then ("%!(BADWIDTH)", { f with wid := none })
  else if w < 0 then ("", { f with wid := some (-w).toNat, minus := true, zero := false })
  else ("", { f with wid := some w.toNat })

/-- A `.*` precision argument: negative or out of range it is reported and dropped. -/
def Fmt.starPrec (f : Fmt) (p : Int) : String × Fmt :=
  if tooLarge p ∨ p < 0 then ("%!(BADPREC)", { f with prec := none })
  else ("", { f with prec := some p.toNat })

/-- The verb `%d` on an unsigned integer. -/
def Fmt.fmtD (f : Fmt) (n : Nat) : String := f.pad (Nat.repr n)

/-- The digits of a non-negative finite value in `%f` style: the value is rounded
(half to even, on its exact binary expansion) to `prec` decimals. -/
def decimalF (prec m : Nat) (e : Int) : String :=
  if prec = 0 then Nat.repr (rhe (m * 2 ^ e.toNat) (2 ^ (-e).toNat))
  else
    Nat.repr (rhe (m * 2 ^ e.toNat * 10 ^ prec) (2 ^ (-e).toNat) / 10 ^ prec) ++ "." ++
      (Fmt.pad { wid := some prec, zero := true }
        (Nat.repr (rhe (m * 2 ^ e.toNat * 10 ^ prec) (2 ^ (-e).toNat) % 10 ^ prec)))

/-- The verb `%f` (default precision 6), as `(*fmt).fmtFloat`. -/
def Fmt.fmtF (f : Fmt) : F64 → String
  | .nan => Fmt.pad { f with zero := false } "NaN"
  | .inf s => Fmt.pad { f with zero := false } (if s then "-Inf" else "+Inf")
  | .fin false m e => f.pad (decimalF (f.prec.getD 6) m e)
  | .fin true m e =>
    if f.zero ∧ ¬ f.minus ∧ (decimalF (f.prec.getD 6) m e).length + 1 < f.wid.getD 0 then
      "-" ++ String.mk (List.replicate
        (f.wid.getD 0 - ((decimalF (f.prec.getD 6) m e).length + 1)) '0') ++
        decimalF (f.prec.getD 6) m e
    else f.pad ("-" ++ decimalF (f.prec.getD 6) m e)

/-! ## `FormatAmount` -/

/-- The call `fmt.Sprintf("%*d%s", w, amount, pad)`. -/
def sprintfPlain (w : Int) (amount : Nat) (pad : String) : String :=
  (Fmt.starWidth {} w).1 ++ (Fmt.starWidth {} w).2.fmtD amount ++ pad

/-- The call `fmt.Sprintf("%*.*f%c", width, precision, r, prefix)`. -/
def sprintfScaled (width precision : Int) (r : F64) (pfx : Char) : String :=
  (Fmt.starWidth {} width).1 ++ ((Fmt.starWidth {} width).2.starPrec precision).1 ++
    ((Fmt.starWidth {} width).2.starPrec precision).2.fmtF r ++ String.singleton pfx

/-- The loop `for _, prefix = range "kMGTPEZY" { r /= 1000; if r < maxFloat { break } }`,
run over the remaining runes. -/
def scaleLoop (maxFloat : F64) : List Char → F64 → Char → F64 × Char
  | [], r, p => (r, p)
  | c :: cs, r, _ =>
    if (r.div (.fin false 1000 0)).lt maxFloat then (r.div (.fin false 1000 0), c)
    else scaleLoop maxFloat cs (r.div (.fin false 1000 0)) c

/-- The scaled value and SI prefix chosen for `amount`. -/
def amountScale (maxFloat : F64) (amount : Nat) : F64 × Char :=
  scaleLoop maxFloat "kMGTPEZY".data (F64.ofNat amount) (Char.ofNat 0)

/-- The count of integer digits `FormatAmount` budgets for the scaled value. -/
def amountDigits (r : F64) : Int :=
  if r.lt (.fin false 199 (-1)) then
    if r.lt (.fin false 19 (-1)) then
      if r.lt (F64.lit 95 100) then 0 else 1
    else 2
  else 3

/-- The precision `FormatAmount` passes for `width` columns (suffix excluded). -/
def amountPrecision (width digits : Int) : Int :=
  if width - digits > 1 then width - digits - 1 else 0

/-- The string `s` rendered on the scaled path, before the leading `0` is dropped;
`width` is the effective width. -/
def amountRendered (maxFloat : F64) (amount : Nat) (width : Int) : String :=
  sprintfScaled (width - 1)
    (amountPrecision (width - 1) (amountDigits (amountScale maxFloat amount).1))
    (amountScale maxFloat amount).1 (amountScale maxFloat amount).2

/-- The body of `FormatAmount` once width, `max` and `maxFloat` are settled. -/
def formatAmountCore (amount : Nat) (width : Int) (max : Nat) (maxFloat : F64) : String :=
  if amount ≤ max then
    if width > 5 then sprintfPlain (width - 1) amount " " else sprintfPlain width amount ""
  else if (amountScale maxFloat amount).1.lt (F64.lit 95 100) then
    String.mk ((amountRendered maxFloat amount width).data.drop 1)
  else amountRendered maxFloat amount width

/-- The width `FormatAmount` works with: 5 when negative, 3 when below 4. -/
def effWidth (width : Int) : Int :=
  if (if width < 0 then 5 else width) < 4 then 3 else (if width < 0 then 5 else width)

/-- The function `FormatAmount(amount uint64, width int) string`. -/
def FormatAmount (amount : Nat) (width : Int) : String :=
  if (if width < 0 then 5 else width) < 4 then
    formatAmountCore amount 3 999 (.fin false 199 (-1))
  else formatAmountCore amount (if width < 0 then 5 else width) 5000 (.fin false 1999 (-1))


/-! ## `FormatBytes`, `FormatBPS` -/

/-- Two's-complement wrap-around of a 64-bit `int`. -/
def wrap64 (x : Int) : Int := (x + 2 ^ 63) % 2 ^ 64 - 2 ^ 63

/-- The function `FormatBytes(n uint64, width int) string`. -/
def FormatBytes (n : Nat) (width : Int) : String :=
  FormatAmount n (wrap64 (width - 1)) ++ "B"

/-- The conversion `uint64(x)`: truncation toward zero when the result fits; the Go
specification leaves every other case to the implementation, which is the parameter
`conv`. -/
def F64.toUint64 (conv : F64 → Nat) : F64 → Nat
  | .fin s m e =>
    if (s = false ∨ m * 2 ^ e.toNat / 2 ^ (-e).toNat = 0) ∧ m * 2 ^ e.toNat / 2 ^ (-e).toNat < 2 ^ 64
    then m * 2 ^ e.toNat / 2 ^ (-e).toNat
    else conv (.fin s m e) % 2 ^ 64
  | x => conv x % 2 ^ 64

/-- The function `FormatBPS(n Bytes, sec Duration, width int) string`. -/
def FormatBPS (conv : F64 → Nat) (n : Nat) (sec : F64) (width : Int) : String :=
  FormatBytes
    (F64.toUint64 conv ((F64.ofNat n).div (if sec.lt (.fin false 0 0) then sec.neg else sec)))
    (wrap64 (width - 2)) ++ "/s"

/-! ## `FormatDuration` -/

/-- The function `divmod(a, b float64) (q, r float64)`; the product `q*b` and the
difference are rounded separately (a fused multiply-add gives the same result whenever
`q*b` is exact, as it is for the small quotients `FormatDuration` meets). -/
def divmod (a b : F64) : F64 × F64 :=
  ((a.div b).floor, a.sub ((a.div b).floor.mul b))

/-- The loop `for _, prefix = range "mun" { dt *= 1000; if dt >= .9995 { break } }`,
run over the remaining runes. -/
def subLoop : List Char → F64 → Char → F64 × Char
  | [], dt, p => (dt, p)
  | c :: cs, dt, _ =>
    if (F64.lit 9995 10000).le (dt.mul (.fin false 1000 0)) then (dt.mul (.fin false 1000 0), c)
    else subLoop cs (dt.mul (.fin false 1000 0)) c

/-- The verb `%W.Pf` with literal width and precision (`zero` for the `0` flag). -/
def fmtFixed (wid : Option Nat) (prec : Nat) (zero : Bool) (x : F64) : String :=
  Fmt.fmtF { wid := wid, prec := some prec, zero := zero } x

/-- The sub-minute part of `FormatDuration` (`dt < 60`). -/
def formatSubMinute (dt : F64) : String :=
  if (F64.lit 9995 1000).le dt then fmtFixed none 1 false dt ++ "s"
  else if (F64.lit 9995 10000).le dt then fmtFixed none 2 false dt ++ "s"
  else if (F64.fin false 19 (-1)).lt (subLoop "mun".data dt (Char.ofNat 0)).1 then
    fmtFixed (some 3) 0 false (subLoop "mun".data dt (Char.ofNat 0)).1 ++
      String.singleton (subLoop "mun".data dt (Char.ofNat 0)).2 ++ "s"
  else
    fmtFixed none 1 false (subLoop "mun".data dt (Char.ofNat 0)).1 ++
      String.singleton (subLoop "mun".data dt (Char.ofNat 0)).2 ++ "s"

/-- The part of `FormatDuration` from ten days on; `dt` is in hours. -/
def formatDays (dt : F64) : String :=
  if dt.lt (F64.lit 23988 10) then
    if (divmod dt (.fin false 24 0)).2.lt (.fin false 10 0) then
      fmtFixed none 0 false (divmod dt (.fin false 24 0)).1 ++ "d" ++
        fmtFixed none 0 false (divmod dt (.fin false 24 0)).2 ++ "h"
    else fmtFixed (some 4) 1 false (dt.div (.fin false 24 0)) ++ "d"
  else if (dt.div (.fin false 24 0)).lt (.fin false 1461 (-1)) then
    fmtFixed (some 4) 0 false (dt.div (.fin false 24 0)) ++ "d"
  else if ((dt.div (.fin false 24 0)).div (.fin false 1461 (-2))).lt (F64.lit 9995 1000) then
    fmtFixed (some 4) 2 false ((dt.div (.fin false 24 0)).div (.fin false 1461 (-2))) ++ "y"
  else if ((dt.div (.fin false 24 0)).div (.fin false 1461 (-2))).lt (F64.lit 9995 100) then
    fmtFixed (some 4) 1 false ((dt.div (.fin false 24 0)).div (.fin false 1461 (-2))) ++ "y"
  else fmtFixed (some 4) 0 false ((dt.div (.fin false 24 0)).div (.fin false 1461 (-2))) ++ "y"

/-- The part of `FormatDuration` from ten minutes on; `dt` is in minutes. -/
def formatMinutes (dt : F64) : String :=
  if dt.lt (F64.lit 9995 100) then fmtFixed (some 3) 1 false dt ++ "m"
  else if dt.lt (.fin false 600 0) then
    fmtFixed none 0 false (divmod dt (.fin false 60 0)).1 ++ "h" ++
      fmtFixed (some 2) 0 true (divmod dt (.fin false 60 0)).2 ++ "m"
  else if dt.lt (.fin false 1440 0) then
    if (divmod dt (.fin false 60 0)).2.lt (.fin false 10 0) then
      fmtFixed none 0 false (divmod dt (.fin false 60 0)).1 ++ "h" ++
        fmtFixed (some 1) 0 false (divmod dt (.fin false 60 0)).2 ++ "m"
    else fmtFixed (some 3) 1 false (dt.div (.fin false 60 0)) ++ "h"
  else if (dt.div (.fin false 60 0)).lt (.fin false 240 0) then
    fmtFixed none 0 false (divmod (dt.div (.fin false 60 0)) (.fin false 24 0)).1 ++ "d" ++
      fmtFixed (some 2) 0 true (divmod (dt.div (.fin false 60 0)) (.fin false 24 0)).2 ++ "h"
  else formatDays (dt.div (.fin false 60 0))

/-- The function `FormatDuration(dur Duration) string`. -/
def FormatDuration (dt : F64) : String :=
  if dt.lt (.fin false 60 0) then formatSubMinute dt
  else if dt.lt (.fin false 600 0) then
    fmtFixed none 0 false (divmod dt (.fin false 60 0)).1 ++ "m" ++
      fmtFixed (some 2) 0 true (divmod dt (.fin false 60 0)).2 ++ "s"
  else formatMinutes (dt.div (.fin false 60 0))

/-! ## Specification vocabulary -/

/-- The exact value of a finite float (0 for infinities and NaN). -/
def F64.toRat : F64 → ℚ
  | .fin s m e => (if s then -1 else 1) * ((m : ℚ) * 2 ^ e)
  | _ => 0

/-- A finite float with a clear sign bit. -/
def F64.NonNeg (r : F64) : Prop := ∃ m e, r = .fin false m e

/-- The float `r` is the binary64 rounding of the non-negative rational `x`. -/
def Rounds (r : F64) (x : ℚ) : Prop :=
  ∃ m e, r = .fin false m e ∧ 0 ≤ x ∧ -1074 ≤ e ∧ |(m : ℚ) * 2 ^ e - x| ≤ 2 ^ e / 2 ∧
    (e = -1074 ∨ (2 : ℚ) ^ (e + 52) ≤ x) ∧ x < 2 ^ (e + 53)

/-- The output ends in one of the SI suffix letters. -/
def endsInSuffix (s : String) : Prop :=
  ∃ c, s.data.getLast? = some c ∧ c ∈ "kMGTPEZY".data

/-- A non-negative finite float whose significand fits 53 bits (`2^53` included, which
is the next power of two). -/
def Repr64 (r : F64) : Prop := ∃ m e, r = .fin false m e ∧ m ≤ 2 ^ 53 ∧ -1074 ≤ e

/-- Whether `FormatDuration` renders a duration of at least a minute in one of its two
single-digit-remainder forms, `%.fh%1.fm` (ten hours up to a day, minutes remainder
below 10) or `%.fd%.fh` (ten days up to 99.95 days, hours remainder below 10), with a
remainder of at least 9.5, which the verb rounds up to 10. -/
def shortFormRoundsUp (dt : F64) : Bool :=
  ((dt.div (.fin false 60 0)).lt (.fin false 1440 0) &&
    (divmod (dt.div (.fin false 60 0)) (.fin false 60 0)).2.lt (.fin false 10 0) &&
    !(dt.div (.fin false 60 0)).lt (.fin false 600 0) &&
    !(divmod (dt.div (.fin false 60 0)) (.fin false 60 0)).2.lt (.fin false 19 (-1))) ||
  (!(dt.div (.fin false 60 0)).lt (.fin false 1440 0) &&
    ((dt.div (.fin false 60 0)).div (.fin false 60 0)).lt (F64.lit 23988 10) &&
    (divmod ((dt.div (.fin false 60 0)).div (.fin false 60 0)) (.fin false 24 0)).2.lt
      (.fin false 10 0) &&
    !((dt.div (.fin false 60 0)).div (.fin false 60 0)).lt (.fin false 240 0) &&
    !(divmod ((dt.div (.fin false 60 0)).div (.fin false 60 0)) (.fin false 24 0)).2.lt
      (.fin false 19 (-1)))

/-- The duration in Julian years, as `FormatDuration` computes it. -/
def yearsOf (dt : F64) : F64 :=
  (((dt.div (.fin false 60 0)).div (.fin false 60 0)).div (.fin false 24 0)).div
    (.fin false 1461 (-2))

/-- The suffix index of an output: 0 without a suffix letter, 1..8 for k, M, G, T, P,
E, Z, Y. -/
def suffixIndex (s : String) : Nat :=
  match s.data.getLast? with
  | some c => if c ∈ "kMGTPEZY".data then "kMGTPEZY".data.indexOf c + 1 else 0
  | none => 0

/-- The plain-decimal cutoff `max` that `FormatAmount` uses for a requested width. -/
def regimeMax (width : Int) : Nat :=
  if (if width < 0 then 5 else width) < 4 then 999 else 5000

/-- The scaled-form cutoff `maxFloat` that `FormatAmount` uses for a requested width. -/
def regimeFloat (width : Int) : F64 :=
  if (if width < 0 then 5 else width) < 4 then .fin false 199 (-1) else .fin false 1999 (-1)

/-! ## Arithmetic facts about the binary64 model -/

theorem log2Fuel_spec : ∀ (fuel n : Nat), n ≤ fuel → n ≠ 0 →
    2 ^ log2Fuel fuel n ≤ n ∧ n < 2 ^ (log2Fuel fuel n + 1)
  | 0, n, h, h0 => by omega
  | fuel + 1, n, h, h0 => by
    unfold log2Fuel
    by_cases h2 : n < 2
    · simp only [h2, if_true]
      omega
    · simp only [h2, if_false]
      have ih := log2Fuel_spec fuel (n / 2) (by omega) (by omega)
      rw [pow_succ, pow_succ]
      omega

theorem blog2_spec (n : Nat) (h0 : n ≠ 0) : 2 ^ blog2 n ≤ n ∧ n < 2 ^ (blog2 n + 1) :=
  log2Fuel_spec n n le_rfl h0

theorem rhe_bounds (num den : Nat) (hd : 0 < den) :
    2 * (den * rhe num den) ≤ 2 * num + den ∧ 2 * num ≤ 2 * (den * rhe num den) + den := by
  have h1 := Nat.div_add_mod num den
  have h2 := Nat.mod_lt num hd
  unfold rhe
  split_ifs <;> (try simp only [Nat.mul_add, Nat.mul_one]) <;> omega

theorem two_zpow_split (e : ℤ) : (2 : ℚ) ^ e = (2 : ℚ) ^ e.toNat / (2 : ℚ) ^ (-e).toNat := by
  rcases le_total 0 e with h | h
  · have h1 : (-e).toNat = 0 := by omega
    have h2 : (e.toNat : ℤ) = e := Int.toNat_of_nonneg h
    rw [h1, pow_zero, div_one, ← zpow_natCast, h2]
  · have h1 : e.toNat = 0 := by omega
    have h2 : ((-e).toNat : ℤ) = -e := Int.toNat_of_nonneg (by omega)
    rw [h1, pow_zero, one_div, ← zpow_natCast, h2, zpow_neg, inv_inv]

theorem rhe_le (num den : Nat) (hd : 0 < den) :
    (rhe num den : ℚ) ≤ (num : ℚ) / den + 1 / 2 := by
  have h := (rhe_bounds num den hd).1
  have hd' : (0 : ℚ) < den := by exact_mod_cast hd
  have h' : (2 : ℚ) * (den * rhe num den) ≤ 2 * num + den := by exact_mod_cast h
  rw [div_add_div _ _ (ne_of_gt hd') two_ne_zero, le_div_iff₀ (by positivity)]
  nlinarith

theorem le_rhe (num den : Nat) (hd : 0 < den) :
    (num : ℚ) / den - 1 / 2 ≤ (rhe num den : ℚ) := by
  have h := (rhe_bounds num den hd).2
  have hd' : (0 : ℚ) < den := by exact_mod_cast hd
  have h' : (2 : ℚ) * num ≤ 2 * (den * rhe num den) + den := by exact_mod_cast h
  rw [div_sub_div _ _ (ne_of_gt hd') two_ne_zero, div_le_iff₀ (by positivity)]
  nlinarith

theorem flog2_spec (num den : Nat) (hn : 0 < num) (hd : 0 < den) :
    (2 : ℚ) ^ flog2 num den ≤ (num : ℚ) / den ∧ (num : ℚ) / den < 2 ^ (flog2 num den + 1) := by
  have hd' : (0 : ℚ) < den := by exact_mod_cast hd
  obtain ⟨ha1, ha2⟩ := blog2_spec num (by omega)
  obtain ⟨hb1, hb2⟩ := blog2_spec den (by omega)
  have ha1' : (2 : ℚ) ^ (blog2 num : ℤ) ≤ num := by rw [zpow_natCast]; exact_mod_cast ha1
  have ha2' : (num : ℚ) < 2 ^ ((blog2 num : ℤ) + 1) := by
    rw [show ((blog2 num : ℤ) + 1) = ((blog2 num + 1 : ℕ) : ℤ) by push_cast; ring, zpow_natCast]
    exact_mod_cast ha2
  have hb1' : (2 : ℚ) ^ (blog2 den : ℤ) ≤ den := by rw [zpow_natCast]; exact_mod_cast hb1
  have hb2' : (den : ℚ) < 2 ^ ((blog2 den : ℤ) + 1) := by
    rw [show ((blog2 den : ℤ) + 1) = ((blog2 den + 1 : ℕ) : ℤ) by push_cast; ring, zpow_natCast]
    exact_mod_cast hb2
  have h2 : ∀ k : ℤ, (0 : ℚ) < 2 ^ k := fun k => zpow_pos (by norm_num) k
  have key : (den * 2 ^ ((blog2 num : Int) - (blog2 den : Int)).toNat
      ≤ num * 2 ^ ((blog2 den : Int) - (blog2 num : Int)).toNat) ↔
      (2 : ℚ) ^ ((blog2 num : ℤ) - (blog2 den : ℤ)) ≤ (num : ℚ) / den := by
    rw [two_zpow_split, neg_sub, le_div_iff₀ hd', div_mul_eq_mul_div, div_le_iff₀ (by positivity)]
    rw [mul_comm _ (den : ℚ)]
    exact_mod_cast Iff.rfl
  unfold flog2
  split_ifs with h
  · refine ⟨key.1 h, ?_⟩
    rw [div_lt_iff₀ hd']
    calc (num : ℚ) < 2 ^ ((blog2 num : ℤ) + 1) := ha2'
      _ = 2 ^ ((blog2 num : ℤ) - (blog2 den : ℤ) + 1) * 2 ^ (blog2 den : ℤ) := by
          rw [← zpow_add₀ (by norm_num)]; congr 1; ring
      _ ≤ 2 ^ ((blog2 num : ℤ) - (blog2 den : ℤ) + 1) * den :=
          mul_le_mul_of_nonneg_left hb1' (le_of_lt (h2 _))
  · constructor
    · rw [le_div_iff₀ hd']
      calc (2 : ℚ) ^ ((blog2 num : ℤ) - (blog2 den : ℤ) - 1) * den
          ≤ 2 ^ ((blog2 num : ℤ) - (blog2 den : ℤ) - 1) * 2 ^ ((blog2 den : ℤ) + 1) :=
            mul_le_mul_of_nonneg_left (le_of_lt hb2') (le_of_lt (h2 _))
        _ = 2 ^ (blog2 num : ℤ) := by
            rw [← zpow_add₀ (by norm_num)]; congr 1; ring
        _ ≤ num := ha1'
    · rw [sub_add_cancel]
      exact lt_of_not_le (fun hc => h (key.2 hc))

theorem two_zpow_pos (k : ℤ) : (0 : ℚ) < 2 ^ k := zpow_pos (by norm_num) k

theorem two_zpow_le {a b : ℤ} (h : a ≤ b) : (2 : ℚ) ^ a ≤ 2 ^ b :=
  zpow_le_zpow_right₀ (by norm_num) h

theorem two_zpow_lt_imp {a b : ℤ} (h : (2 : ℚ) ^ a < 2 ^ b) : a < b :=
  (zpow_lt_zpow_iff_right₀ (by norm_num)).1 h

theorem two_zpow_half (e : ℤ) : (2 : ℚ) ^ e / 2 = 2 ^ (e - 1) := by
  rw [zpow_sub_one₀ (by norm_num)]; rfl

theorem roundMant_err (num den : Nat) (hd : 0 < den) :
    |(roundMant num den : ℚ) * 2 ^ ulpExp num den - (num : ℚ) / den|
      ≤ 2 ^ ulpExp num den / 2 := by
  have hd' : (0 : ℚ) < den := by exact_mod_cast hd
  have hp : 0 < den * 2 ^ (ulpExp num den).toNat := Nat.mul_pos hd (by positivity)
  have h1 := rhe_le (num * 2 ^ (-(ulpExp num den)).toNat) (den * 2 ^ (ulpExp num den).toNat) hp
  have h2 := le_rhe (num * 2 ^ (-(ulpExp num den)).toNat) (den * 2 ^ (ulpExp num den).toNat) hp
  have he := two_zpow_pos (ulpExp num den)
  have hq : ((num * 2 ^ (-(ulpExp num den)).toNat : ℕ) : ℚ) /
      ((den * 2 ^ (ulpExp num den).toNat : ℕ) : ℚ) = (num : ℚ) / den / 2 ^ ulpExp num den := by
    rw [two_zpow_split (ulpExp num den)]
    push_cast
    field_simp
  rw [hq] at h1 h2
  unfold roundMant
  rw [abs_le]
  constructor
  · have := mul_le_mul_of_nonneg_right h2 (le_of_lt he)
    rw [sub_mul, div_mul_cancel₀ _ (ne_of_gt he)] at this
    linarith
  · have := mul_le_mul_of_nonneg_right h1 (le_of_lt he)
    rw [add_mul, div_mul_cancel₀ _ (ne_of_gt he)] at this
    linarith

theorem round_rounds (num den : Nat) (hd : 0 < den) (hx : (num : ℚ) / den < 2 ^ (1023 : ℤ)) :
    Rounds (F64.round false num den) ((num : ℚ) / den) := by
  have hd' : (0 : ℚ) < den := by exact_mod_cast hd
  have hx0 : (0 : ℚ) ≤ (num : ℚ) / den := by positivity
  by_cases hn : num = 0
  · refine ⟨0, -1074, by simp [F64.round, hn], hx0, le_rfl, ?_, Or.inl rfl, ?_⟩
    · subst hn; simp; positivity
    · subst hn; simp; positivity
  · have hn' : 0 < num := Nat.pos_of_ne_zero hn
    obtain ⟨hl1, hl2⟩ := flog2_spec num den hn' hd
    have herr := roundMant_err num den hd
    have he1 : -1074 ≤ ulpExp num den := le_max_right _ _
    have he2 : flog2 num den - 52 ≤ ulpExp num den := le_max_left _ _
    have hP3 : ulpExp num den = -1074 ∨ (2 : ℚ) ^ (ulpExp num den + 52) ≤ (num : ℚ) / den := by
      rcases max_cases (flog2 num den - 52) (-1074) with ⟨h, _⟩ | ⟨h, _⟩
      · right
        have : ulpExp num den + 52 = flog2 num den := by unfold ulpExp; rw [h]; ring
        rw [this]; exact hl1
      · left; exact h
    have hP4 : (num : ℚ) / den < 2 ^ (ulpExp num den + 53) :=
      lt_of_lt_of_le hl2 (two_zpow_le (by omega))
    refine ⟨roundMant num den, ulpExp num den, ?_, hx0, he1, herr, hP3, hP4⟩
    unfold F64.round
    rw [if_neg hn, if_neg]
    rintro ⟨hov, hnn⟩
    have hov' : (2 : ℚ) ^ (1024 : ℤ) ≤ (roundMant num den : ℚ) * 2 ^ ulpExp num den := by
      have h3 : ((2 ^ 1024 : ℤ) : ℚ)
          ≤ (((roundMant num den : ℤ) * 2 ^ (ulpExp num den).toNat : ℤ) : ℚ) :=
        Int.cast_le.2 hov
      have h4 : (2 : ℚ) ^ ulpExp num den = 2 ^ (ulpExp num den).toNat := by
        rw [← zpow_natCast, Int.toNat_of_nonneg hnn]
      rw [h4]
      simp only [Int.cast_pow, Int.cast_mul, Int.cast_natCast, Int.cast_ofNat] at h3
      have h5 : (2 : ℚ) ^ (1024 : ℤ) = 2 ^ (1024 : ℕ) := zpow_natCast 2 1024
      rw [h5]; exact h3
    have hbig : (2 : ℚ) ^ (ulpExp num den + 52) ≤ (num : ℚ) / den := by
      rcases hP3 with h | h
      · omega
      · exact h
    have h6 : (2 : ℚ) ^ ulpExp num den ≤ 2 ^ (ulpExp num den + 52) := two_zpow_le (by omega)
    have h7 := (abs_le.1 herr).2
    have h8 : (2 : ℚ) ^ (1024 : ℤ) = 2 * 2 ^ (1023 : ℤ) := by
      rw [show (1024 : ℤ) = 1023 + 1 by norm_num, zpow_add_one₀ (by norm_num)]; ring
    have h9 := two_zpow_pos (ulpExp num den)
    linarith

theorem Rounds.nonneg {r : F64} {x : ℚ} (h : Rounds r x) : r.NonNeg := by
  obtain ⟨m, e, hr, _⟩ := h
  exact ⟨m, e, hr⟩

theorem Rounds.arg_nonneg {r : F64} {x : ℚ} (h : Rounds r x) : 0 ≤ x := by
  obtain ⟨m, e, _, hx, _⟩ := h
  exact hx

theorem Rounds.toRat_nonneg {r : F64} {x : ℚ} (h : Rounds r x) : 0 ≤ r.toRat := by
  obtain ⟨m, e, hr, _⟩ := h
  subst hr
  simp only [F64.toRat]
  have := two_zpow_pos e
  simp; positivity

/-- Relative error of a rounding, with the subnormal absolute error added. -/
theorem Rounds.rel {r : F64} {x : ℚ} (h : Rounds r x) :
    |r.toRat - x| ≤ x * 2 ^ (-53 : ℤ) + 2 ^ (-1075 : ℤ) := by
  obtain ⟨m, e, hr, hx0, he, herr, h3, h4⟩ := h
  subst hr
  simp only [F64.toRat, Bool.false_eq_true, if_false, one_mul]
  refine le_trans herr ?_
  rw [two_zpow_half]
  rcases h3 with h3 | h3
  · subst h3
    have : (0 : ℚ) ≤ x * 2 ^ (-53 : ℤ) := mul_nonneg hx0 (le_of_lt (two_zpow_pos _))
    norm_num at this ⊢
    linarith
  · have h5 : (2 : ℚ) ^ (e - 1) = 2 ^ (e + 52) * 2 ^ (-53 : ℤ) := by
      rw [← zpow_add₀ (by norm_num)]; congr 1; ring
    rw [h5]
    have := mul_le_mul_of_nonneg_right h3 (le_of_lt (two_zpow_pos (-53)))
    have := two_zpow_pos (-1075)
    linarith

/-- Absolute error of a rounding below `2^(k+1)`. -/
theorem Rounds.abs_err {r : F64} {x : ℚ} (h : Rounds r x) (k : ℤ) (hk : -1022 ≤ k)
    (hx : x < 2 ^ (k + 1)) : |r.toRat - x| ≤ 2 ^ (k - 53) := by
  obtain ⟨m, e, hr, hx0, he, herr, h3, h4⟩ := h
  subst hr
  simp only [F64.toRat, Bool.false_eq_true, if_false, one_mul]
  refine le_trans herr ?_
  rw [two_zpow_half]
  apply two_zpow_le
  rcases h3 with h3 | h3
  · omega
  · have := two_zpow_lt_imp (lt_of_le_of_lt h3 hx)
    omega

theorem snum_cast (s : Bool) (m : Nat) (e k : Int) (h : k ≤ e) :
    ((snum s m e k : ℤ) : ℚ) = (F64.fin s m e).toRat * 2 ^ (-k) := by
  have h2 : (2 : ℚ) ^ (e - k).toNat = 2 ^ e * 2 ^ (-k) := by
    rw [← zpow_natCast, Int.toNat_of_nonneg (by omega), ← zpow_add₀ (by norm_num)]
    congr 1
  unfold snum F64.toRat
  push_cast
  rw [h2]
  split_ifs <;> ring

theorem F64.lt_fin (s : Bool) (m : Nat) (e : Int) (t : Bool) (n : Nat) (f : Int) :
    F64.lt (.fin s m e) (.fin t n f) = true ↔ (F64.fin s m e).toRat < (F64.fin t n f).toRat := by
  simp only [F64.lt, decide_eq_true_eq]
  rw [← Int.cast_lt (R := ℚ), snum_cast _ _ _ _ (min_le_left e f),
    snum_cast _ _ _ _ (min_le_right e f)]
  exact mul_lt_mul_right (two_zpow_pos _)

theorem F64.le_fin (s : Bool) (m : Nat) (e : Int) (t : Bool) (n : Nat) (f : Int) :
    F64.le (.fin s m e) (.fin t n f) = true ↔ (F64.fin s m e).toRat ≤ (F64.fin t n f).toRat := by
  simp only [F64.le, decide_eq_true_eq]
  rw [← Int.cast_le (R := ℚ), snum_cast _ _ _ _ (min_le_left e f),
    snum_cast _ _ _ _ (min_le_right e f)]
  exact mul_le_mul_right (two_zpow_pos _)

theorem F64.div_rounds (m : Nat) (e : Int) (n : Nat) (f : Int) (hn : n ≠ 0)
    (hx : (F64.fin false m e).toRat / (F64.fin false n f).toRat < 2 ^ (1023 : ℤ)) :
    Rounds (F64.div (.fin false m e) (.fin false n f))
      ((F64.fin false m e).toRat / (F64.fin false n f).toRat) := by
  have hq : ((m * 2 ^ (e - f).toNat : ℕ) : ℚ) / ((n * 2 ^ (f - e).toNat : ℕ) : ℚ)
      = (F64.fin false m e).toRat / (F64.fin false n f).toRat := by
    have hn' : (n : ℚ) ≠ 0 := by exact_mod_cast hn
    have h1 := two_zpow_split (e - f)
    rw [neg_sub] at h1
    have h2 : (2 : ℚ) ^ (e - f) = 2 ^ e / 2 ^ f := zpow_sub₀ (by norm_num) e f
    have hf := two_zpow_pos f
    have he := two_zpow_pos e
    have h3 : (0 : ℚ) < 2 ^ (f - e).toNat := by positivity
    have h4 : (0 : ℚ) < 2 ^ (e - f).toNat := by positivity
    simp only [F64.toRat, Bool.false_eq_true, if_false, one_mul]
    push_cast
    rw [div_eq_div_iff (by positivity) (by positivity)]
    rw [h2] at h1
    field_simp at h1
    linear_combination (-(m : ℚ) * (n : ℚ)) * h1
  have hd : 0 < n * 2 ^ (f - e).toNat := Nat.mul_pos (Nat.pos_of_ne_zero hn) (by positivity)
  simp only [F64.div, hn, if_false, Bool.xor_false]
  rw [← hq]
  exact round_rounds _ _ hd (by rw [hq]; exact hx)

theorem F64.ofNat_rounds (n : Nat) (h : n < 2 ^ 1023) : Rounds (F64.ofNat n) n := by
  have h2 : (2 : ℚ) ^ (1023 : ℤ) = ((2 ^ 1023 : ℕ) : ℚ) := by
    rw [Nat.cast_pow, Nat.cast_ofNat]; exact zpow_natCast (2 : ℚ) 1023
  have := round_rounds n 1 (by norm_num) (by
    rw [Nat.cast_one, div_one, h2]
    exact_mod_cast h)
  simpa [F64.ofNat] using this

theorem Fmt.pad_length (f : Fmt) (w : Nat) (s : String) (h : f.wid = some w) :
    (f.pad s).length = max w s.length := by
  unfold Fmt.pad
  rw [h]
  simp only
  split_ifs <;> simp only [String.length_append, String.length_mk, List.length_replicate] <;>
    omega

theorem repr_length_pos (n : Nat) : 1 ≤ (Nat.repr n).length := by
  unfold Nat.repr Nat.toDigits
  simp only [List.asString, String.length_mk]
  rw [Nat.toDigitsCore]
  split_ifs
  · simp
  · rw [Nat.toDigitsCore_lens_eq]
    omega

theorem rhe_lt_of (num den K : Nat) (hd : 0 < den)
    (h : (num : ℚ) / den + 1 / 2 < K) : rhe num den < K := by
  have := rhe_le num den hd
  exact_mod_cast lt_of_le_of_lt this h

/-- The scaled numerator used by `decimalF` is the exact value times `10^prec`. -/
theorem decimalF_ratio (prec m : Nat) (e : Int) :
    ((m * 2 ^ e.toNat * 10 ^ prec : ℕ) : ℚ) / ((2 ^ (-e).toNat : ℕ) : ℚ)
      = (F64.fin false m e).toRat * 10 ^ prec := by
  simp only [F64.toRat, Bool.false_eq_true, if_false, one_mul]
  rw [two_zpow_split e]
  push_cast
  ring

theorem decimalF_length_le (prec m : Nat) (e : Int) (d : Nat) (hd : 1 ≤ d)
    (h : (F64.fin false m e).toRat * 10 ^ prec + 1 / 2 < 10 ^ (d + prec)) :
    (decimalF prec m e).length ≤ d + (if prec = 0 then 0 else prec + 1) := by
  have hlt : rhe (m * 2 ^ e.toNat * 10 ^ prec) (2 ^ (-e).toNat) < 10 ^ (d + prec) := by
    apply rhe_lt_of _ _ _ (by positivity)
    rw [decimalF_ratio]
    exact_mod_cast h
  unfold decimalF
  split_ifs with hp
  · subst hp
    simp only [pow_zero, mul_one, add_zero] at hlt ⊢
    exact Nat.repr_length _ _ (by omega) hlt
  · have h1 : (Nat.repr (rhe (m * 2 ^ e.toNat * 10 ^ prec) (2 ^ (-e).toNat) / 10 ^ prec)).length
        ≤ d := by
      apply Nat.repr_length _ _ (by omega)
      rw [Nat.div_lt_iff_lt_mul (by positivity), ← pow_add]
      exact hlt
    have h2 : (Nat.repr (rhe (m * 2 ^ e.toNat * 10 ^ prec) (2 ^ (-e).toNat) % 10 ^ prec)).length
        ≤ prec := Nat.repr_length _ _ (by omega) (Nat.mod_lt _ (by positivity))
    rw [String.length_append, String.length_append, Fmt.pad_length _ prec _ rfl]
    have : ".".length = 1 := rfl
    omega

theorem decimalF_length_ge (prec m : Nat) (e : Int) :
    1 + (if prec = 0 then 0 else prec + 1) ≤ (decimalF prec m e).length := by
  unfold decimalF
  split_ifs with hp
  · exact repr_length_pos _
  · rw [String.length_append, String.length_append, Fmt.pad_length _ prec _ rfl]
    have : ".".length = 1 := rfl
    have := repr_length_pos (rhe (m * 2 ^ e.toNat * 10 ^ prec) (2 ^ (-e).toNat) / 10 ^ prec)
    omega

theorem F64.toRat_thousand : (F64.fin false 1000 0).toRat = 1000 := by
  simp [F64.toRat]

/-- The scaling loop breaks within the runes it is given, as long as the value it
starts from is at most `99 * 999 ^ n` for `n` runes. -/
theorem scaleLoop_spec (mm : Nat) (ee : Int) (hM : (199 : ℚ) / 2 ≤ (F64.fin false mm ee).toRat) :
    ∀ (cs : List Char) (r : F64) (p : Char), r.NonNeg → cs ≠ [] → cs.length ≤ 8 →
      r.toRat ≤ 99 * 999 ^ cs.length →
      (scaleLoop (.fin false mm ee) cs r p).1.NonNeg ∧
      (scaleLoop (.fin false mm ee) cs r p).1.lt (.fin false mm ee) = true ∧
      (scaleLoop (.fin false mm ee) cs r p).2 ∈ cs := by
  intro cs
  induction cs with
  | nil => intro r p _ h; exact absurd rfl h
  | cons c cs ih =>
    intro r p hr _ hlen hb
    obtain ⟨m, e, rfl⟩ := hr
    have hK1 : (1 : ℚ) ≤ 999 ^ cs.length := one_le_pow₀ (by norm_num)
    have hK2 : (999 : ℚ) ^ cs.length ≤ 999 ^ 7 :=
      pow_le_pow_right₀ (by norm_num) (by simp only [List.length_cons] at hlen; omega)
    have hx : (F64.fin false m e).toRat / (F64.fin false 1000 0).toRat < 2 ^ (1023 : ℤ) := by
      rw [F64.toRat_thousand]
      simp only [List.length_cons, pow_succ] at hb
      have h1 : (F64.fin false m e).toRat / 1000 ≤ 99 * 999 ^ 7 := by
        rw [div_le_iff₀ (by norm_num)]; linarith
      have h2 : (99 : ℚ) * 999 ^ 7 < 2 ^ (100 : ℤ) := by norm_num
      exact lt_of_le_of_lt h1 (lt_trans h2 (zpow_lt_zpow_right₀ (by norm_num) (by norm_num)))
    have hR := F64.div_rounds m e 1000 0 (by norm_num) hx
    rw [F64.toRat_thousand] at hR
    have hrel := (abs_le.1 hR.rel).2
    have hb1 : (F64.div (.fin false m e) (.fin false 1000 0)).toRat ≤ 99 * 999 ^ cs.length := by
      simp only [List.length_cons, pow_succ] at hb
      have e1 : (2 : ℚ) ^ (-53 : ℤ) ≤ 1 / 10 ^ 6 := by norm_num
      have e2 : (2 : ℚ) ^ (-1075 : ℤ) ≤ 2 ^ (-20 : ℤ) := two_zpow_le (by norm_num)
      have e3 : (2 : ℚ) ^ (-20 : ℤ) ≤ 1 / 10 ^ 6 := by norm_num
      have e4 : (F64.fin false m e).toRat / 1000 ≤ 99 * 999 ^ cs.length * 999 / 1000 := by
        rw [div_le_div_iff₀ (by norm_num) (by norm_num)]; nlinarith
      have e5 : (0 : ℚ) ≤ (F64.fin false m e).toRat / 1000 := hR.arg_nonneg
      have e6 : (F64.fin false m e).toRat / 1000 * 2 ^ (-53 : ℤ)
          ≤ (F64.fin false m e).toRat / 1000 * (1 / 10 ^ 6) :=
        mul_le_mul_of_nonneg_left e1 e5
      nlinarith
    obtain ⟨m1, e1, hr1⟩ := hR.nonneg
    unfold scaleLoop
    by_cases hlt : (F64.div (.fin false m e) (.fin false 1000 0)).lt (.fin false mm ee) = true
    · rw [if_pos hlt]
      exact ⟨hR.nonneg, hlt, List.mem_cons_self _ _⟩
    · rw [if_neg hlt]
      have hge : (F64.fin false mm ee).toRat
          ≤ (F64.div (.fin false m e) (.fin false 1000 0)).toRat := by
        rw [hr1] at hlt ⊢
        rw [F64.lt_fin] at hlt
        exact not_lt.1 hlt
      have hne : cs ≠ [] := by
        rintro rfl
        simp only [List.length_nil, pow_zero, mul_one] at hb1
        linarith
      obtain ⟨h1, h2, h3⟩ := ih _ c hR.nonneg hne
        (by simp only [List.length_cons] at hlen; omega) hb1
      exact ⟨h1, h2, List.mem_cons_of_mem _ h3⟩

theorem amountScale_spec (mm : Nat) (ee : Int)
    (hM : (199 : ℚ) / 2 ≤ (F64.fin false mm ee).toRat) (amount : Nat) (ha : amount < 2 ^ 64) :
    (amountScale (.fin false mm ee) amount).1.NonNeg ∧
    (amountScale (.fin false mm ee) amount).1.lt (.fin false mm ee) = true ∧
    (amountScale (.fin false mm ee) amount).2 ∈ "kMGTPEZY".data := by
  have hR := F64.ofNat_rounds amount (lt_trans ha (by norm_num))
  have hrel := (abs_le.1 hR.rel).2
  have ha' : (amount : ℚ) < 2 ^ 64 := by exact_mod_cast ha
  apply scaleLoop_spec mm ee hM _ _ _ hR.nonneg (by decide) (by decide)
  have e1 : (2 : ℚ) ^ (-53 : ℤ) ≤ 1 := by norm_num
  have e2 : (2 : ℚ) ^ (-1075 : ℤ) ≤ 1 := zpow_le_one_of_nonpos₀ (by norm_num) (by norm_num)
  have e3 : (amount : ℚ) * 2 ^ (-53 : ℤ) ≤ amount * 1 :=
    mul_le_mul_of_nonneg_left e1 (by positivity)
  have e4 : (3 : ℚ) * 2 ^ 64 ≤ 99 * 999 ^ ("kMGTPEZY".data).length := by
    simp only [String.data, List.length_cons, List.length_nil]; norm_num
  linarith

theorem tooLarge_false (w : Int) (h1 : -1000000 ≤ w) (h2 : w ≤ 1000000) : tooLarge w = false := by
  unfold tooLarge
  simp only [decide_eq_false_iff_not]
  omega

theorem sprintfPlain_length (w : Int) (n : Nat) (pad : String) (h1 : 1 ≤ w)
    (h2 : w ≤ 1000000) (hn : n < 10 ^ w.toNat) :
    (sprintfPlain w n pad).length = w.toNat + pad.length := by
  have hlen : (Nat.repr n).length ≤ w.toNat := Nat.repr_length n _ (by omega) hn
  unfold sprintfPlain Fmt.starWidth
  rw [tooLarge_false w (by omega) h2]
  simp only [Bool.false_eq_true, if_false, if_neg (not_lt.2 (le_trans zero_le_one h1))]
  rw [String.length_append, String.length_append]
  unfold Fmt.fmtD
  rw [Fmt.pad_length _ w.toNat _ rfl]
  have : "".length = 0 := rfl
  omega

theorem sprintfScaled_length (w p : Int) (m : Nat) (e : Int) (c : Char) (h1 : 0 ≤ w)
    (h2 : w ≤ 1000000) (h3 : 0 ≤ p) (h4 : p ≤ 1000000) :
    (sprintfScaled w p (.fin false m e) c).length
      = max w.toNat (decimalF p.toNat m e).length + 1 := by
  unfold sprintfScaled Fmt.starWidth Fmt.starPrec
  rw [tooLarge_false w (by omega) h2, tooLarge_false p (by omega) h4]
  simp only [Bool.false_eq_true, if_false, if_neg (not_lt.2 h1), false_or, if_neg (not_lt.2 h3)]
  rw [String.length_append, String.length_append, String.length_append]
  unfold Fmt.fmtF
  simp only [Option.getD_some]
  rw [Fmt.pad_length _ w.toNat _ rfl]
  have : "".length = 0 := rfl
  have : (String.singleton c).length = 1 := rfl
  omega

theorem scaled_bound (v : ℚ) (d p : Nat) (hv : v < 10 ^ d - 1 / 2) :
    v * 10 ^ p + 1 / 2 < 10 ^ (d + p) := by
  have h1 : (1 : ℚ) ≤ 10 ^ p := one_le_pow₀ (by norm_num)
  have h2 : v * 10 ^ p < (10 ^ d - 1 / 2) * 10 ^ p :=
    mul_lt_mul_of_pos_right hv (by positivity)
  rw [pow_add]
  nlinarith

theorem lit95_eq : F64.lit 95 100 = .fin false 8556839292003942 (-53) := by decide!

theorem amountDigits_cases (m : Nat) (e : Int) :
    ((F64.fin false m e).toRat < 10 ^ 1 - 1 / 2 ∧ amountDigits (.fin false m e) = 0 ∧
      (F64.fin false m e).lt (F64.lit 95 100) = true) ∨
    ((F64.fin false m e).toRat < 10 ^ 1 - 1 / 2 ∧ amountDigits (.fin false m e) = 1 ∧
      (F64.fin false m e).lt (F64.lit 95 100) = false) ∨
    ((F64.fin false m e).toRat < 10 ^ 2 - 1 / 2 ∧ amountDigits (.fin false m e) = 2 ∧
      (F64.fin false m e).lt (F64.lit 95 100) = false) ∨
    (199 / 2 ≤ (F64.fin false m e).toRat ∧ amountDigits (.fin false m e) = 3 ∧
      (F64.fin false m e).lt (F64.lit 95 100) = false) := by
  have c1 : (F64.fin false 199 (-1)).toRat = 199 / 2 := by norm_num [F64.toRat]
  have c2 : (F64.fin false 19 (-1)).toRat = 19 / 2 := by norm_num [F64.toRat]
  have c3 : (F64.fin false 8556839292003942 (-53)).toRat < 19 / 2 := by norm_num [F64.toRat]
  unfold amountDigits
  rw [lit95_eq]
  by_cases h1 : (F64.fin false m e).lt (.fin false 199 (-1)) = true
  · by_cases h2 : (F64.fin false m e).lt (.fin false 19 (-1)) = true
    · have v2 := (F64.lt_fin _ _ _ _ _ _).1 h2
      rw [c2] at v2
      by_cases h3 : (F64.fin false m e).lt (.fin false 8556839292003942 (-53)) = true
      · left
        simp only [h1, h2, h3, if_true]
        exact ⟨by linarith, trivial, trivial⟩
      · right; left
        simp only [h1, h2, h3, if_true]
        exact ⟨by linarith, by simp, trivial⟩
    · right; right; left
      have v1 := (F64.lt_fin _ _ _ _ _ _).1 h1
      rw [c1] at v1
      have h3 : ¬ (F64.fin false m e).lt (.fin false 8556839292003942 (-53)) = true := by
        rw [F64.lt_fin] at h2 ⊢
        rw [c2] at h2
        intro h; exact h2 (lt_trans h c3)
      simp only [h1, h2, if_true, if_false]
      exact ⟨by linarith, by simp, Bool.eq_false_iff.2 h3⟩
  · right; right; right
    have v1 : ¬ (F64.fin false m e).toRat < 199 / 2 := by
      rw [← c1, ← F64.lt_fin]; exact h1
    have h3 : ¬ (F64.fin false m e).lt (.fin false 8556839292003942 (-53)) = true := by
      rw [F64.lt_fin]
      intro h; exact v1 (by linarith)
    simp only [h1, if_false]
    exact ⟨not_lt.1 v1, by simp, Bool.eq_false_iff.2 h3⟩


/-- Length of the scaled rendering: the effective width, plus one when the leading
character is about to be dropped. -/
theorem amountRendered_length (mm : Nat) (ee : Int)
    (hM : (199 : ℚ) / 2 ≤ (F64.fin false mm ee).toRat)
    (hM2 : (F64.fin false mm ee).toRat ≤ 1999 / 2)
    (amount : Nat) (ha : amount < 2 ^ 64) (width : Int) (hw : 3 ≤ width)
    (hw2 : width ≤ 1000001)
    (hnar : width = 3 → (F64.fin false mm ee).toRat ≤ 199 / 2) :
    (amountRendered (.fin false mm ee) amount width).length =
      width.toNat +
        (if (amountScale (.fin false mm ee) amount).1.lt (F64.lit 95 100) then 1 else 0) := by
  obtain ⟨⟨m, e, hr⟩, hlt, _⟩ := amountScale_spec mm ee hM amount ha
  rw [hr, F64.lt_fin] at hlt
  unfold amountRendered
  rw [hr]
  have hp0 : ∀ d : Int, 0 ≤ d → d ≤ 3 → 0 ≤ amountPrecision (width - 1) d ∧
      amountPrecision (width - 1) d ≤ 1000000 := by
    intro d hd0 hd3
    unfold amountPrecision
    split_ifs <;> omega
  rcases amountDigits_cases m e with ⟨hv, hd, hl⟩ | ⟨hv, hd, hl⟩ | ⟨hv, hd, hl⟩ | ⟨hv, hd, hl⟩
  · -- no integer digit: one character more than the width
    rw [hd, hl, if_pos rfl]
    obtain ⟨hp1, hp2⟩ := hp0 0 (by norm_num) (by norm_num)
    rw [sprintfScaled_length _ _ _ _ _ (by omega) (by omega) hp1 hp2]
    have hpe : (amountPrecision (width - 1) 0).toNat = (width - 2).toNat := by
      unfold amountPrecision; split_ifs <;> omega
    have hle := decimalF_length_le (width - 2).toNat m e 1 le_rfl
      (scaled_bound _ 1 _ hv)
    have hge := decimalF_length_ge (width - 2).toNat m e
    rw [hpe]
    have hne : (width - 2).toNat ≠ 0 := by omega
    rw [if_neg hne] at hle hge
    omega
  · rw [hd, hl]
    obtain ⟨hp1, hp2⟩ := hp0 1 (by norm_num) (by norm_num)
    rw [sprintfScaled_length _ _ _ _ _ (by omega) (by omega) hp1 hp2]
    have hle := decimalF_length_le (amountPrecision (width - 1) 1).toNat m e 1 le_rfl
      (scaled_bound _ 1 _ hv)
    simp only [Bool.false_eq_true, if_false, add_zero]
    unfold amountPrecision at hle ⊢
    split_ifs at hle ⊢ <;> omega
  · rw [hd, hl]
    obtain ⟨hp1, hp2⟩ := hp0 2 (by norm_num) (by norm_num)
    rw [sprintfScaled_length _ _ _ _ _ (by omega) (by omega) hp1 hp2]
    have hle := decimalF_length_le (amountPrecision (width - 1) 2).toNat m e 2 (by norm_num)
      (scaled_bound _ 2 _ hv)
    simp only [Bool.false_eq_true, if_false, add_zero]
    unfold amountPrecision at hle ⊢
    split_ifs at hle ⊢ <;> omega
  · rw [hd, hl]
    have hw4 : 4 ≤ width := by
      by_contra hc
      have := hnar (by omega)
      linarith
    obtain ⟨hp1, hp2⟩ := hp0 3 (by norm_num) (by norm_num)
    rw [sprintfScaled_length _ _ _ _ _ (by omega) (by omega) hp1 hp2]
    have hv3 : (F64.fin false m e).toRat < 10 ^ 3 - 1 / 2 := by
      have : ((10 : ℚ) ^ 3 - 1 / 2) = 1999 / 2 := by norm_num
      rw [this]; linarith
    have hle := decimalF_length_le (amountPrecision (width - 1) 3).toNat m e 3 (by norm_num)
      (scaled_bound _ 3 _ hv3)
    simp only [Bool.false_eq_true, if_false, add_zero]
    unfold amountPrecision at hle ⊢
    split_ifs at hle ⊢ <;> omega

/-- Width-fixity of the body of `FormatAmount`, for both regimes. -/
theorem formatAmountCore_length (mm : Nat) (ee : Int)
    (hM : (199 : ℚ) / 2 ≤ (F64.fin false mm ee).toRat)
    (hM2 : (F64.fin false mm ee).toRat ≤ 1999 / 2)
    (amount : Nat) (ha : amount < 2 ^ 64) (width : Int) (hw : 3 ≤ width)
    (hw2 : width ≤ 1000001)
    (hnar : width = 3 → (F64.fin false mm ee).toRat ≤ 199 / 2)
    (max : Nat) (hmax : max < 10 ^ 3 ∨ (4 ≤ width ∧ max < 10 ^ 4)) :
    (formatAmountCore amount width max (.fin false mm ee)).length = width.toNat := by
  unfold formatAmountCore
  split_ifs with h1 h2 h3
  · rw [sprintfPlain_length _ _ _ (by omega) (by omega)]
    · have : " ".length = 1 := rfl
      omega
    · calc amount ≤ max := h1
        _ < 10 ^ 4 := by rcases hmax with h | h <;> omega
        _ ≤ 10 ^ (width - 1).toNat := Nat.pow_le_pow_right (by norm_num) (by omega)
  · rw [sprintfPlain_length _ _ _ (by omega) (by omega)]
    · have : "".length = 0 := rfl
      omega
    · rcases hmax with h | h
      · calc amount ≤ max := h1
          _ < 10 ^ 3 := h
          _ ≤ 10 ^ width.toNat := Nat.pow_le_pow_right (by norm_num) (by omega)
      · calc amount ≤ max := h1
          _ < 10 ^ 4 := h.2
          _ ≤ 10 ^ width.toNat := Nat.pow_le_pow_right (by norm_num) (by omega)
  · have := amountRendered_length mm ee hM hM2 amount ha width hw hw2 hnar
    rw [if_pos h3] at this
    rw [String.length_mk, List.length_drop, ← String.length, this]
    omega
  · have := amountRendered_length mm ee hM hM2 amount ha width hw hw2 hnar
    rw [if_neg h3] at this
    rw [this]; omega

/-- Width-fixity of `FormatAmount` for every width the `fmt` package accepts. -/
theorem FormatAmount_length (amount : Nat) (ha : amount < 2 ^ 64) (width : Int)
    (hw : width ≤ 1000001) : (FormatAmount amount width).length = (effWidth width).toNat := by
  have c1 : (F64.fin false 199 (-1)).toRat = 199 / 2 := by norm_num [F64.toRat]
  have c2 : (F64.fin false 1999 (-1)).toRat = 1999 / 2 := by norm_num [F64.toRat]
  unfold FormatAmount effWidth
  by_cases hneg : width < 0
  · simp only [hneg, if_true, show ¬ ((5 : Int) < 4) by norm_num, if_false]
    exact formatAmountCore_length 1999 (-1) (by rw [c2]; norm_num) (by rw [c2]) amount ha _
      (by omega) (by omega) (fun h => by omega) 5000 (Or.inr ⟨by omega, by norm_num⟩)
  · simp only [hneg, if_false]
    by_cases h4 : width < 4
    · simp only [h4, if_true]
      exact formatAmountCore_length 199 (-1) (by rw [c1]) (by rw [c1]; norm_num) amount ha 3
        (by norm_num) (by norm_num) (fun _ => by rw [c1]) 999 (Or.inl (by norm_num))
    · simp only [h4, if_false]
      exact formatAmountCore_length 1999 (-1) (by rw [c2]; norm_num) (by rw [c2]) amount ha _
        (by omega) (by omega) (fun h => by omega) 5000 (Or.inr ⟨by omega, by norm_num⟩)

theorem wrap64_id (x : Int) (h1 : -2 ^ 63 ≤ x) (h2 : x < 2 ^ 63) : wrap64 x = x := by
  unfold wrap64
  rw [Int.emod_eq_of_lt (by omega) (by omega)]
  omega

theorem F64.toUint64_lt (conv : F64 → Nat) (x : F64) : F64.toUint64 conv x < 2 ^ 64 := by
  unfold F64.toUint64
  split
  · split_ifs with h
    · exact h.2
    · exact Nat.mod_lt _ (by norm_num)
  · exact Nat.mod_lt _ (by norm_num)

theorem FormatBytes_length (n : Nat) (w : Int) (hn : n < 2 ^ 64) (h1 : -2 ^ 63 < w)
    (h2 : w ≤ 1000002) : (FormatBytes n w).length = (effWidth (w - 1)).toNat + 1 := by
  unfold FormatBytes
  rw [wrap64_id _ (by omega) (by omega), String.length_append,
    FormatAmount_length n hn _ (by omega)]
  rfl

theorem F64.lt_zero (s : Bool) (m : Nat) (e : Int) (hm : m ≠ 0) :
    F64.lt (.fin s m e) (.fin false 0 0) = s := by
  have hpos : (0 : ℚ) < (m : ℚ) * 2 ^ e :=
    mul_pos (by exact_mod_cast Nat.pos_of_ne_zero hm) (two_zpow_pos e)
  have h0 : (F64.fin false 0 0).toRat = 0 := by simp [F64.toRat]
  cases s
  · apply Bool.eq_false_iff.2
    intro h
    rw [F64.lt_fin, h0] at h
    simp only [F64.toRat, Bool.false_eq_true, if_false, one_mul] at h
    linarith
  · rw [F64.lt_fin, h0]
    simp only [F64.toRat, if_true]
    linarith

/-- C5: `FormatBPS` does not see the sign of a non-zero finite duration. -/
theorem C5_formatBPS_sign_insensitive (conv : F64 → Nat) (n : Nat) (s : Bool) (m : Nat)
    (e : Int) (w : Int) (hm : m ≠ 0) :
    FormatBPS conv n (F64.neg (.fin s m e)) w = FormatBPS conv n (.fin s m e) w := by
  unfold FormatBPS
  simp only [F64.neg]
  rw [F64.lt_zero _ _ _ hm, F64.lt_zero _ _ _ hm]
  cases s <;> simp [F64.neg]

theorem C5_witness :
    (3 : Nat) ≠ 0 ∧ FormatBPS (fun _ => 0) 1000000 (F64.neg (.fin false 3 0)) 8
      = FormatBPS (fun _ => 0) 1000000 (.fin false 3 0) 8 :=
  ⟨by decide, C5_formatBPS_sign_insensitive (fun _ => 0) 1000000 false 3 0 8 (by decide)⟩

/-- C2: a negative width `w` means width 5, and a width `v` from 0 to 3 means width 3. -/
theorem C2_formatAmount_width_normalisation (amount : Nat) (w v : Int) (hw : w < 0)
    (hv0 : 0 ≤ v) (hv4 : v < 4) :
    FormatAmount amount w = FormatAmount amount 5 ∧
    FormatAmount amount v = FormatAmount amount 3 := by
  constructor
  · unfold FormatAmount
    simp [hw]
  · unfold FormatAmount
    simp [not_lt.2 hv0, hv4]

theorem C2_witness :
    (-7 : Int) < 0 ∧ (0 : Int) ≤ 2 ∧ (2 : Int) < 4 ∧
    FormatAmount 1500 (-7) = FormatAmount 1500 5 ∧
    FormatAmount 1500 2 = FormatAmount 1500 3 :=
  ⟨by decide, by decide, by decide,
    C2_formatAmount_width_normalisation 1500 (-7) 2 (by decide) (by decide) (by decide)⟩

/-- C1: for every uint64 amount and every width that is 3 or lies in 4..20,
`FormatAmount` returns exactly `w` characters, `w` being its own effective width; so
every uint32 amount at width 5 gives 5 characters. -/
theorem C1_formatAmount_width_fixity (amount : Nat) (w : Int) (ha : amount < 2 ^ 64)
    (hw : w = 3 ∨ (4 ≤ w ∧ w ≤ 20)) :
    ((FormatAmount amount w).length : Int) = w ∧ effWidth w = w ∧
    (amount < 2 ^ 32 → (FormatAmount amount 5).length = 5) := by
  have he : effWidth w = w := by
    unfold effWidth
    rcases hw with h | h
    · subst h; decide
    · simp [not_lt.2 (le_trans (by norm_num : (0 : Int) ≤ 4) h.1), not_lt.2 h.1]
  refine ⟨?_, he, fun _ => ?_⟩
  · rw [FormatAmount_length amount ha w (by omega), he]
    omega
  · rw [FormatAmount_length amount ha 5 (by norm_num)]
    decide

theorem C1_witness :
    123456 < 2 ^ 64 ∧ ((5 : Int) = 3 ∨ (4 ≤ (5 : Int) ∧ (5 : Int) ≤ 20)) ∧
    ((FormatAmount 123456 5).length : Int) = 5 ∧ effWidth 5 = 5 ∧
    (123456 < 2 ^ 32 → (FormatAmount 123456 5).length = 5) :=
  ⟨by norm_num, by decide,
    C1_formatAmount_width_fixity 123456 5 (by norm_num) (by decide)⟩

theorem effWidth_cases (w : Int) :
    effWidth w = if w < 0 then 5 else if w < 4 then 3 else w := by
  unfold effWidth
  split_ifs <;> omega

theorem last_append_B (s : String) : (s ++ "B").data.getLast? = some 'B' := by
  rw [String.data_append]
  simp

/-- C3 (amended): `FormatBytes` ends in `B` for every byte count and every width. For
widths the `fmt` package accepts (`w - 1` at most 1000001) its length is `w` from 4 on, 4 for `w` in 1..3, and 6 for `w`
zero or negative, where `w - 1` is negative and selects the default width 5. -/
theorem C3_formatBytes_shape (n : Nat) (w : Int) (hn : n < 2 ^ 64) (h1 : -2 ^ 63 < w)
    (h2 : w ≤ 1000002) :
    (∀ (k : Nat) (v : Int), (FormatBytes k v).data.getLast? = some 'B') ∧
    ((FormatBytes n w).length : Int) = (if 4 ≤ w then w else if 1 ≤ w then 4 else 6) := by
  refine ⟨fun _ _ => last_append_B _, ?_⟩
  rw [FormatBytes_length n w hn h1 h2, effWidth_cases]
  split_ifs <;> omega

theorem C3_witness :
    0 < 2 ^ 64 ∧ (-2 ^ 63 : Int) < 0 ∧ (0 : Int) ≤ 1000002 ∧
    (∀ (k : Nat) (v : Int), (FormatBytes k v).data.getLast? = some 'B') ∧
    ((FormatBytes 0 0).length : Int) = (if (4 : Int) ≤ 0 then 0 else if (1 : Int) ≤ 0 then 4 else 6) :=
  ⟨by norm_num, by norm_num, by norm_num,
    C3_formatBytes_shape 0 0 (by norm_num) (by norm_num) (by norm_num)⟩

/-- C3 (as stated) fails: width 0 gives 6 characters, not 4, and a width beyond what
`fmt` accepts is not honoured. -/
theorem C3_counterexample :
    (FormatBytes 0 0).length ≠ 4 ∧ (FormatBytes 0 2000000).length ≠ 2000000 := by
  decide!

theorem toDigitsCore_append (b : Nat) : ∀ (f n : Nat) (ds : List Char),
    ∃ l, Nat.toDigitsCore b f n ds = l ++ ds
  | 0, n, ds => ⟨[], by simp [Nat.toDigitsCore]⟩
  | f + 1, n, ds => by
    rw [Nat.toDigitsCore]
    split_ifs
    · exact ⟨[Nat.digitChar (n % b)], by simp⟩
    · obtain ⟨l, hl⟩ := toDigitsCore_append b f (n / b) (Nat.digitChar (n % b) :: ds)
      exact ⟨l ++ [Nat.digitChar (n % b)], by rw [hl]; simp⟩

theorem repr_data (n : Nat) : ∃ l, (Nat.repr n).data = l ++ [Nat.digitChar (n % 10)] := by
  unfold Nat.repr Nat.toDigits
  simp only [List.asString]
  rw [Nat.toDigitsCore]
  split_ifs
  · exact ⟨[], by simp⟩
  · exact toDigitsCore_append 10 n (n / 10) [Nat.digitChar (n % 10)]

theorem digitChar_not_suffix (n : Nat) : Nat.digitChar (n % 10) ∉ "kMGTPEZY".data := by
  have h : n % 10 < 10 := Nat.mod_lt _ (by norm_num)
  interval_cases (n % 10) <;> decide

theorem sprintfPlain_last (w : Int) (n : Nat) (hw : 0 ≤ w) :
    ∃ l, (sprintfPlain w n "").data = l ++ [Nat.digitChar (n % 10)] := by
  obtain ⟨l, hl⟩ := repr_data n
  unfold sprintfPlain Fmt.starWidth Fmt.fmtD Fmt.pad
  by_cases ht : tooLarge w = true
  · simp only [ht, if_true, String.data_append, hl]
    exact ⟨"%!(BADWIDTH)".data ++ l, by simp⟩
  · simp only [ht, if_false, if_neg (not_lt.2 hw), String.data_append, hl, Bool.false_eq_true]
    exact ⟨"".data ++ List.replicate (w.toNat - (Nat.repr n).length) ' ' ++ l, by simp⟩

theorem Fmt.pad_length_ge (f : Fmt) (s : String) : s.length ≤ (f.pad s).length := by
  unfold Fmt.pad
  split
  · exact le_rfl
  · split_ifs <;> simp only [String.length_append, String.length_mk, List.length_replicate] <;>
      omega

theorem Fmt.fmtF_fin (f : Fmt) (m : Nat) (e : Int) :
    f.fmtF (.fin false m e) = f.pad (decimalF (f.prec.getD 6) m e) := rfl

theorem sprintfScaled_data (w p : Int) (m : Nat) (e : Int) (c : Char) :
    ∃ l, l ≠ [] ∧ (sprintfScaled w p (.fin false m e) c).data = l ++ [c] := by
  unfold sprintfScaled
  simp only [String.data_append]
  refine ⟨_, ?_, rfl⟩
  intro h
  have h1 := congrArg List.length h
  simp only [List.length_append, List.length_nil] at h1
  have h2 := Fmt.pad_length_ge ((Fmt.starWidth {} w).2.starPrec p).2
    (decimalF (((Fmt.starWidth {} w).2.starPrec p).2.prec.getD 6) m e)
  have h3 := decimalF_length_ge (((Fmt.starWidth {} w).2.starPrec p).2.prec.getD 6) m e
  rw [Fmt.fmtF_fin] at h1
  simp only [String.length] at h2 h3
  omega

theorem getLast_snoc (l : List Char) (a : Char) : (l ++ [a]).getLast? = some a := by
  simp

theorem formatAmountCore_suffix (mm : Nat) (ee : Int)
    (hM : (199 : ℚ) / 2 ≤ (F64.fin false mm ee).toRat)
    (amount : Nat) (ha : amount < 2 ^ 64) (width : Int) (hw : 3 ≤ width) (max : Nat) :
    endsInSuffix (formatAmountCore amount width max (.fin false mm ee)) ↔ max < amount := by
  unfold formatAmountCore endsInSuffix
  by_cases h1 : amount ≤ max
  · simp only [h1, if_true, not_lt.2 h1, iff_false]
    rintro ⟨c, hc, hmem⟩
    split_ifs at hc
    · unfold sprintfPlain at hc
      simp only [String.data_append] at hc
      rw [getLast_snoc] at hc
      cases hc
      revert hmem; decide
    · obtain ⟨l, hl⟩ := sprintfPlain_last width amount (by omega)
      rw [hl, getLast_snoc] at hc
      cases hc
      exact digitChar_not_suffix amount hmem
  · simp only [h1, if_false, not_le.1 h1, iff_true]
    obtain ⟨⟨m, e, hr⟩, _, hmem⟩ := amountScale_spec mm ee hM amount ha
    obtain ⟨l, hne, hl⟩ := sprintfScaled_data (width - 1)
      (amountPrecision (width - 1) (amountDigits (amountScale (.fin false mm ee) amount).1))
      m e (amountScale (.fin false mm ee) amount).2
    refine ⟨(amountScale (.fin false mm ee) amount).2, ?_, hmem⟩
    unfold amountRendered
    rw [hr] at hl ⊢
    rw [hl]
    split_ifs
    · obtain ⟨x, xs, rfl⟩ := List.exists_cons_of_ne_nil hne
      exact getLast_snoc xs _
    · rw [hl]; exact getLast_snoc l _


/-- C8: the output ends in an SI suffix letter exactly when the amount exceeds the
regime's cutoff, 999 at effective width 3 and 5000 at effective width 4 or more (there
is no other effective width); 5000 and 999 are still plain, 5001 and 1000 end in `k`. -/
theorem C8_plain_scaled_cutoff (amount : Nat) (w : Int) (ha : amount < 2 ^ 64) :
    (endsInSuffix (FormatAmount amount w) ↔ (if effWidth w = 3 then 999 else 5000) < amount) ∧
    (effWidth w = 3 ∨ 4 ≤ effWidth w) ∧
    FormatAmount 5000 5 = " 5000" ∧ (FormatAmount 5001 5).data.getLast? = some 'k' ∧
    FormatAmount 999 3 = "999" ∧ (FormatAmount 1000 3).data.getLast? = some 'k' := by
  have c1 : (F64.fin false 199 (-1)).toRat = 199 / 2 := by norm_num [F64.toRat]
  have c2 : (F64.fin false 1999 (-1)).toRat = 1999 / 2 := by norm_num [F64.toRat]
  refine ⟨?_, ?_, by decide!, by decide!, by decide!, by decide!⟩
  · unfold FormatAmount
    rw [effWidth_cases]
    by_cases hneg : w < 0
    · simp only [hneg, if_true, show ¬ ((5 : Int) < 4) by norm_num, if_false,
        show ¬ ((5 : Int) = 3) by norm_num]
      exact formatAmountCore_suffix 1999 (-1) (by rw [c2]; norm_num) amount ha 5 (by norm_num) 5000
    · by_cases h4 : w < 4
      · simp only [hneg, h4, if_true, if_false]
        exact formatAmountCore_suffix 199 (-1) (by rw [c1]) amount ha 3 (by norm_num) 999
      · simp only [hneg, h4, if_false, show ¬ (w = 3) by omega]
        exact formatAmountCore_suffix 1999 (-1) (by rw [c2]; norm_num) amount ha w (by omega) 5000
  · rw [effWidth_cases]
    split_ifs <;> omega

theorem C8_witness :
    5001 < 2 ^ 64 ∧
    (endsInSuffix (FormatAmount 5001 5) ↔ (if effWidth 5 = 3 then 999 else 5000) < 5001) ∧
    (effWidth 5 = 3 ∨ 4 ≤ effWidth 5) ∧
    FormatAmount 5000 5 = " 5000" ∧ (FormatAmount 5001 5).data.getLast? = some 'k' ∧
    FormatAmount 999 3 = "999" ∧ (FormatAmount 1000 3).data.getLast? = some 'k' :=
  ⟨by norm_num, C8_plain_scaled_cutoff 5001 5 (by norm_num)⟩

/-- C9: `FormatAmount(1500, 3)` is `" 2k"`: 1.5 rendered with no decimals in two columns. -/
theorem C9_formatAmount_1500_narrow : FormatAmount 1500 3 = " 2k" := by decide!

/-- C10 (as stated) fails: the rendering of the largest uint64 carries no `Y`. -/
theorem C10_counterexample : 'Y' ∉ (FormatAmount (2 ^ 64 - 1) 5).data := by decide!

/-- C10 (amended): `FormatAmount(2^64 - 1, 5)` is the non-empty string `"18.4E"`, with
the suffix `E`. -/
theorem C10_formatAmount_max : FormatAmount (2 ^ 64 - 1) 5 = "18.4E" := by decide!

/-- C4 (amended): `FormatBPS` always ends in `B/s`; for a width from 6 up to the largest
one the `fmt` package accepts (1000004) it has exactly `w` characters, and exactly 8 with
the width unspecified (`-1`). This holds whatever the duration is. -/
theorem C4_formatBPS_shape (conv : F64 → Nat) (n : Nat) (sec : F64) (w : Int)
    (hw : (6 ≤ w ∧ w ≤ 1000004) ∨ w = -1) :
    "B/s".data <:+ (FormatBPS conv n sec w).data ∧
    ((FormatBPS conv n sec w).length : Int) = (if w = -1 then 8 else w) := by
  constructor
  · unfold FormatBPS FormatBytes
    simp only [String.data_append, List.append_assoc]
    exact ⟨_, rfl⟩
  · unfold FormatBPS
    rw [String.length_append, wrap64_id _ (by omega) (by omega),
      FormatBytes_length _ _ (F64.toUint64_lt conv _) (by omega) (by omega), effWidth_cases]
    have : "/s".length = 2 := rfl
    split_ifs <;> omega

theorem C4_witness :
    (((6 : Int) ≤ 8 ∧ (8 : Int) ≤ 1000004) ∨ (8 : Int) = -1) ∧
    "B/s".data <:+ (FormatBPS (fun _ => 0) 1000000 (F64.ofNat 3) 8).data ∧
    ((FormatBPS (fun _ => 0) 1000000 (F64.ofNat 3) 8).length : Int)
      = (if (8 : Int) = -1 then 8 else 8) :=
  ⟨by decide, C4_formatBPS_shape (fun _ => 0) 1000000 (F64.ofNat 3) 8 (by decide)⟩

/-- C4 (as stated) fails for a width `fmt` does not accept: no bytes over one second at
width 2000000 is not 2000000 characters long. -/
theorem C4_counterexample :
    (FormatBPS (fun _ => 0) 0 (F64.ofNat 1) 2000000).length ≠ 2000000 := by decide!

/-- C7 (code at the failing input): the duration 0.0009995 s is rendered `1000us`,
which has six characters. -/
theorem C7_formatDuration_1000us :
    FormatDuration (F64.lit 9995 10000000) = "1000us" ∧
    (FormatDuration (F64.lit 9995 10000000)).length = 6 := by decide!

theorem round_sign (s : Bool) (num den m : Nat) (e : Int)
    (h : F64.round false num den = .fin false m e) : F64.round s num den = .fin s m e := by
  unfold F64.round at h ⊢
  split_ifs at h ⊢ with h1 h2
  · injection h with _ h3 h4
    rw [h3, h4]
  · injection h with _ h3 h4
    rw [h3, h4]

theorem Rounds.repr64 {r : F64} {x : ℚ} (h : Rounds r x) : Repr64 r := by
  obtain ⟨m, e, hr, hx0, he, herr, h3, h4⟩ := h
  refine ⟨m, e, hr, ?_, he⟩
  have h5 := (abs_le.1 herr).2
  have hpos := two_zpow_pos e
  have h6 : (2 : ℚ) ^ (e + 53) = 2 ^ e * 2 ^ (53 : ℕ) := by
    rw [zpow_add₀ (by norm_num), ← zpow_natCast]; rfl
  have h7 : (m : ℚ) * 2 ^ e < (2 ^ (53 : ℕ) + 1) * 2 ^ e := by
    rw [h6] at h4
    nlinarith
  have h8 : (m : ℚ) < 2 ^ (53 : ℕ) + 1 := lt_of_mul_lt_mul_right h7 (le_of_lt hpos)
  have h9 : m < 2 ^ 53 + 1 := by exact_mod_cast h8
  omega

/-- A representable value from `2^(g+52)` on is a multiple of `2^g`. -/
theorem Repr64.on_grid {r : F64} (h : Repr64 r) (g : ℤ) (hr : (2 : ℚ) ^ (g + 52) ≤ r.toRat) :
    ∃ n : ℕ, r.toRat = n * 2 ^ g := by
  obtain ⟨m, e, rfl, hm, he⟩ := h
  simp only [F64.toRat, Bool.false_eq_true, if_false, one_mul] at hr ⊢
  have hm' : (m : ℚ) ≤ 2 ^ (53 : ℕ) := by exact_mod_cast hm
  have hpos := two_zpow_pos e
  by_cases hge : g ≤ e
  · refine ⟨m * 2 ^ (e - g).toNat, ?_⟩
    push_cast
    rw [mul_assoc, ← zpow_natCast, Int.toNat_of_nonneg (by omega), ← zpow_add₀ (by norm_num)]
    congr 2; ring
  · -- then `m` must be `2^53` and `e = g - 1`
    have h1 : (2 : ℚ) ^ (g + 52) ≤ 2 ^ (53 : ℕ) * 2 ^ e :=
      le_trans hr (mul_le_mul_of_nonneg_right hm' (le_of_lt hpos))
    rw [← zpow_natCast, ← zpow_add₀ (by norm_num)] at h1
    have h2 := (zpow_le_zpow_iff_right₀ (by norm_num : (1 : ℚ) < 2)).1 h1
    have h3 : e = g - 1 := by push_cast at h2; omega
    subst h3
    have h4 : (2 : ℚ) ^ (g + 52) = 2 ^ (53 : ℕ) * 2 ^ (g - 1) := by
      rw [← zpow_natCast, ← zpow_add₀ (by norm_num)]; congr 1; push_cast; ring
    rw [h4] at hr
    have h5 : (2 : ℚ) ^ (53 : ℕ) ≤ m := le_of_mul_le_mul_right hr hpos
    have h6 : (m : ℚ) = 2 ^ (53 : ℕ) := le_antisymm hm' h5
    refine ⟨2 ^ 52, ?_⟩
    rw [h6]
    have h7 : (2 : ℚ) ^ g = 2 * 2 ^ (g - 1) := by
      rw [zpow_sub_one₀ (by norm_num)]; field_simp
    rw [h7]
    push_cast
    ring

/-- Below a bound `k * 2^g` that lies at or above `2^(g+52) + 2^g`, a representable
value is at most the grid point before it. -/
theorem Repr64.le_pred {r : F64} (h : Repr64 r) (g : ℤ) (k : ℕ) (hk : 2 ^ 52 + 1 ≤ k)
    (hr : r.toRat < k * 2 ^ g) : r.toRat ≤ (k - 1 : ℚ) * 2 ^ g := by
  have hpos := two_zpow_pos g
  have hk' : ((2 : ℚ) ^ (52 : ℕ) + 1) ≤ k := by exact_mod_cast hk
  have h52 : (2 : ℚ) ^ (g + 52) = 2 ^ (52 : ℕ) * 2 ^ g := by
    rw [← zpow_natCast, ← zpow_add₀ (by norm_num)]; congr 1; push_cast; ring
  by_cases hlow : (2 : ℚ) ^ (g + 52) ≤ r.toRat
  · obtain ⟨n, hn⟩ := h.on_grid g hlow
    rw [hn] at hr ⊢
    have h1 : (n : ℚ) < k := lt_of_mul_lt_mul_right hr (le_of_lt hpos)
    have h2 : n < k := by exact_mod_cast h1
    have h3 : (n : ℚ) ≤ (k : ℚ) - 1 := by
      have : n + 1 ≤ k := h2
      have : ((n + 1 : ℕ) : ℚ) ≤ k := by exact_mod_cast this
      push_cast at this; linarith
    exact mul_le_mul_of_nonneg_right h3 (le_of_lt hpos)
  · have h1 := lt_of_not_le hlow
    rw [h52] at h1
    have h2 : (2 : ℚ) ^ (52 : ℕ) * 2 ^ g ≤ (k - 1 : ℚ) * 2 ^ g :=
      mul_le_mul_of_nonneg_right (by linarith) (le_of_lt hpos)
    linarith


/-- Rounding is monotone against a representable lower bound. -/
theorem Rounds.mono_ge {r : F64} {x : ℚ} (h : Rounds r x) (K : ℕ) (g : ℤ)
    (hg : -1074 ≤ g) (hK : K ≤ 2 ^ 53) (hx : (K : ℚ) * 2 ^ g ≤ x) : (K : ℚ) * 2 ^ g ≤ r.toRat := by
  obtain ⟨m, e, rfl, hx0, he, herr, h3, h4⟩ := h
  simp only [F64.toRat, Bool.false_eq_true, if_false, one_mul]
  have h5 := (abs_le.1 herr).1
  have hpe := two_zpow_pos e
  have hpg := two_zpow_pos g
  have hK' : (K : ℚ) ≤ 2 ^ (53 : ℕ) := by exact_mod_cast hK
  by_cases hge : e ≤ g
  · have hsplit : (2 : ℚ) ^ g = ((2 ^ (g - e).toNat : ℕ) : ℚ) * 2 ^ e := by
      push_cast
      rw [← zpow_natCast, Int.toNat_of_nonneg (by omega), ← zpow_add₀ (by norm_num)]
      congr 1; ring
    rw [hsplit, ← mul_assoc] at hx ⊢
    have h6 : ((K : ℚ) * ((2 ^ (g - e).toNat : ℕ) : ℚ) - 1 / 2) * 2 ^ e ≤ (m : ℚ) * 2 ^ e := by
      nlinarith
    have h7 : (K : ℚ) * ((2 ^ (g - e).toNat : ℕ) : ℚ) - 1 / 2 ≤ (m : ℚ) :=
      le_of_mul_le_mul_right h6 hpe
    have h8 : K * 2 ^ (g - e).toNat ≤ m := by
      by_contra hc
      have : m + 1 ≤ K * 2 ^ (g - e).toNat := by omega
      have : ((m + 1 : ℕ) : ℚ) ≤ ((K * 2 ^ (g - e).toNat : ℕ) : ℚ) := by exact_mod_cast this
      push_cast at this h7
      linarith
    have h9 : ((K * 2 ^ (g - e).toNat : ℕ) : ℚ) ≤ (m : ℚ) := by exact_mod_cast h8
    push_cast at h9 ⊢
    exact mul_le_mul_of_nonneg_right h9 (le_of_lt hpe)
  · have hbig : (2 : ℚ) ^ (e + 52) ≤ x := by
      rcases h3 with h | h
      · omega
      · exact h
    have h52 : (2 : ℚ) ^ (e + 52) = 2 ^ (52 : ℕ) * 2 ^ e := by
      rw [← zpow_natCast, ← zpow_add₀ (by norm_num)]; congr 1; push_cast; ring
    rw [h52] at hbig
    have h6 : ((2 : ℚ) ^ (52 : ℕ) - 1 / 2) * 2 ^ e ≤ (m : ℚ) * 2 ^ e := by nlinarith
    have h7 : (2 : ℚ) ^ (52 : ℕ) - 1 / 2 ≤ (m : ℚ) := le_of_mul_le_mul_right h6 hpe
    have h8 : 2 ^ 52 ≤ m := by
      by_contra hc
      have : m + 1 ≤ 2 ^ 52 := by omega
      have : ((m + 1 : ℕ) : ℚ) ≤ ((2 ^ 52 : ℕ) : ℚ) := by exact_mod_cast this
      push_cast at this h7
      linarith
    have h9 : (2 : ℚ) ^ (52 : ℕ) ≤ (m : ℚ) := by exact_mod_cast h8
    have h10 : (2 : ℚ) ^ (53 : ℕ) * 2 ^ g ≤ 2 ^ (52 : ℕ) * 2 ^ e := by
      rw [← zpow_natCast, ← zpow_natCast, ← zpow_add₀ (by norm_num), ← zpow_add₀ (by norm_num)]
      apply two_zpow_le
      push_cast; omega
    calc (K : ℚ) * 2 ^ g ≤ 2 ^ (53 : ℕ) * 2 ^ g := mul_le_mul_of_nonneg_right hK' (le_of_lt hpg)
      _ ≤ 2 ^ (52 : ℕ) * 2 ^ e := h10
      _ ≤ (m : ℚ) * 2 ^ e := mul_le_mul_of_nonneg_right h9 (le_of_lt hpe)

theorem F64.mul_rounds (m : Nat) (e : Int) (n : Nat) (f : Int)
    (hx : (F64.fin false m e).toRat * (F64.fin false n f).toRat < 2 ^ (1023 : ℤ)) :
    Rounds (F64.mul (.fin false m e) (.fin false n f))
      ((F64.fin false m e).toRat * (F64.fin false n f).toRat) := by
  have hq : ((m * n * 2 ^ (e + f).toNat : ℕ) : ℚ) / ((2 ^ (-(e + f)).toNat : ℕ) : ℚ)
      = (F64.fin false m e).toRat * (F64.fin false n f).toRat := by
    simp only [F64.toRat, Bool.false_eq_true, if_false, one_mul]
    have h1 : (2 : ℚ) ^ e * 2 ^ f = 2 ^ (e + f) := (zpow_add₀ (by norm_num) e f).symm
    have h2 := two_zpow_split (e + f)
    push_cast
    rw [mul_mul_mul_comm, h1, h2]
    ring
  simp only [F64.mul, Bool.xor_false]
  rw [← hq]
  exact round_rounds _ _ (by positivity) (by rw [hq]; exact hx)

/-- The floor of a non-negative finite float is the natural number just below it. -/
theorem F64.floor_spec (m : Nat) (e : Int) :
    ∃ n : ℕ, F64.floor (.fin false m e) = .fin false n 0 ∧
      (n : ℚ) ≤ (F64.fin false m e).toRat ∧ (F64.fin false m e).toRat < n + 1 := by
  have hD : 0 < 2 ^ (-(min e 0)).toNat := by positivity
  refine ⟨m * 2 ^ (e - min e 0).toNat / 2 ^ (-(min e 0)).toNat, ?_, ?_, ?_⟩
  · simp only [F64.floor, snum, if_false, Bool.false_eq_true, one_mul]
    have : ((m : ℤ) * 2 ^ (e - min e 0).toNat).fdiv (2 ^ (-(min e 0)).toNat)
        = ((m * 2 ^ (e - min e 0).toNat / 2 ^ (-(min e 0)).toNat : ℕ) : ℤ) := by
      rw [Int.ofNat_fdiv]; push_cast; rfl
    rw [this, Int.natAbs_ofNat]
  all_goals
    have hv : (F64.fin false m e).toRat
        = ((m * 2 ^ (e - min e 0).toNat : ℕ) : ℚ) / ((2 ^ (-(min e 0)).toNat : ℕ) : ℚ) := by
      simp only [F64.toRat, Bool.false_eq_true, if_false, one_mul]
      push_cast
      rw [← zpow_natCast, ← zpow_natCast, Int.toNat_of_nonneg (by omega),
        Int.toNat_of_nonneg (by omega), mul_div_assoc, ← zpow_sub₀ (by norm_num)]
      congr 2; ring
    have hD' : (0 : ℚ) < ((2 ^ (-(min e 0)).toNat : ℕ) : ℚ) := by exact_mod_cast hD
    rw [hv]
  · rw [le_div_iff₀ hD']
    exact_mod_cast Nat.div_mul_le_self _ _
  · rw [div_lt_iff₀ hD']
    have := Nat.lt_div_mul_add (a := m * 2 ^ (e - min e 0).toNat) hD
    have h2 : m * 2 ^ (e - min e 0).toNat
        < (m * 2 ^ (e - min e 0).toNat / 2 ^ (-(min e 0)).toNat + 1) * 2 ^ (-(min e 0)).toNat := by
      rw [add_mul, one_mul]; exact this
    exact_mod_cast h2

/-- Subtraction of non-negative finite floats: the sign bit is set only when the
difference is negative, and the magnitude is the rounded magnitude of the difference. -/
theorem F64.sub_spec (m : Nat) (e : Int) (n : Nat) (f : Int)
    (hx : |(F64.fin false m e).toRat - (F64.fin false n f).toRat| < 2 ^ (1023 : ℤ)) :
    ∃ sg k j, F64.sub (.fin false m e) (.fin false n f) = .fin sg k j ∧
      (sg = true → (F64.fin false m e).toRat < (F64.fin false n f).toRat) ∧
      abs ((F64.fin false k j).toRat - abs ((F64.fin false m e).toRat - (F64.fin false n f).toRat))
        ≤ abs ((F64.fin false m e).toRat - (F64.fin false n f).toRat) * 2 ^ (-53 : ℤ)
          + 2 ^ (-1075 : ℤ) := by
  have hA := snum_cast false m e (min e f) (min_le_left e f)
  have hB := snum_cast false n f (min e f) (min_le_right e f)
  have hp := two_zpow_pos (-(min e f))
  by_cases heq : snum false m e (min e f) = snum false n f (min e f)
  · refine ⟨false, 0, 0, by simp [F64.sub, heq], by simp, ?_⟩
    have h1 : (F64.fin false m e).toRat = (F64.fin false n f).toRat := by
      have : (F64.fin false m e).toRat * 2 ^ (-(min e f))
          = (F64.fin false n f).toRat * 2 ^ (-(min e f)) := by rw [← hA, ← hB, heq]
      exact mul_right_cancel₀ (ne_of_gt hp) this
    rw [h1, sub_self, abs_zero]
    simp [F64.toRat]
    positivity
  · have hq : (((snum false m e (min e f) - snum false n f (min e f)).natAbs
        * 2 ^ (min e f).toNat : ℕ) : ℚ) / ((2 ^ (-(min e f)).toNat : ℕ) : ℚ)
        = |(F64.fin false m e).toRat - (F64.fin false n f).toRat| := by
      have h1 : (((snum false m e (min e f) - snum false n f (min e f)).natAbs : ℕ) : ℚ)
          = |(F64.fin false m e).toRat - (F64.fin false n f).toRat| * 2 ^ (-(min e f)) := by
        rw [Nat.cast_natAbs, Int.cast_abs, Int.cast_sub, hA, hB, ← sub_mul, abs_mul,
          abs_of_pos hp]
      have h2 := two_zpow_split (min e f)
      have h3 : (2 : ℚ) ^ (-(min e f)) = ((2 : ℚ) ^ (min e f))⁻¹ := zpow_neg _ _
      push_cast
      rw [h1, h3, h2]
      have h4 : (0 : ℚ) < 2 ^ (min e f).toNat := by positivity
      have h5 : (0 : ℚ) < 2 ^ (-(min e f)).toNat := by positivity
      field_simp
    have hR := round_rounds ((snum false m e (min e f) - snum false n f (min e f)).natAbs
        * 2 ^ (min e f).toNat) (2 ^ (-(min e f)).toNat) (by positivity) (by rw [hq]; exact hx)
    rw [hq] at hR
    obtain ⟨k, j, hkj⟩ := hR.nonneg
    refine ⟨decide (snum false m e (min e f) < snum false n f (min e f)), k, j, ?_, ?_, ?_⟩
    · simp only [F64.sub, heq, if_false]
      exact round_sign _ _ _ _ _ hkj
    · intro hs
      have hs' := of_decide_eq_true hs
      have : ((snum false m e (min e f) : ℤ) : ℚ) < ((snum false n f (min e f) : ℤ) : ℚ) :=
        Int.cast_lt.2 hs'
      rw [hA, hB] at this
      exact lt_of_mul_lt_mul_right this (le_of_lt hp)
    · rw [← hkj]
      exact hR.rel

theorem toDigitsCore_length_ge : ∀ (d f n : Nat) (ds : List Char), n < f → 10 ^ d ≤ n →
    d + 1 + ds.length ≤ (Nat.toDigitsCore 10 f n ds).length
  | 0, 0, n, ds, hf, _ => by omega
  | 0, f + 1, n, ds, _, _ => by
    rw [Nat.toDigitsCore]
    split_ifs
    · simp only [List.length_cons]; omega
    · obtain ⟨l, hl⟩ := toDigitsCore_append 10 f (n / 10) (Nat.digitChar (n % 10) :: ds)
      rw [hl]
      simp only [List.length_append, List.length_cons]
      omega
  | d + 1, 0, n, ds, hf, _ => by omega
  | d + 1, f + 1, n, ds, hf, hn => by
    rw [Nat.toDigitsCore]
    have h1 : 10 ^ d ≤ n / 10 := by
      rw [Nat.le_div_iff_mul_le (by norm_num), ← pow_succ]; exact hn
    have h2 : 0 < 10 ^ d := by positivity
    have h3 : n / 10 ≠ 0 := by omega
    rw [if_neg h3]
    have := toDigitsCore_length_ge d f (n / 10) (Nat.digitChar (n % 10) :: ds) (by omega) h1
    simp only [List.length_cons] at this
    omega

theorem repr_length_ge (n d : Nat) (h : 10 ^ d ≤ n) : d + 1 ≤ (Nat.repr n).length := by
  have := toDigitsCore_length_ge d (n + 1) n [] (by omega) h
  simpa [Nat.repr, Nat.toDigits, List.asString] using this

theorem le_rhe_of (num den K : Nat) (hd : 0 < den)
    (h : (K : ℚ) ≤ (num : ℚ) / den) : K ≤ rhe num den := by
  have h1 := le_rhe num den hd
  by_contra hc
  have : rhe num den + 1 ≤ K := by omega
  have : ((rhe num den + 1 : ℕ) : ℚ) ≤ K := by exact_mod_cast this
  push_cast at this
  linarith

theorem decimalF_length_ge_digits (prec m : Nat) (e : Int) (d : Nat)
    (h : (10 : ℚ) ^ d ≤ (F64.fin false m e).toRat) :
    d + 1 + (if prec = 0 then 0 else prec + 1) ≤ (decimalF prec m e).length := by
  have hge : 10 ^ (d + prec) ≤ rhe (m * 2 ^ e.toNat * 10 ^ prec) (2 ^ (-e).toNat) := by
    apply le_rhe_of _ _ _ (by positivity)
    rw [decimalF_ratio]
    have h1 : (10 : ℚ) ^ d * 10 ^ prec ≤ (F64.fin false m e).toRat * 10 ^ prec :=
      mul_le_mul_of_nonneg_right h (by positivity)
    push_cast
    rw [pow_add]
    linarith
  unfold decimalF
  split_ifs with hp
  · subst hp
    simp only [pow_zero, mul_one, add_zero] at hge ⊢
    exact repr_length_ge _ _ hge
  · have h1 : d + 1 ≤
        (Nat.repr (rhe (m * 2 ^ e.toNat * 10 ^ prec) (2 ^ (-e).toNat) / 10 ^ prec)).length := by
      apply repr_length_ge
      rw [Nat.le_div_iff_mul_le (by positivity), ← pow_add]
      exact hge
    rw [String.length_append, String.length_append, Fmt.pad_length _ prec _ rfl]
    have : ".".length = 1 := rfl
    omega

/-- Length of `%W.Pf` on a non-negative value that needs at most `d` integer digits,
when these fit the width. -/
theorem fmtFixed_length_pad (w prec : Nat) (z : Bool) (m : Nat) (e : Int) (d : Nat)
    (hd : 1 ≤ d) (hw : d + (if prec = 0 then 0 else prec + 1) ≤ w)
    (h : (F64.fin false m e).toRat * 10 ^ prec + 1 / 2 < 10 ^ (d + prec)) :
    (fmtFixed (some w) prec z (.fin false m e)).length = w := by
  have h1 := decimalF_length_le prec m e d hd h
  unfold fmtFixed
  rw [Fmt.fmtF_fin, Fmt.pad_length _ w _ rfl]
  simp only [Option.getD_some]
  omega

/-- Length of `%.Pf` (no width) on a non-negative value below `10 - 1/2`. -/
theorem fmtFixed_length_one (prec : Nat) (m : Nat) (e : Int)
    (h : (F64.fin false m e).toRat * 10 ^ prec + 1 / 2 < 10 ^ (1 + prec)) :
    (fmtFixed none prec false (.fin false m e)).length
      = 1 + (if prec = 0 then 0 else prec + 1) := by
  have h1 := decimalF_length_le prec m e 1 le_rfl h
  have h2 := decimalF_length_ge prec m e
  unfold fmtFixed
  rw [Fmt.fmtF_fin]
  simp only [Option.getD_some, Fmt.pad]
  omega

/-- Length of `%W.Pf` on a value with exactly `d + 1` integer digits. -/
theorem fmtFixed_length_exact (w : Option Nat) (prec : Nat) (m : Nat) (e : Int) (d : Nat)
    (hw : w.getD 0 ≤ d + 1 + (if prec = 0 then 0 else prec + 1))
    (hlo : (10 : ℚ) ^ d ≤ (F64.fin false m e).toRat)
    (h : (F64.fin false m e).toRat * 10 ^ prec + 1 / 2 < 10 ^ (d + 1 + prec)) :
    (fmtFixed w prec false (.fin false m e)).length
      = d + 1 + (if prec = 0 then 0 else prec + 1) := by
  have h1 := decimalF_length_le prec m e (d + 1) (by omega) h
  have h2 := decimalF_length_ge_digits prec m e d hlo
  unfold fmtFixed
  rw [Fmt.fmtF_fin]
  simp only [Option.getD_some]
  cases w with
  | none => simp only [Fmt.pad]; omega
  | some w =>
    rw [Fmt.pad_length _ w _ rfl]
    simp only [Option.getD_some] at hw
    omega

/-- Length of `%02.f` on a remainder: two characters as long as the magnitude prints
as at most two digits, one digit when the sign bit is set. -/
theorem fmtFixed_length_two (sg : Bool) (m : Nat) (e : Int)
    (h1 : (F64.fin false m e).toRat < 199 / 2)
    (h2 : sg = true → (F64.fin false m e).toRat < 19 / 2) :
    (fmtFixed (some 2) 0 true (.fin sg m e)).length = 2 := by
  cases sg
  · exact fmtFixed_length_pad 2 0 true m e 2 (by norm_num) (by norm_num) (by norm_num; linarith)
  · have hle := decimalF_length_le 0 m e 1 le_rfl (by norm_num; linarith [h2 rfl])
    have hge := decimalF_length_ge 0 m e
    simp only [if_true] at hle hge
    unfold fmtFixed Fmt.fmtF
    simp only [Option.getD_some, Bool.not_eq_true, decide_eq_true_eq]
    rw [if_neg (by omega)]
    rw [Fmt.pad_length _ 2 _ rfl, String.length_append]
    have : "-".length = 1 := rfl
    omega

theorem F64.toRat_nat (c : Nat) : (F64.fin false c 0).toRat = c := by
  simp [F64.toRat]

theorem tiny_le : (2 : ℚ) ^ (-1075 : ℤ) ≤ 1 / 2 ^ 60 := by
  have h : (2 : ℚ) ^ (-1075 : ℤ) ≤ 2 ^ (-60 : ℤ) := two_zpow_le (by norm_num)
  have h2 : (2 : ℚ) ^ (-60 : ℤ) = 1 / 2 ^ 60 := by norm_num
  rw [← h2]; exact h

/-- The two fields printed from `divmod(a, c)` when the quotient stays below ten: one
digit for the quotient, two characters for the remainder. -/
theorem divmod_lengths (m : Nat) (e : Int) (c : Nat) (hc1 : 1 ≤ c) (hc2 : c ≤ 60)
    (hq : (F64.fin false m e).toRat / c + 2 ^ (-50 : ℤ) < 10) :
    (fmtFixed none 0 false (divmod (.fin false m e) (.fin false c 0)).1).length = 1 ∧
    (fmtFixed (some 2) 0 true (divmod (.fin false m e) (.fin false c 0)).2).length = 2 := by
  have hc0 : (0 : ℚ) < c := by exact_mod_cast hc1
  have hc60 : (c : ℚ) ≤ 60 := by exact_mod_cast hc2
  have hv0 : (0 : ℚ) ≤ (F64.fin false m e).toRat := by
    simp only [F64.toRat, Bool.false_eq_true, if_false, one_mul]
    have := two_zpow_pos e
    positivity
  have e50 : (2 : ℚ) ^ (-50 : ℤ) = 1 / 2 ^ 50 := by norm_num
  have e44 : (2 : ℚ) ^ (-44 : ℤ) = 1 / 2 ^ 44 := by norm_num
  have e53 : (2 : ℚ) ^ (-53 : ℤ) = 1 / 2 ^ 53 := by norm_num
  have hx16 : (F64.fin false m e).toRat / c < 2 ^ ((3 : ℤ) + 1) := by
    have : (0 : ℚ) < 2 ^ (-50 : ℤ) := two_zpow_pos _
    norm_num at this ⊢
    linarith
  -- the quotient before flooring
  have hR1 := F64.div_rounds m e c 0 (by omega) (by
    rw [F64.toRat_nat]
    exact lt_trans hx16 (zpow_lt_zpow_right₀ (by norm_num) (by norm_num)))
  rw [F64.toRat_nat] at hR1
  have herr1 := abs_le.1 (hR1.abs_err 3 (by norm_num) hx16)
  obtain ⟨m1, e1, hr1⟩ := hR1.nonneg
  rw [hr1] at herr1
  obtain ⟨n, hfl, hn1, hn2⟩ := F64.floor_spec m1 e1
  have hn10 : (n : ℚ) < 10 := by
    norm_num at herr1
    rw [e50] at hq
    linarith [herr1.2]
  have hn9 : (n : ℚ) ≤ 9 := by
    have : n < 10 := by exact_mod_cast hn10
    have : n ≤ 9 := by omega
    exact_mod_cast this
  have hq1 : (divmod (.fin false m e) (.fin false c 0)).1 = .fin false n 0 := by
    simp only [divmod]; rw [hr1, hfl]
  have hq2 : (divmod (.fin false m e) (.fin false c 0)).2
      = F64.sub (.fin false m e) (F64.mul (.fin false n 0) (.fin false c 0)) := by
    simp only [divmod]; rw [hr1, hfl]
  constructor
  · rw [hq1, fmtFixed_length_one 0 n 0 (by rw [F64.toRat_nat]; norm_num; linarith)]
    rfl
  · rw [hq2]
    have hnc : (n : ℚ) * c ≤ 540 := by nlinarith
    have hnc0 : (0 : ℚ) ≤ (n : ℚ) * c := by positivity
    have hR2 := F64.mul_rounds n 0 c 0 (by
      rw [F64.toRat_nat, F64.toRat_nat]
      have : (540 : ℚ) < 2 ^ (1023 : ℤ) :=
        lt_trans (by norm_num : (540 : ℚ) < 2 ^ (10 : ℤ))
          (zpow_lt_zpow_right₀ (by norm_num) (by norm_num))
      linarith)
    rw [F64.toRat_nat, F64.toRat_nat] at hR2
    have herr2 := abs_le.1 (hR2.abs_err 9 (by norm_num) (by norm_num; linarith))
    obtain ⟨m2, e2, hr2⟩ := hR2.nonneg
    rw [hr2] at herr2 ⊢
    norm_num at herr1 herr2
    rw [e50] at hq
    -- the difference lies between just below 0 and just above `c`
    have hd1 : -(1 / 2 ^ 43 : ℚ) ≤ (F64.fin false m e).toRat - (F64.fin false m2 e2).toRat := by
      have h1 : (n : ℚ) * c ≤ (F64.fin false m1 e1).toRat * c :=
        mul_le_mul_of_nonneg_right hn1 (le_of_lt hc0)
      have h2 : (F64.fin false m1 e1).toRat * c
          ≤ ((F64.fin false m e).toRat / c + 1 / 2 ^ 50) * c :=
        mul_le_mul_of_nonneg_right (by linarith [herr1.2]) (le_of_lt hc0)
      rw [add_mul, div_mul_cancel₀ _ (ne_of_gt hc0)] at h2
      have h3 : (1 / 2 ^ 50 : ℚ) * c ≤ 1 / 2 ^ 50 * 60 :=
        mul_le_mul_of_nonneg_left hc60 (by norm_num)
      linarith [herr2.2]
    have hd2 : (F64.fin false m e).toRat - (F64.fin false m2 e2).toRat ≤ 61 := by
      have h1 : ((F64.fin false m1 e1).toRat - 1) * c ≤ (n : ℚ) * c :=
        mul_le_mul_of_nonneg_right (by linarith) (le_of_lt hc0)
      have h2 : ((F64.fin false m e).toRat / c - 1 / 2 ^ 50 - 1) * c
          ≤ ((F64.fin false m1 e1).toRat - 1) * c :=
        mul_le_mul_of_nonneg_right (by linarith [herr1.1]) (le_of_lt hc0)
      rw [sub_mul, sub_mul, div_mul_cancel₀ _ (ne_of_gt hc0)] at h2
      have h3 : (1 / 2 ^ 50 : ℚ) * c ≤ 1 / 2 ^ 50 * 60 :=
        mul_le_mul_of_nonneg_left hc60 (by norm_num)
      linarith [herr2.1]
    have habs : |(F64.fin false m e).toRat - (F64.fin false m2 e2).toRat| ≤ 61 :=
      abs_le.2 ⟨by linarith, hd2⟩
    obtain ⟨sg, k, j, hs, hsg, hmag⟩ := F64.sub_spec m e m2 e2
      (lt_of_le_of_lt habs (lt_trans (by norm_num : (61 : ℚ) < 2 ^ (10 : ℤ))
        (zpow_lt_zpow_right₀ (by norm_num) (by norm_num))))
    rw [hs]
    have hmag' := (abs_le.1 hmag).2
    rw [e53] at hmag'
    have ht := tiny_le
    have habs0 := abs_nonneg ((F64.fin false m e).toRat - (F64.fin false m2 e2).toRat)
    apply fmtFixed_length_two
    · nlinarith
    · intro hsgt
      have hneg := hsg hsgt
      have : |(F64.fin false m e).toRat - (F64.fin false m2 e2).toRat| ≤ 1 / 2 ^ 43 := by
        rw [abs_le]; constructor <;> linarith
      nlinarith

theorem lit_9995_100 : F64.lit 9995 100 = .fin false 7033355980557517 (-46) := by decide!

theorem lit_23988_10 : F64.lit 23988 10 = .fin false 5275016985418138 (-41) := by decide!

theorem lit_9995_1000 : F64.lit 9995 1000 = .fin false 5626684784446013 (-49) := by decide!

theorem big_split (k : ℕ) : (2 : ℚ) ^ ((1000 + k : ℕ) : ℤ) = 2 ^ k * 2 ^ (1000 : ℤ) := by
  push_cast
  rw [zpow_add₀ (by norm_num), zpow_natCast, mul_comm]

theorem big_ge_one : (1 : ℚ) ≤ 2 ^ (1000 : ℤ) := one_le_zpow₀ (by norm_num) (by norm_num)

/-- A rounding is at most twice its argument plus one. -/
theorem Rounds.le_double {r : F64} {x : ℚ} (h : Rounds r x) : r.toRat ≤ 2 * x + 1 := by
  have h1 := (abs_le.1 h.rel).2
  have h2 : x * 2 ^ (-53 : ℤ) ≤ x * 1 :=
    mul_le_mul_of_nonneg_left (zpow_le_one_of_nonpos₀ (by norm_num) (by norm_num)) h.arg_nonneg
  have h3 : (2 : ℚ) ^ (-1075 : ℤ) ≤ 1 := zpow_le_one_of_nonpos₀ (by norm_num) (by norm_num)
  linarith

/-- Width of the renderings from ten days on (`dt` in hours), outside the single-digit
day+hour form and below 9999.5 years. -/
theorem formatDays_length (m : Nat) (e : Int) (hrep : Repr64 (.fin false m e))
    (hbig : (F64.fin false m e).toRat < 2 ^ 16 * 2 ^ (1000 : ℤ))
    (hshort : ¬ ((F64.fin false m e).lt (F64.lit 23988 10) = true ∧
      (divmod (.fin false m e) (.fin false 24 0)).2.lt (.fin false 10 0) = true))
    (hy : ((F64.div (.fin false m e) (.fin false 24 0)).div (.fin false 1461 (-2))).lt
      (.fin false 19999 (-1)) = true) :
    (formatDays (.fin false m e)).length = 5 := by
  have hT := big_ge_one
  have h1023 : (2 : ℚ) ^ (1023 : ℤ) = 2 ^ 23 * 2 ^ (1000 : ℤ) := big_split 23
  have c24 : (F64.fin false 24 0).toRat = 24 := by norm_num [F64.toRat]
  have cper : (F64.fin false 1461 (-2)).toRat = 1461 / 4 := by norm_num [F64.toRat]
  have hd1 : "d".length = 1 := rfl
  have hy1 : "y".length = 1 := rfl
  -- days
  have hRd := F64.div_rounds m e 24 0 (by norm_num) (by rw [c24, h1023]; linarith)
  rw [c24] at hRd
  obtain ⟨md, ed, hdd⟩ := hRd.nonneg
  have hdd2 := hRd.le_double
  rw [hdd] at hRd hdd2 hy
  -- years
  have hRy := F64.div_rounds md ed 1461 (-2) (by norm_num) (by
    rw [cper, h1023, div_lt_iff₀ (by norm_num)]; linarith)
  rw [cper] at hRy
  obtain ⟨my, ey, hyy⟩ := hRy.nonneg
  rw [hyy] at hRy hy
  unfold formatDays
  rw [hdd, hyy]
  by_cases h1 : (F64.fin false m e).lt (F64.lit 23988 10) = true
  · rw [if_pos h1]
    by_cases h2 : (divmod (.fin false m e) (.fin false 24 0)).2.lt (.fin false 10 0) = true
    · exact absurd ⟨h1, h2⟩ hshort
    · rw [if_neg h2, String.length_append, hd1]
      rw [lit_23988_10, F64.lt_fin] at h1
      have hp := hrep.le_pred (-41) 5275016985418138 (by norm_num) (by
        simpa [F64.toRat] using h1)
      have herr := (abs_le.1 (hRd.abs_err 6 (by norm_num) (by
        norm_num at hp ⊢; linarith))).2
      rw [fmtFixed_length_pad 4 1 false md ed 2 (by norm_num) (by norm_num) (by
        norm_num at hp herr ⊢; linarith)]
  · rw [if_neg h1]
    by_cases h3 : (F64.fin false md ed).lt (.fin false 1461 (-1)) = true
    · rw [if_pos h3, String.length_append, hd1]
      rw [F64.lt_fin] at h3
      rw [fmtFixed_length_pad 4 0 false md ed 3 (by norm_num) (by norm_num) (by
        norm_num [F64.toRat] at h3 ⊢; linarith)]
    · rw [if_neg h3]
      by_cases h4 : (F64.fin false my ey).lt (F64.lit 9995 1000) = true
      · rw [if_pos h4, String.length_append, hy1]
        rw [lit_9995_1000, F64.lt_fin] at h4
        rw [fmtFixed_length_pad 4 2 false my ey 1 (by norm_num) (by norm_num) (by
          norm_num [F64.toRat] at h4 ⊢; linarith)]
      · rw [if_neg h4]
        by_cases h5 : (F64.fin false my ey).lt (F64.lit 9995 100) = true
        · rw [if_pos h5, String.length_append, hy1]
          rw [lit_9995_100, F64.lt_fin] at h5
          have hp := hRy.repr64.le_pred (-46) 7033355980557517 (by norm_num) (by
            simpa [F64.toRat] using h5)
          rw [fmtFixed_length_pad 4 1 false my ey 2 (by norm_num) (by norm_num) (by
            norm_num at hp ⊢; linarith)]
        · rw [if_neg h5, String.length_append, hy1]
          rw [F64.lt_fin] at hy
          rw [fmtFixed_length_pad 4 0 false my ey 4 (by norm_num) (by norm_num) (by
            norm_num [F64.toRat] at hy ⊢; linarith)]


/-- Width of the renderings from ten minutes on (`dt` in minutes). -/
theorem formatMinutes_length (m : Nat) (e : Int) (hrep : Repr64 (.fin false m e))
    (hlo : 10 ≤ (F64.fin false m e).toRat)
    (hbig : (F64.fin false m e).toRat < 2 ^ 20 * 2 ^ (1000 : ℤ))
    (hs1 : ¬ ((F64.fin false m e).lt (.fin false 1440 0) = true ∧
      (divmod (.fin false m e) (.fin false 60 0)).2.lt (.fin false 10 0) = true ∧
      (F64.fin false m e).lt (.fin false 600 0) = false))
    (hs2 : ¬ ((F64.div (.fin false m e) (.fin false 60 0)).lt (F64.lit 23988 10) = true ∧
      (divmod (F64.div (.fin false m e) (.fin false 60 0)) (.fin false 24 0)).2.lt
        (.fin false 10 0) = true ∧
      (F64.div (.fin false m e) (.fin false 60 0)).lt (.fin false 240 0) = false))
    (hy : (((F64.div (.fin false m e) (.fin false 60 0)).div (.fin false 24 0)).div
      (.fin false 1461 (-2))).lt (.fin false 19999 (-1)) = true) :
    (formatMinutes (.fin false m e)).length = 5 := by
  have hT := big_ge_one
  have h1023 : (2 : ℚ) ^ (1023 : ℤ) = 2 ^ 23 * 2 ^ (1000 : ℤ) := big_split 23
  have c60 : (F64.fin false 60 0).toRat = 60 := by norm_num [F64.toRat]
  have hm1 : "m".length = 1 := rfl
  have hh1 : "h".length = 1 := rfl
  have hd1 : "d".length = 1 := rfl
  have e50 : (2 : ℚ) ^ (-50 : ℤ) = 1 / 2 ^ 50 := by norm_num
  have hRh := F64.div_rounds m e 60 0 (by norm_num) (by rw [c60, h1023]; linarith)
  rw [c60] at hRh
  obtain ⟨mh, eh, hdh⟩ := hRh.nonneg
  have hdh2 := hRh.le_double
  rw [hdh] at hRh hdh2 hs2 hy
  unfold formatMinutes
  rw [hdh]
  by_cases h1 : (F64.fin false m e).lt (F64.lit 9995 100) = true
  · rw [if_pos h1, String.length_append, hm1]
    rw [lit_9995_100, F64.lt_fin] at h1
    have hp := hrep.le_pred (-46) 7033355980557517 (by norm_num) (by
      simpa [F64.toRat] using h1)
    rw [fmtFixed_length_exact (some 3) 1 m e 1 (by simp) (by norm_num; exact hlo) (by
      norm_num at hp ⊢; linarith)]
    norm_num
  · rw [if_neg h1]
    by_cases h2 : (F64.fin false m e).lt (.fin false 600 0) = true
    · rw [if_pos h2]
      rw [F64.lt_fin] at h2
      have hp := hrep.le_pred (-43) 5277655813324800 (by norm_num) (by
        norm_num [F64.toRat] at h2 ⊢; linarith)
      obtain ⟨l1, l2⟩ := divmod_lengths m e 60 (by norm_num) (by norm_num) (by
        rw [e50]; norm_num at hp ⊢; linarith)
      rw [String.length_append, String.length_append, String.length_append, l1, l2, hm1, hh1]
    · rw [if_neg h2]
      have hv600 : 600 ≤ (F64.fin false m e).toRat := by
        rw [F64.lt_fin] at h2
        norm_num [F64.toRat] at h2 ⊢; linarith
      by_cases h3 : (F64.fin false m e).lt (.fin false 1440 0) = true
      · rw [if_pos h3]
        by_cases h4 : (divmod (.fin false m e) (.fin false 60 0)).2.lt (.fin false 10 0) = true
        · exact absurd ⟨h3, h4, Bool.eq_false_iff.2 h2⟩ hs1
        · rw [if_neg h4, String.length_append, hh1]
          rw [F64.lt_fin] at h3
          have hv : (F64.fin false m e).toRat < 1440 := by
            norm_num [F64.toRat] at h3 ⊢; linarith
          have hge := hRh.mono_ge 10 0 (by norm_num) (by norm_num) (by
            norm_num; linarith)
          have herr := (abs_le.1 (hRh.abs_err 4 (by norm_num) (by norm_num; linarith))).2
          rw [fmtFixed_length_exact (some 3) 1 mh eh 1 (by simp) (by
            norm_num at hge ⊢; exact hge) (by norm_num at herr ⊢; linarith)]
          norm_num
      · rw [if_neg h3]
        have hv1440 : 1440 ≤ (F64.fin false m e).toRat := by
          rw [F64.lt_fin] at h3
          norm_num [F64.toRat] at h3 ⊢; linarith
        by_cases h5 : (F64.fin false mh eh).lt (.fin false 240 0) = true
        · rw [if_pos h5]
          rw [F64.lt_fin] at h5
          have hp := hRh.repr64.le_pred (-45) 8444249301319680 (by norm_num) (by
            norm_num [F64.toRat] at h5 ⊢; linarith)
          obtain ⟨l1, l2⟩ := divmod_lengths mh eh 24 (by norm_num) (by norm_num) (by
            rw [e50]; norm_num at hp ⊢; linarith)
          rw [String.length_append, String.length_append, String.length_append, l1, l2,
            hd1, hh1]
        · rw [if_neg h5]
          exact formatDays_length mh eh hRh.repr64 (by linarith)
            (fun h => hs2 ⟨h.1, h.2, Bool.eq_false_iff.2 h5⟩) hy


/-- C6 (as stated) fails: 36585 s is rendered `10h10m`, 898920 s is rendered `10d10h`
and 10^12 s is rendered `31688y`, six characters each. -/
theorem C6_counterexample :
    FormatDuration (F64.ofNat 36585) = "10h10m" ∧
    FormatDuration (F64.ofNat 898920) = "10d10h" ∧
    FormatDuration (F64.ofNat 1000000000000) = "31688y" ∧
    (FormatDuration (F64.ofNat 36585)).length ≠ 5 ∧
    (FormatDuration (F64.ofNat 898920)).length ≠ 5 ∧
    (FormatDuration (F64.ofNat 1000000000000)).length ≠ 5 := by decide!

/-! ## Duration examples and the plain path -/

/-- C12 (as stated) fails: the rendering of 3661 s has no `h` in it. -/
theorem C12_counterexample : 'h' ∉ (FormatDuration (F64.ofNat 3661)).data := by decide!

/-- C12 (amended): `FormatDuration(3661)` is the one-decimal minutes rendering `61.0m`
(3661 s is 61.02 minutes, below the 99.95 minutes where the hour+minute form starts,
which 7000 s, rendered `1h57m`, has reached). -/
theorem C12_formatDuration_3661 :
    FormatDuration (F64.ofNat 3661) = "61.0m" ∧ FormatDuration (F64.ofNat 7000) = "1h57m" := by
  decide!

/-- C13 (as stated) fails: 5.0 s is not rendered with one fractional digit. -/
theorem C13_counterexample : FormatDuration (F64.ofNat 5) ≠ "5.0s" := by decide!

/-- C13 (amended): `FormatDuration(5.0)` is the two-decimal seconds rendering `5.00s`;
the one-decimal form starts at 9.995 s, as in `12.0s` for 12 s. -/
theorem C13_formatDuration_5 :
    FormatDuration (F64.ofNat 5) = "5.00s" ∧ FormatDuration (F64.ofNat 12) = "12.0s" := by
  decide!

/-- C14 (as stated) fails: 0.5 s is not rendered in seconds with two decimals. -/
theorem C14_counterexample : FormatDuration (F64.lit 5 10) ≠ "0.50s" := by decide!

/-- C14 (amended): `FormatDuration(0.5)` is the millisecond rendering `500ms`; the
two-decimal seconds form starts at 0.9995 s, as in `1.50s` for 1.5 s. -/
theorem C14_formatDuration_half :
    FormatDuration (F64.lit 5 10) = "500ms" ∧ FormatDuration (F64.lit 15 10) = "1.50s" := by
  decide!

/-- C15 (code at the failing input): 36585 s lies between ten hours and a day and has a
minutes remainder of 9.75, below 10, yet it is rendered `10h10m`, with two minutes
digits. -/
theorem C15_formatDuration_10h10m :
    (divmod ((F64.ofNat 36585).div (.fin false 60 0)) (.fin false 60 0)).2.lt (.fin false 10 0)
      = true ∧
    FormatDuration (F64.ofNat 36585) = "10h10m" := by decide!

/-- Every whole number of seconds from 60 up to 599, evaluated. -/
theorem formatDuration_minutes_table :
    (∀ k : Nat, k < 600 → 60 ≤ k →
      FormatDuration (F64.ofNat k) =
        Nat.repr (k / 60) ++ "m" ++ (if k % 60 < 10 then "0" else "") ++ Nat.repr (k % 60)
          ++ "s" ∧ (Nat.repr (k / 60)).length = 1) ∧
    FormatDuration (F64.ofNat 65) = "1m05s" := by
  decide!

/-- C16: a whole number of seconds `n` from 60 up to 599 is rendered as the decimal of
`n / 60` (one digit), `m`, `n % 60` zero-padded to two digits, and `s`; 65 s is
`1m05s`. -/
theorem C16_formatDuration_minutes_seconds (n : Nat) (hlo : 60 ≤ n) (hhi : n < 600) :
    (FormatDuration (F64.ofNat n) =
        Nat.repr (n / 60) ++ "m" ++ (if n % 60 < 10 then "0" else "") ++ Nat.repr (n % 60)
          ++ "s" ∧ (Nat.repr (n / 60)).length = 1) ∧
    FormatDuration (F64.ofNat 65) = "1m05s" :=
  ⟨formatDuration_minutes_table.1 n hhi hlo, formatDuration_minutes_table.2⟩

theorem C16_witness :
    60 ≤ 125 ∧ 125 < 600 ∧
    (FormatDuration (F64.ofNat 125) =
        Nat.repr (125 / 60) ++ "m" ++ (if 125 % 60 < 10 then "0" else "") ++ Nat.repr (125 % 60)
          ++ "s" ∧ (Nat.repr (125 / 60)).length = 1) ∧
    FormatDuration (F64.ofNat 65) = "1m05s" :=
  ⟨by norm_num, by norm_num,
    C16_formatDuration_minutes_seconds 125 (by norm_num) (by norm_num)⟩

/-- C17 (as stated) fails for a width `fmt` does not accept: the digits are then not
right-justified in `w - 1` columns. -/
theorem C17_counterexample : FormatAmount 0 2000000 = "%!(BADWIDTH)0 " := by decide!

theorem sprintfPlain_eq (w : Int) (n : Nat) (pad : String) (h0 : 0 ≤ w) (h1 : w ≤ 1000000) :
    sprintfPlain w n pad =
      String.mk (List.replicate (w.toNat - (Nat.repr n).length) ' ') ++ Nat.repr n ++ pad := by
  unfold sprintfPlain Fmt.starWidth Fmt.fmtD Fmt.pad
  rw [tooLarge_false w (by omega) h1]
  simp only [Bool.false_eq_true, if_false, if_neg (not_lt.2 h0)]
  apply String.ext
  simp [String.data_append]

theorem FormatAmount_wide (amount : Nat) (w : Int) (hw : 4 ≤ w) :
    FormatAmount amount w = formatAmountCore amount w 5000 (.fin false 1999 (-1)) := by
  unfold FormatAmount
  simp [not_lt.2 (le_trans (by norm_num : (0 : Int) ≤ 4) hw), not_lt.2 hw]

theorem FormatAmount_default (amount : Nat) (w : Int) (hw : w < 0) :
    FormatAmount amount w = formatAmountCore amount 5 5000 (.fin false 1999 (-1)) := by
  unfold FormatAmount
  simp [hw]

/-- C17 (amended): on the plain path (wide regime, `amount ≤ 5000`) a width `w` from 6
up to 1000001 gives the decimal digits right-justified in `w - 1` columns and then one
space; a width `v` that is 4, 5 or negative (the default) gives the digits
right-justified in the full effective width, with no trailing space. -/
theorem C17_plain_padding (amount : Nat) (w v : Int) (ha : amount ≤ 5000) (hw : 6 ≤ w)
    (hw2 : w ≤ 1000001) (hv : v = 4 ∨ v = 5 ∨ v < 0) :
    FormatAmount amount w =
      String.mk (List.replicate ((w - 1).toNat - (Nat.repr amount).length) ' ')
        ++ Nat.repr amount ++ " " ∧
    (Nat.repr amount).length ≤ (w - 1).toNat ∧
    FormatAmount amount v =
      String.mk (List.replicate ((effWidth v).toNat - (Nat.repr amount).length) ' ')
        ++ Nat.repr amount ∧
    (Nat.repr amount).length ≤ (effWidth v).toNat := by
  have hlen : (Nat.repr amount).length ≤ 4 := Nat.repr_length amount 4 (by norm_num) (by omega)
  have hnil : ∀ s : String, s ++ "" = s := fun s => by
    apply String.ext; simp [String.data_append]
  refine ⟨?_, by omega, ?_, ?_⟩
  · rw [FormatAmount_wide amount w (by omega)]
    unfold formatAmountCore
    rw [if_pos ha, if_pos (by omega : w > 5), sprintfPlain_eq _ _ _ (by omega) (by omega)]
  · rw [effWidth_cases]
    rcases hv with h | h | h
    · subst h
      rw [FormatAmount_wide amount 4 (by norm_num)]
      unfold formatAmountCore
      rw [if_pos ha, if_neg (by norm_num), sprintfPlain_eq _ _ _ (by norm_num) (by norm_num),
        hnil]
      simp
    · subst h
      rw [FormatAmount_wide amount 5 (by norm_num)]
      unfold formatAmountCore
      rw [if_pos ha, if_neg (by norm_num), sprintfPlain_eq _ _ _ (by norm_num) (by norm_num),
        hnil]
      simp
    · rw [FormatAmount_default amount v h]
      unfold formatAmountCore
      rw [if_pos ha, if_neg (by norm_num), sprintfPlain_eq _ _ _ (by norm_num) (by norm_num),
        hnil, if_pos h]
  · rw [effWidth_cases]
    rcases hv with h | h | h
    · subst h; simp; omega
    · subst h; simp; omega
    · simp [h]; omega

theorem C17_witness :
    123 ≤ 5000 ∧ (6 : Int) ≤ 7 ∧ (7 : Int) ≤ 1000001 ∧ ((5 : Int) = 4 ∨ (5 : Int) = 5 ∨ (5 : Int) < 0) ∧
    FormatAmount 123 7 =
      String.mk (List.replicate (((7 : Int) - 1).toNat - (Nat.repr 123).length) ' ')
        ++ Nat.repr 123 ++ " " ∧
    (Nat.repr 123).length ≤ ((7 : Int) - 1).toNat ∧
    FormatAmount 123 5 =
      String.mk (List.replicate ((effWidth 5).toNat - (Nat.repr 123).length) ' ')
        ++ Nat.repr 123 ∧
    (Nat.repr 123).length ≤ (effWidth 5).toNat :=
  ⟨by norm_num, by norm_num, by norm_num, by decide,
    C17_plain_padding 123 7 5 (by norm_num) (by norm_num) (by norm_num) (by decide)⟩

/-! ## Monotonicity of rounding -/

/-- Rounding is monotone against a representable upper bound. -/
theorem Rounds.mono_le {r : F64} {x : ℚ} (h : Rounds r x) (K : ℕ) (g : ℤ)
    (hg : -1074 ≤ g) (hK : K ≤ 2 ^ 53) (hx : x ≤ (K : ℚ) * 2 ^ g) : r.toRat ≤ (K : ℚ) * 2 ^ g := by
  obtain ⟨m, e, rfl, hx0, he, herr, h3, h4⟩ := h
  simp only [F64.toRat, Bool.false_eq_true, if_false, one_mul]
  have h5 := (abs_le.1 herr).2
  have hpe := two_zpow_pos e
  have hpg := two_zpow_pos g
  have hK' : (K : ℚ) ≤ 2 ^ (53 : ℕ) := by exact_mod_cast hK
  by_cases hge : e ≤ g
  · have hsplit : (2 : ℚ) ^ g = ((2 ^ (g - e).toNat : ℕ) : ℚ) * 2 ^ e := by
      push_cast
      rw [← zpow_natCast, Int.toNat_of_nonneg (by omega), ← zpow_add₀ (by norm_num)]
      congr 1; ring
    rw [hsplit, ← mul_assoc] at hx ⊢
    have h6 : (m : ℚ) * 2 ^ e ≤ ((K : ℚ) * ((2 ^ (g - e).toNat : ℕ) : ℚ) + 1 / 2) * 2 ^ e := by
      nlinarith
    have h7 : (m : ℚ) ≤ (K : ℚ) * ((2 ^ (g - e).toNat : ℕ) : ℚ) + 1 / 2 :=
      le_of_mul_le_mul_right h6 hpe
    have h8 : m ≤ K * 2 ^ (g - e).toNat := by
      by_contra hc
      have : K * 2 ^ (g - e).toNat + 1 ≤ m := by omega
      have : ((K * 2 ^ (g - e).toNat + 1 : ℕ) : ℚ) ≤ (m : ℚ) := by exact_mod_cast this
      push_cast at this h7
      linarith
    have h9 : (m : ℚ) ≤ ((K * 2 ^ (g - e).toNat : ℕ) : ℚ) := by exact_mod_cast h8
    push_cast at h9 ⊢
    exact mul_le_mul_of_nonneg_right h9 (le_of_lt hpe)
  · have hbig : (2 : ℚ) ^ (e + 52) ≤ x := by
      rcases h3 with h | h
      · omega
      · exact h
    have h52 : (2 : ℚ) ^ (e + 52) = 2 ^ (52 : ℕ) * 2 ^ e := by
      rw [← zpow_natCast, ← zpow_add₀ (by norm_num)]; congr 1; push_cast; ring
    have h10 : (2 : ℚ) ^ (53 : ℕ) * 2 ^ g ≤ 2 ^ (52 : ℕ) * 2 ^ e := by
      rw [← zpow_natCast, ← zpow_natCast, ← zpow_add₀ (by norm_num), ← zpow_add₀ (by norm_num)]
      apply two_zpow_le
      push_cast; omega
    have h11 : (K : ℚ) * 2 ^ g ≤ 2 ^ (53 : ℕ) * 2 ^ g :=
      mul_le_mul_of_nonneg_right hK' (le_of_lt hpg)
    rw [h52] at hbig
    -- so `x` is exactly `2^52 * 2^e`, and the significand cannot exceed `2^52`
    have hxe : x = 2 ^ (52 : ℕ) * 2 ^ e := le_antisymm (by linarith) hbig
    have h6 : (m : ℚ) * 2 ^ e ≤ ((2 : ℚ) ^ (52 : ℕ) + 1 / 2) * 2 ^ e := by nlinarith
    have h7 : (m : ℚ) ≤ (2 : ℚ) ^ (52 : ℕ) + 1 / 2 := le_of_mul_le_mul_right h6 hpe
    have h8 : m ≤ 2 ^ 52 := by
      by_contra hc
      have : 2 ^ 52 + 1 ≤ m := by omega
      have : ((2 ^ 52 + 1 : ℕ) : ℚ) ≤ (m : ℚ) := by exact_mod_cast this
      push_cast at this h7
      linarith
    have h9 : (m : ℚ) ≤ 2 ^ (52 : ℕ) := by exact_mod_cast h8
    calc (m : ℚ) * 2 ^ e ≤ 2 ^ (52 : ℕ) * 2 ^ e := mul_le_mul_of_nonneg_right h9 (le_of_lt hpe)
      _ = x := hxe.symm
      _ ≤ (K : ℚ) * 2 ^ g := hx

/-- A representable value is rounded to itself. -/
theorem Rounds.exact {r : F64} {x : ℚ} (h : Rounds r x) (K : ℕ) (g : ℤ)
    (hg : -1074 ≤ g) (hK : K ≤ 2 ^ 53) (hx : x = (K : ℚ) * 2 ^ g) : r.toRat = x := by
  rw [hx]
  exact le_antisymm (h.mono_le K g hg hK (le_of_eq hx)) (h.mono_ge K g hg hK (le_of_eq hx.symm))

/-- At a tie the round-half-even result is even. -/
theorem rhe_tie_even (num den k : Nat) (hd : 0 < den) (h : 2 * num = den * (2 * k + 1)) :
    rhe num den = k + k % 2 := by
  have h1 := Nat.div_add_mod num den
  have h2 := Nat.mod_lt num hd
  have hq : num / den = k := by
    have e1 : 2 * num / den = 2 * k + 1 := by rw [h]; exact Nat.mul_div_cancel_left _ hd
    have e2 : 2 * num / (2 * den) = num / den := Nat.mul_div_mul_left _ _ (by norm_num)
    have e3 : 2 * num / den / 2 = 2 * num / (2 * den) := by
      rw [Nat.div_div_eq_div_mul, Nat.mul_comm den 2]
    omega
  have hr : 2 * (num % den) = den := by
    rw [hq] at h1
    have : den * (2 * k + 1) = 2 * (den * k) + den := by ring
    omega
  unfold rhe
  rw [hq, if_neg (by omega), if_neg (by omega)]
  split_ifs <;> omega

/-- Round-half-even is monotone in the value of the fraction. -/
theorem rhe_mono (n1 d1 n2 d2 : Nat) (hd1 : 0 < d1) (hd2 : 0 < d2)
    (h : (n1 : ℚ) / d1 ≤ (n2 : ℚ) / d2) : rhe n1 d1 ≤ rhe n2 d2 := by
  by_contra hc
  have hc1 : rhe n2 d2 + 1 ≤ rhe n1 d1 := by omega
  have hc2 : ((rhe n2 d2 : ℕ) : ℚ) + 1 ≤ (rhe n1 d1 : ℚ) := by exact_mod_cast hc1
  have a1 := rhe_le n1 d1 hd1
  have a2 := le_rhe n2 d2 hd2
  have hd1' : (0 : ℚ) < d1 := by exact_mod_cast hd1
  have hd2' : (0 : ℚ) < d2 := by exact_mod_cast hd2
  have e1 : (n1 : ℚ) / d1 = (rhe n2 d2 : ℚ) + 1 / 2 := by linarith
  have e2 : (n2 : ℚ) / d2 = (rhe n2 d2 : ℚ) + 1 / 2 := by linarith
  have e3 : (rhe n1 d1 : ℚ) = (rhe n2 d2 : ℚ) + 1 := by linarith
  have t1 : 2 * n1 = d1 * (2 * rhe n2 d2 + 1) := by
    rw [div_eq_iff (ne_of_gt hd1')] at e1
    have : (2 : ℚ) * n1 = d1 * (2 * rhe n2 d2 + 1) := by rw [e1]; ring
    exact_mod_cast this
  have t2 : 2 * n2 = d2 * (2 * rhe n2 d2 + 1) := by
    rw [div_eq_iff (ne_of_gt hd2')] at e2
    have : (2 : ℚ) * n2 = d2 * (2 * rhe n2 d2 + 1) := by rw [e2]; ring
    exact_mod_cast this
  have u1 := rhe_tie_even n1 d1 _ hd1 t1
  have u2 := rhe_tie_even n2 d2 _ hd2 t2
  have e4 : rhe n1 d1 = rhe n2 d2 + 1 := by exact_mod_cast e3
  omega

theorem flog2_mono (n1 d1 n2 d2 : Nat) (hn1 : 0 < n1) (hd1 : 0 < d1) (hn2 : 0 < n2)
    (hd2 : 0 < d2) (h : (n1 : ℚ) / d1 ≤ (n2 : ℚ) / d2) : flog2 n1 d1 ≤ flog2 n2 d2 := by
  have a := (flog2_spec n1 d1 hn1 hd1).1
  have b := (flog2_spec n2 d2 hn2 hd2).2
  have := two_zpow_lt_imp (lt_of_le_of_lt (le_trans a h) b)
  omega

theorem round_eq_fin (num den : Nat) (hn : num ≠ 0) (hd : 0 < den)
    (hx : (num : ℚ) / den < 2 ^ (1023 : ℤ)) :
    F64.round false num den = .fin false (roundMant num den) (ulpExp num den) := by
  obtain ⟨m, e, hr, _⟩ := round_rounds num den hd hx
  unfold F64.round at hr ⊢
  rw [if_neg hn] at hr ⊢
  split_ifs at hr ⊢ with h1
  rfl

/-- Rounding to binary64 is monotone. -/
theorem round_mono (n1 d1 n2 d2 : Nat) (hd1 : 0 < d1) (hd2 : 0 < d2)
    (h : (n1 : ℚ) / d1 ≤ (n2 : ℚ) / d2) (hx : (n2 : ℚ) / d2 < 2 ^ (1023 : ℤ)) :
    (F64.round false n1 d1).toRat ≤ (F64.round false n2 d2).toRat := by
  have hR2 := round_rounds n2 d2 hd2 hx
  by_cases hn1 : n1 = 0
  · have : (F64.round false n1 d1).toRat = 0 := by simp [F64.round, hn1, F64.toRat]
    rw [this]; exact hR2.toRat_nonneg
  have hd1' : (0 : ℚ) < d1 := by exact_mod_cast hd1
  have hd2' : (0 : ℚ) < d2 := by exact_mod_cast hd2
  have hn1' : 0 < n1 := Nat.pos_of_ne_zero hn1
  have hx1pos : (0 : ℚ) < (n1 : ℚ) / d1 := div_pos (by exact_mod_cast hn1') hd1'
  have hn2' : 0 < n2 := by
    by_contra hc
    have : n2 = 0 := by omega
    subst this
    simp at h
    linarith
  have hR1 := round_rounds n1 d1 hd1 (lt_of_le_of_lt h hx)
  have q1 := round_eq_fin n1 d1 hn1 hd1 (lt_of_le_of_lt h hx)
  have q2 := round_eq_fin n2 d2 (by omega) hd2 hx
  have hL := flog2_mono n1 d1 n2 d2 hn1' hd1 hn2' hd2 h
  have he : ulpExp n1 d1 ≤ ulpExp n2 d2 := by
    unfold ulpExp
    exact max_le_max (by omega) le_rfl
  rw [q1, q2]
  simp only [F64.toRat, Bool.false_eq_true, if_false, one_mul]
  rcases eq_or_lt_of_le he with heq | hlt
  · -- same spacing: compare the significands
    have hm : roundMant n1 d1 ≤ roundMant n2 d2 := by
      unfold roundMant
      rw [heq]
      apply rhe_mono _ _ _ _ (Nat.mul_pos hd1 (by positivity)) (Nat.mul_pos hd2 (by positivity))
      push_cast
      have hA : (0 : ℚ) < 2 ^ (-(ulpExp n2 d2)).toNat := by positivity
      have hB : (0 : ℚ) < 2 ^ (ulpExp n2 d2).toNat := by positivity
      rw [mul_div_mul_comm, mul_div_mul_comm]
      exact mul_le_mul_of_nonneg_right h (le_of_lt (div_pos hA hB))
    rw [heq]
    exact mul_le_mul_of_nonneg_right (by exact_mod_cast hm) (le_of_lt (two_zpow_pos _))
  · -- coarser spacing above: a power of two separates the two results
    obtain ⟨m1, e1, hr1, hm1, _⟩ := hR1.repr64
    rw [q1] at hr1
    injection hr1 with _ hmm hee
    have hm1' : (roundMant n1 d1 : ℚ) ≤ 2 ^ (53 : ℕ) := by rw [hmm]; exact_mod_cast hm1
    obtain ⟨m2, e2, hr2, _, he2, _, h23, _⟩ := hR2
    rw [q2] at hr2
    injection hr2 with _ hmm2 hee2
    have hbig : (2 : ℚ) ^ (ulpExp n2 d2 + 52) ≤ (n2 : ℚ) / d2 := by
      rcases h23 with h' | h'
      · have : -1074 ≤ ulpExp n1 d1 := le_max_right _ _
        omega
      · rw [hee2]; exact h'
    have h52 : (2 : ℚ) ^ (ulpExp n2 d2 + 52) = (2 ^ 52 : ℕ) * 2 ^ (ulpExp n2 d2) := by
      rw [zpow_add₀ (by norm_num : (2 : ℚ) ≠ 0), mul_comm]; norm_num
    rw [h52] at hbig
    have hge := (round_rounds n2 d2 hd2 hx).mono_ge (2 ^ 52) (ulpExp n2 d2)
      (le_max_right _ _) (by norm_num) hbig
    rw [q2] at hge
    simp only [F64.toRat, Bool.false_eq_true, if_false, one_mul] at hge
    have h10 : (2 : ℚ) ^ (53 : ℕ) * 2 ^ (ulpExp n1 d1) ≤ 2 ^ (52 : ℕ) * 2 ^ (ulpExp n2 d2) := by
      rw [← zpow_natCast, ← zpow_natCast, ← zpow_add₀ (by norm_num), ← zpow_add₀ (by norm_num)]
      apply two_zpow_le
      push_cast; omega
    calc (roundMant n1 d1 : ℚ) * 2 ^ ulpExp n1 d1
        ≤ 2 ^ (53 : ℕ) * 2 ^ ulpExp n1 d1 :=
          mul_le_mul_of_nonneg_right hm1' (le_of_lt (two_zpow_pos _))
      _ ≤ 2 ^ (52 : ℕ) * 2 ^ (ulpExp n2 d2) := h10
      _ ≤ (roundMant n2 d2 : ℚ) * 2 ^ ulpExp n2 d2 := by
          push_cast at hge; exact hge

/-! ## The scaling loop is monotone -/

theorem FormatAmount_core (amount : Nat) (w : Int) :
    FormatAmount amount w
      = formatAmountCore amount (effWidth w) (regimeMax w) (regimeFloat w) := by
  unfold FormatAmount effWidth regimeMax regimeFloat
  split_ifs <;> rfl

theorem regimeFloat_cases (w : Int) :
    ∃ mm ee, regimeFloat w = .fin false mm ee ∧ (199 : ℚ) / 2 ≤ (F64.fin false mm ee).toRat := by
  unfold regimeFloat
  split_ifs
  all_goals first
    | exact ⟨199, -1, rfl, by norm_num [F64.toRat]⟩
    | exact ⟨1999, -1, rfl, by norm_num [F64.toRat]⟩

theorem effWidth_ge (w : Int) : 3 ≤ effWidth w := by
  rw [effWidth_cases]; split_ifs <;> omega

theorem F64.div_ratio (m : Nat) (e : Int) (n : Nat) (f : Int) (hn : n ≠ 0) :
    ((m * 2 ^ (e - f).toNat : ℕ) : ℚ) / ((n * 2 ^ (f - e).toNat : ℕ) : ℚ)
      = (F64.fin false m e).toRat / (F64.fin false n f).toRat := by
  have hn' : (n : ℚ) ≠ 0 := by exact_mod_cast hn
  have h1 := two_zpow_split (e - f)
  rw [neg_sub] at h1
  have h2 : (2 : ℚ) ^ (e - f) = 2 ^ e / 2 ^ f := zpow_sub₀ (by norm_num) e f
  have hf := two_zpow_pos f
  have he := two_zpow_pos e
  have h3 : (0 : ℚ) < 2 ^ (f - e).toNat := by positivity
  have h4 : (0 : ℚ) < 2 ^ (e - f).toNat := by positivity
  simp only [F64.toRat, Bool.false_eq_true, if_false, one_mul]
  push_cast
  rw [div_eq_div_iff (by positivity) (by positivity)]
  rw [h2] at h1
  field_simp at h1
  linear_combination (-(m : ℚ) * (n : ℚ)) * h1

/-- Division by a fixed positive float is monotone in the dividend. -/
theorem F64.div_mono (m : Nat) (e : Int) (m' : Nat) (e' : Int) (n : Nat) (f : Int)
    (hn : n ≠ 0) (hle : (F64.fin false m e).toRat ≤ (F64.fin false m' e').toRat)
    (hx : (F64.fin false m' e').toRat / (F64.fin false n f).toRat < 2 ^ (1023 : ℤ)) :
    (F64.div (.fin false m e) (.fin false n f)).toRat
      ≤ (F64.div (.fin false m' e') (.fin false n f)).toRat := by
  have hc : (0 : ℚ) < (F64.fin false n f).toRat := by
    simp only [F64.toRat, Bool.false_eq_true, if_false, one_mul]
    exact mul_pos (by exact_mod_cast Nat.pos_of_ne_zero hn) (two_zpow_pos f)
  simp only [F64.div, hn, if_false, Bool.xor_false]
  apply round_mono _ _ _ _ (Nat.mul_pos (Nat.pos_of_ne_zero hn) (by positivity))
    (Nat.mul_pos (Nat.pos_of_ne_zero hn) (by positivity))
  · rw [F64.div_ratio _ _ _ _ hn, F64.div_ratio _ _ _ _ hn]
    exact div_le_div_of_nonneg_right hle (le_of_lt hc)
  · rw [F64.div_ratio _ _ _ _ hn]; exact hx

theorem F64.ofNat_mono (a b : Nat) (h : a ≤ b) (hb : b < 2 ^ 64) :
    (F64.ofNat a).toRat ≤ (F64.ofNat b).toRat := by
  unfold F64.ofNat
  apply round_mono a 1 b 1 (by norm_num) (by norm_num)
  · simp only [Nat.cast_one, div_one]; exact_mod_cast h
  · simp only [Nat.cast_one, div_one]
    have h1 : (b : ℚ) < 2 ^ (64 : ℕ) := by exact_mod_cast hb
    have h2 : (2 : ℚ) ^ (64 : ℕ) = 2 ^ (64 : ℤ) := by norm_num
    rw [h2] at h1
    exact lt_trans h1 (zpow_lt_zpow_right₀ (by norm_num) (by norm_num))

/-- Where the scaling loop stops is monotone in the value it starts from: on the same
runes, a smaller start stops at an earlier (or the same) rune. -/
theorem scaleLoop_mono (mm : Nat) (ee : Int) :
    ∀ (cs : List Char) (r r' : F64) (p p' : Char), r.NonNeg → r'.NonNeg →
      r.toRat ≤ r'.toRat → r'.toRat ≤ 2 ^ 100 → cs ≠ [] →
      ∃ i j, i ≤ j ∧ cs.get? i = some (scaleLoop (.fin false mm ee) cs r p).2 ∧
        cs.get? j = some (scaleLoop (.fin false mm ee) cs r' p').2 := by
  intro cs
  induction cs with
  | nil => intro r r' p p' _ _ _ _ h; exact absurd rfl h
  | cons c cs ih =>
    intro r r' p p' hr hr' hle hb _
    obtain ⟨m, e, rfl⟩ := hr
    obtain ⟨m', e', rfl⟩ := hr'
    have hr0 : (0 : ℚ) ≤ (F64.fin false m e).toRat := by
      simp only [F64.toRat, Bool.false_eq_true, if_false, one_mul]
      exact mul_nonneg (Nat.cast_nonneg m) (le_of_lt (two_zpow_pos e))
    have h100 : (2 : ℚ) ^ (100 : ℕ) < 2 ^ (1023 : ℤ) := by
      rw [← zpow_natCast]
      exact zpow_lt_zpow_right₀ (by norm_num) (by norm_num)
    have hx' : (F64.fin false m' e').toRat / (F64.fin false 1000 0).toRat < 2 ^ (1023 : ℤ) := by
      rw [F64.toRat_thousand]
      exact lt_of_le_of_lt (div_le_self (le_trans hr0 hle) (by norm_num))
        (lt_of_le_of_lt hb h100)
    have hx : (F64.fin false m e).toRat / (F64.fin false 1000 0).toRat < 2 ^ (1023 : ℤ) := by
      rw [F64.toRat_thousand]
      exact lt_of_le_of_lt (div_le_self hr0 (by norm_num))
        (lt_of_le_of_lt (le_trans hle hb) h100)
    have hR := F64.div_rounds m e 1000 0 (by norm_num) hx
    have hR' := F64.div_rounds m' e' 1000 0 (by norm_num) hx'
    have hmono := F64.div_mono m e m' e' 1000 0 (by norm_num) hle hx'
    have hb1 : (F64.div (.fin false m' e') (.fin false 1000 0)).toRat ≤ 2 ^ 100 := by
      have h1 := hR'.le_double
      rw [F64.toRat_thousand] at h1
      have h2 : (F64.fin false m' e').toRat / 1000 ≤ 2 ^ 100 / 1000 :=
        div_le_div_of_nonneg_right hb (by norm_num)
      have h3 : (2 : ℚ) * (2 ^ 100 / 1000) + 1 ≤ 2 ^ 100 := by norm_num
      linarith
    obtain ⟨m1, e1, h1⟩ := hR.nonneg
    obtain ⟨m1', e1', h1'⟩ := hR'.nonneg
    unfold scaleLoop
    by_cases hlt' : (F64.div (.fin false m' e') (.fin false 1000 0)).lt (.fin false mm ee) = true
    · have hlt : (F64.div (.fin false m e) (.fin false 1000 0)).lt (.fin false mm ee) = true := by
        have hmono' := hmono
        rw [h1, h1'] at hmono'
        rw [h1'] at hlt'
        rw [h1]
        rw [F64.lt_fin] at hlt' ⊢
        exact lt_of_le_of_lt hmono' hlt'
      rw [if_pos hlt, if_pos hlt']
      exact ⟨0, 0, le_rfl, rfl, rfl⟩
    · rw [if_neg hlt']
      by_cases hcs : cs = []
      · subst hcs
        refine ⟨0, 0, le_rfl, ?_, ?_⟩
        · split_ifs <;> rfl
        · rfl
      · obtain ⟨i, j, hij, hi, hj⟩ := ih _ _ c c hR.nonneg hR'.nonneg hmono hb1 hcs
        by_cases hlt : (F64.div (.fin false m e) (.fin false 1000 0)).lt (.fin false mm ee) = true
        · rw [if_pos hlt]
          exact ⟨0, j + 1, Nat.zero_le _, rfl, hj⟩
        · rw [if_neg hlt]
          exact ⟨i + 1, j + 1, Nat.succ_le_succ hij, hi, hj⟩

/-- The scaling loop stops within the first `k` runes when it starts from a value of
at most `99 * 999 ^ k`. -/
theorem scaleLoop_pos (mm : Nat) (ee : Int) (hM : (199 : ℚ) / 2 ≤ (F64.fin false mm ee).toRat) :
    ∀ (cs : List Char) (k : Nat) (r : F64) (p : Char), r.NonNeg → 1 ≤ k → k ≤ cs.length →
      k ≤ 8 → r.toRat ≤ 99 * 999 ^ k →
      ∃ i, i < k ∧ cs.get? i = some (scaleLoop (.fin false mm ee) cs r p).2 := by
  intro cs
  induction cs with
  | nil => intro k r p _ h1 h2; simp at h2; omega
  | cons c cs ih =>
    intro k r p hr hk1 hk2 hk8 hb
    obtain ⟨m, e, rfl⟩ := hr
    obtain ⟨k', rfl⟩ : ∃ k', k = k' + 1 := ⟨k - 1, by omega⟩
    have hK1 : (1 : ℚ) ≤ 999 ^ k' := one_le_pow₀ (by norm_num)
    have hK2 : (999 : ℚ) ^ k' ≤ 999 ^ 7 := pow_le_pow_right₀ (by norm_num) (by omega)
    rw [pow_succ] at hb
    have hx : (F64.fin false m e).toRat / (F64.fin false 1000 0).toRat < 2 ^ (1023 : ℤ) := by
      rw [F64.toRat_thousand]
      have h1 : (F64.fin false m e).toRat / 1000 ≤ 99 * 999 ^ 7 := by
        rw [div_le_iff₀ (by norm_num)]; linarith
      have h2 : (99 : ℚ) * 999 ^ 7 < 2 ^ (100 : ℤ) := by norm_num
      exact lt_of_le_of_lt h1 (lt_trans h2 (zpow_lt_zpow_right₀ (by norm_num) (by norm_num)))
    have hR := F64.div_rounds m e 1000 0 (by norm_num) hx
    rw [F64.toRat_thousand] at hR
    have hrel := (abs_le.1 hR.rel).2
    have hb1 : (F64.div (.fin false m e) (.fin false 1000 0)).toRat ≤ 99 * 999 ^ k' := by
      have e1 : (2 : ℚ) ^ (-53 : ℤ) ≤ 1 / 10 ^ 6 := by norm_num
      have e2 : (2 : ℚ) ^ (-1075 : ℤ) ≤ 2 ^ (-20 : ℤ) := two_zpow_le (by norm_num)
      have e3 : (2 : ℚ) ^ (-20 : ℤ) ≤ 1 / 10 ^ 6 := by norm_num
      have e4 : (F64.fin false m e).toRat / 1000 ≤ 99 * 999 ^ k' * 999 / 1000 := by
        rw [div_le_div_iff₀ (by norm_num) (by norm_num)]; nlinarith
      have e5 : (0 : ℚ) ≤ (F64.fin false m e).toRat / 1000 := hR.arg_nonneg
      have e6 : (F64.fin false m e).toRat / 1000 * 2 ^ (-53 : ℤ)
          ≤ (F64.fin false m e).toRat / 1000 * (1 / 10 ^ 6) :=
        mul_le_mul_of_nonneg_left e1 e5
      nlinarith
    obtain ⟨m1, e1, hr1⟩ := hR.nonneg
    unfold scaleLoop
    by_cases hlt : (F64.div (.fin false m e) (.fin false 1000 0)).lt (.fin false mm ee) = true
    · rw [if_pos hlt]
      exact ⟨0, by omega, rfl⟩
    · rw [if_neg hlt]
      have hge : (F64.fin false mm ee).toRat
          ≤ (F64.div (.fin false m e) (.fin false 1000 0)).toRat := by
        rw [hr1] at hlt ⊢
        rw [F64.lt_fin] at hlt
        exact not_lt.1 hlt
      have hk' : 1 ≤ k' := by
        by_contra hc
        have : k' = 0 := by omega
        subst this
        simp only [pow_zero, mul_one] at hb1
        linarith
      obtain ⟨i, hi, hget⟩ := ih k' _ c hR.nonneg hk'
        (by simp only [List.length_cons] at hk2; omega) (by omega) hb1
      exact ⟨i + 1, by omega, hget⟩

/-! ## Suffix selection -/

theorem formatAmountCore_last (mm : Nat) (ee : Int)
    (hM : (199 : ℚ) / 2 ≤ (F64.fin false mm ee).toRat)
    (amount : Nat) (ha : amount < 2 ^ 64) (width : Int) (max : Nat) (h : max < amount) :
    (formatAmountCore amount width max (.fin false mm ee)).data.getLast?
      = some (amountScale (.fin false mm ee) amount).2 := by
  unfold formatAmountCore
  rw [if_neg (not_le.2 h)]
  obtain ⟨⟨m, e, hr⟩, _, _⟩ := amountScale_spec mm ee hM amount ha
  obtain ⟨l, hne, hl⟩ := sprintfScaled_data (width - 1)
    (amountPrecision (width - 1) (amountDigits (amountScale (.fin false mm ee) amount).1))
    m e (amountScale (.fin false mm ee) amount).2
  unfold amountRendered
  rw [hr] at hl ⊢
  rw [hl]
  split_ifs
  · obtain ⟨x, xs, rfl⟩ := List.exists_cons_of_ne_nil hne
    exact getLast_snoc xs _
  · rw [hl]; exact getLast_snoc l _

theorem suffixIndex_of_last (s : String) (c : Char) (i : Nat)
    (h : s.data.getLast? = some c) (hi : "kMGTPEZY".data.get? i = some c) :
    suffixIndex s = i + 1 := by
  unfold suffixIndex
  rw [h]
  have hlt : i < 8 := by
    by_contra hc
    have : "kMGTPEZY".data.get? i = none := List.get?_eq_none.2 (by simpa using hc)
    rw [this] at hi
    cases hi
  interval_cases i <;> simp at hi <;> subst hi <;> decide

theorem suffixIndex_plain (s : String) (h : ¬ endsInSuffix s) : suffixIndex s = 0 := by
  unfold suffixIndex
  cases hl : s.data.getLast? with
  | none => rfl
  | some c =>
    simp only
    rw [if_neg]
    intro hmem
    exact h ⟨c, hl, hmem⟩

theorem F64.ofNat_le (n : Nat) (h : n < 2 ^ 64) : (F64.ofNat n).toRat ≤ 2 ^ 100 := by
  have h1 := (F64.ofNat_rounds n (lt_trans h (by norm_num))).le_double
  have h2 : (n : ℚ) < 2 ^ 64 := by exact_mod_cast h
  have h3 : (2 : ℚ) * 2 ^ 64 + 1 ≤ 2 ^ 100 := by norm_num
  linarith

/-- C11: for a fixed width the suffix index (0 for no suffix letter, 1..8 for k..Y) of
`FormatAmount` is non-decreasing in the amount. -/
theorem C11_suffix_monotone (a b : Nat) (w : Int) (hab : a ≤ b) (hb : b < 2 ^ 64) :
    suffixIndex (FormatAmount a w) ≤ suffixIndex (FormatAmount b w) := by
  have ha : a < 2 ^ 64 := lt_of_le_of_lt hab hb
  obtain ⟨mm, ee, hf, hM⟩ := regimeFloat_cases w
  rw [FormatAmount_core, FormatAmount_core, hf]
  by_cases h : a ≤ regimeMax w
  · rw [suffixIndex_plain _ (fun hc =>
      absurd ((formatAmountCore_suffix mm ee hM a ha _ (effWidth_ge w) _).1 hc) (not_lt.2 h))]
    exact Nat.zero_le _
  · have hla := formatAmountCore_last mm ee hM a ha (effWidth w) (regimeMax w) (by omega)
    have hlb := formatAmountCore_last mm ee hM b hb (effWidth w) (regimeMax w) (by omega)
    obtain ⟨i, j, hij, hi, hj⟩ := scaleLoop_mono mm ee "kMGTPEZY".data (F64.ofNat a)
      (F64.ofNat b) (Char.ofNat 0) (Char.ofNat 0)
      (F64.ofNat_rounds a (lt_trans ha (by norm_num))).nonneg
      (F64.ofNat_rounds b (lt_trans hb (by norm_num))).nonneg
      (F64.ofNat_mono a b hab hb) (F64.ofNat_le b hb) (by decide)
    rw [suffixIndex_of_last _ _ i hla hi, suffixIndex_of_last _ _ j hlb hj]
    omega

theorem C11_witness :
    4999 ≤ 1234567 ∧ 1234567 < 2 ^ 64 ∧
    suffixIndex (FormatAmount 4999 5) ≤ suffixIndex (FormatAmount 1234567 5) :=
  ⟨by norm_num, by norm_num, C11_suffix_monotone 4999 1234567 5 (by norm_num) (by norm_num)⟩

/-- C19: for every uint64 amount and every width the scaling loop stops at `E` at the
latest, the output never ends in `Z` or `Y`, and the largest amount is rendered at exa
scale, `18.4E` at width 5 and `18E` at width 3. -/
theorem C19_loop_stops_at_exa (amount : Nat) (w : Int) (ha : amount < 2 ^ 64) :
    (amountScale (regimeFloat w) amount).2 ∈ "kMGTPE".data ∧
    (FormatAmount amount w).data.getLast? ≠ some 'Z' ∧
    (FormatAmount amount w).data.getLast? ≠ some 'Y' ∧
    FormatAmount (2 ^ 64 - 1) 5 = "18.4E" ∧ FormatAmount (2 ^ 64 - 1) 3 = "18E" := by
  obtain ⟨mm, ee, hf, hM⟩ := regimeFloat_cases w
  have hR := F64.ofNat_rounds amount (lt_trans ha (by norm_num))
  have hbound : (F64.ofNat amount).toRat ≤ 99 * 999 ^ 6 := by
    have h1 := hR.le_double
    have h2 : (amount : ℚ) < 2 ^ 64 := by exact_mod_cast ha
    have h3 : (2 : ℚ) * 2 ^ 64 + 1 ≤ 99 * 999 ^ 6 := by norm_num
    linarith
  obtain ⟨i, hi, hget⟩ := scaleLoop_pos mm ee hM "kMGTPEZY".data 6 (F64.ofNat amount)
    (Char.ofNat 0) hR.nonneg (by norm_num) (by decide) (by norm_num) hbound
  have hmem : (amountScale (.fin false mm ee) amount).2 ∈ "kMGTPE".data := by
    unfold amountScale
    interval_cases i <;> simp at hget <;> rw [← hget] <;> decide
  rw [hf]
  refine ⟨hmem, ?_, ?_, by decide!, by decide!⟩
  all_goals
    rw [FormatAmount_core, hf]
    by_cases h : amount ≤ regimeMax w
    · intro hc
      exact absurd ((formatAmountCore_suffix mm ee hM amount ha _ (effWidth_ge w) _).1
        ⟨_, hc, by decide⟩) (not_lt.2 h)
    · rw [formatAmountCore_last mm ee hM amount ha (effWidth w) (regimeMax w) (by omega)]
      intro hc
      injection hc with hc
      rw [hc] at hmem
      revert hmem
      decide

theorem C19_witness :
    2 ^ 64 - 1 < 2 ^ 64 ∧
    (amountScale (regimeFloat 5) (2 ^ 64 - 1)).2 ∈ "kMGTPE".data ∧
    (FormatAmount (2 ^ 64 - 1) 5).data.getLast? ≠ some 'Z' ∧
    (FormatAmount (2 ^ 64 - 1) 5).data.getLast? ≠ some 'Y' ∧
    FormatAmount (2 ^ 64 - 1) 5 = "18.4E" ∧ FormatAmount (2 ^ 64 - 1) 3 = "18E" :=
  ⟨by norm_num, C19_loop_stops_at_exa (2 ^ 64 - 1) 5 (by norm_num)⟩

/-! ## The dropped leading character -/

theorem tiny_le70 : (2 : ℚ) ^ (-1075 : ℤ) ≤ 1 / 2 ^ 70 := by
  have h : (2 : ℚ) ^ (-1075 : ℤ) ≤ 2 ^ (-70 : ℤ) := two_zpow_le (by norm_num)
  have h2 : (2 : ℚ) ^ (-70 : ℤ) = 1 / 2 ^ 70 := by norm_num
  rw [← h2]; exact h

/-- The scaling loop never lets the value fall more than a factor 1000 (and one
rounding) below the smaller of its start and the cutoff. -/
theorem scaleLoop_lower (mm : Nat) (ee : Int) (lo : ℚ) (hlo1 : 1 ≤ lo)
    (hlo2 : lo ≤ (F64.fin false mm ee).toRat) :
    ∀ (cs : List Char) (r : F64) (p : Char), r.NonNeg → r.toRat ≤ 2 ^ 100 → lo ≤ r.toRat →
      cs ≠ [] →
      lo / 1000 * (1 - 1 / 2 ^ 52) ≤ (scaleLoop (.fin false mm ee) cs r p).1.toRat := by
  intro cs
  induction cs with
  | nil => intro r p _ _ _ h; exact absurd rfl h
  | cons c cs ih =>
    intro r p hr hb hlo _
    obtain ⟨m, e, rfl⟩ := hr
    have hr0 : (0 : ℚ) ≤ (F64.fin false m e).toRat := by linarith
    have h100 : (2 : ℚ) ^ (100 : ℕ) < 2 ^ (1023 : ℤ) := by
      rw [← zpow_natCast]
      exact zpow_lt_zpow_right₀ (by norm_num) (by norm_num)
    have hx : (F64.fin false m e).toRat / (F64.fin false 1000 0).toRat < 2 ^ (1023 : ℤ) := by
      rw [F64.toRat_thousand]
      exact lt_of_le_of_lt (div_le_self hr0 (by norm_num)) (lt_of_le_of_lt hb h100)
    have hR := F64.div_rounds m e 1000 0 (by norm_num) hx
    rw [F64.toRat_thousand] at hR
    have hrel := (abs_le.1 hR.rel).1
    have e53 : (2 : ℚ) ^ (-53 : ℤ) = 1 / 2 ^ 53 := by norm_num
    rw [e53] at hrel
    have ht := tiny_le70
    have hxlo : lo / 1000 ≤ (F64.fin false m e).toRat / 1000 :=
      div_le_div_of_nonneg_right hlo (by norm_num)
    have hlow : lo / 1000 * (1 - 1 / 2 ^ 52)
        ≤ (F64.div (.fin false m e) (.fin false 1000 0)).toRat := by
      norm_num at hrel ht hxlo ⊢
      linarith
    have hb1 : (F64.div (.fin false m e) (.fin false 1000 0)).toRat ≤ 2 ^ 100 := by
      have h1 := hR.le_double
      have h2 : (F64.fin false m e).toRat / 1000 ≤ 2 ^ 100 / 1000 :=
        div_le_div_of_nonneg_right hb (by norm_num)
      have h3 : (2 : ℚ) * (2 ^ 100 / 1000) + 1 ≤ 2 ^ 100 := by norm_num
      linarith
    obtain ⟨m1, e1, hr1⟩ := hR.nonneg
    unfold scaleLoop
    by_cases hlt : (F64.div (.fin false m e) (.fin false 1000 0)).lt (.fin false mm ee) = true
    · rw [if_pos hlt]
      exact hlow
    · rw [if_neg hlt]
      have hge : (F64.fin false mm ee).toRat
          ≤ (F64.div (.fin false m e) (.fin false 1000 0)).toRat := by
        rw [hr1] at hlt ⊢
        rw [F64.lt_fin] at hlt
        exact not_lt.1 hlt
      by_cases hcs : cs = []
      · subst hcs
        simp only [scaleLoop]
        have : lo / 1000 * (1 - 1 / 2 ^ 52) ≤ lo := by
          norm_num
          linarith
        linarith
      · exact ih _ c hR.nonneg hb1 (le_trans hlo2 hge) hcs

/-- In the wide regime the scaled value never falls below 0.95, so no leading character
is dropped there. -/
theorem wide_no_drop (amount : Nat) (ha : amount < 2 ^ 64) (h : 5000 < amount) :
    (amountScale (.fin false 1999 (-1)) amount).1.lt (F64.lit 95 100) = false := by
  have c2 : (F64.fin false 1999 (-1)).toRat = 1999 / 2 := by norm_num [F64.toRat]
  have hR := F64.ofNat_rounds amount (lt_trans ha (by norm_num))
  have h5 : ((5001 : ℕ) : ℚ) * 2 ^ (0 : ℤ) ≤ (amount : ℚ) := by
    have : (5001 : ℚ) ≤ amount := by exact_mod_cast h
    norm_num at this ⊢; linarith
  have hge := hR.mono_ge 5001 0 (by norm_num) (by norm_num) h5
  have hlow := scaleLoop_lower 1999 (-1) (1999 / 2) (by norm_num) (by rw [c2])
    "kMGTPEZY".data (F64.ofNat amount) (Char.ofNat 0) hR.nonneg (F64.ofNat_le amount ha)
    (by norm_num at hge ⊢; linarith) (by decide)
  obtain ⟨⟨m, e, hr⟩, _, _⟩ := amountScale_spec 1999 (-1) (by rw [c2]; norm_num) amount ha
  unfold amountScale at hr ⊢
  rw [hr] at hlow ⊢
  apply Bool.eq_false_iff.2
  rw [lit95_eq]
  intro hc
  rw [F64.lt_fin] at hc
  have c3 : (F64.fin false 8556839292003942 (-53)).toRat < 19 / 20 := by norm_num [F64.toRat]
  norm_num at hlow
  linarith

/-- With at least one decimal, a value that rounds below one is printed with the
integer part `0` in front. -/
theorem decimalF_zero_lead (prec m : Nat) (e : Int) (hp : prec ≠ 0)
    (h : (F64.fin false m e).toRat * 10 ^ prec + 1 / 2 < 10 ^ prec) :
    ∃ rest, (decimalF prec m e).data = '0' :: rest := by
  have hlt : rhe (m * 2 ^ e.toNat * 10 ^ prec) (2 ^ (-e).toNat) < 10 ^ prec := by
    apply rhe_lt_of _ _ _ (by positivity)
    rw [decimalF_ratio]
    exact_mod_cast h
  unfold decimalF
  rw [if_neg hp, Nat.div_eq_of_lt hlt]
  exact ⟨_, by simp only [String.data_append]; rfl⟩

/-- What the narrow regime renders for a scaled value below 0.95 starts with `0`. -/
theorem narrow_rendered (m : Nat) (e : Int) (c : Char)
    (h : (F64.fin false m e).lt (F64.lit 95 100) = true) :
    ∃ rest, (sprintfScaled (3 - 1) (amountPrecision (3 - 1) (amountDigits (.fin false m e)))
      (.fin false m e) c).data = '0' :: rest := by
  have hv : (F64.fin false m e).toRat < 19 / 20 := by
    rw [lit95_eq, F64.lt_fin] at h
    have c3 : (F64.fin false 8556839292003942 (-53)).toRat < 19 / 20 := by norm_num [F64.toRat]
    linarith
  have hd : amountDigits (.fin false m e) = 0 := by
    rcases amountDigits_cases m e with ⟨_, hd, _⟩ | ⟨_, _, hl⟩ | ⟨_, _, hl⟩ | ⟨_, _, hl⟩
    · exact hd
    all_goals rw [h] at hl; cases hl
  have hb : (F64.fin false m e).toRat * 10 ^ 1 + 1 / 2 < 10 ^ 1 := by norm_num; linarith
  obtain ⟨rest, hrest⟩ := decimalF_zero_lead 1 m e (by norm_num) hb
  have hlen := decimalF_length_ge 1 m e
  rw [hd]
  refine ⟨rest ++ [c], ?_⟩
  unfold sprintfScaled Fmt.starWidth Fmt.starPrec
  simp only [amountPrecision, tooLarge, String.data_append, Fmt.fmtF_fin]
  norm_num
  unfold Fmt.pad
  simp only [String.data_append, Option.getD_some]
  have h0 : 2 - (decimalF 1 m e).length = 0 := by
    simp only [if_neg (by norm_num : (1 : ℕ) ≠ 0)] at hlen
    omega
  simp [h0, hrest]

/-- C18: whenever `FormatAmount` drops the leading character of the rendered scaled
value, that string is non-empty and its first character is the digit `0`; the result
is the rest of it. -/
theorem C18_dropped_char_is_zero (amount : Nat) (w : Int) (ha : amount < 2 ^ 64)
    (hmax : regimeMax w < amount)
    (hdrop : (amountScale (regimeFloat w) amount).1.lt (F64.lit 95 100) = true) :
    ∃ rest, (amountRendered (regimeFloat w) amount (effWidth w)).data = '0' :: rest ∧
      FormatAmount amount w = String.mk rest := by
  have hcore : FormatAmount amount w
      = String.mk ((amountRendered (regimeFloat w) amount (effWidth w)).data.drop 1) := by
    rw [FormatAmount_core]
    unfold formatAmountCore
    rw [if_neg (not_le.2 hmax), if_pos hdrop]
  have hnarrow : (if w < 0 then 5 else w) < 4 := by
    by_contra hc
    have hf : regimeFloat w = .fin false 1999 (-1) := by unfold regimeFloat; rw [if_neg hc]
    have hm : regimeMax w = 5000 := by unfold regimeMax; rw [if_neg hc]
    rw [hf] at hdrop
    rw [hm] at hmax
    rw [wide_no_drop amount ha hmax] at hdrop
    cases hdrop
  have hf : regimeFloat w = .fin false 199 (-1) := by unfold regimeFloat; rw [if_pos hnarrow]
  have hw : effWidth w = 3 := by unfold effWidth; rw [if_pos hnarrow]
  rw [hcore, hf, hw]
  rw [hf] at hdrop
  obtain ⟨⟨m, e, hr⟩, _, _⟩ := amountScale_spec 199 (-1) (by norm_num [F64.toRat]) amount ha
  unfold amountRendered
  rw [hr] at hdrop ⊢
  obtain ⟨rest, hrest⟩ := narrow_rendered m e (amountScale (.fin false 199 (-1)) amount).2 hdrop
  exact ⟨rest, hrest, by rw [hrest]; rfl⟩

theorem C18_witness :
    123456 < 2 ^ 64 ∧ regimeMax 3 < 123456 ∧
    (amountScale (regimeFloat 3) 123456).1.lt (F64.lit 95 100) = true ∧
    ∃ rest, (amountRendered (regimeFloat 3) 123456 (effWidth 3)).data = '0' :: rest ∧
      FormatAmount 123456 3 = String.mk rest :=
  ⟨by norm_num, by decide, by decide!,
    C18_dropped_char_is_zero 123456 3 (by norm_num) (by decide) (by decide!)⟩

/-! ## The function divmod -/

/-- Subtraction is exact when the difference is non-negative and representable. -/
theorem F64.sub_exact (m : Nat) (e : Int) (n : Nat) (f : Int)
    (hle : (F64.fin false n f).toRat ≤ (F64.fin false m e).toRat)
    (K : ℕ) (g : ℤ) (hg : -1074 ≤ g) (hK : K ≤ 2 ^ 53)
    (hd : (F64.fin false m e).toRat - (F64.fin false n f).toRat = (K : ℚ) * 2 ^ g)
    (hx : (F64.fin false m e).toRat - (F64.fin false n f).toRat < 2 ^ (1023 : ℤ)) :
    ∃ k j, F64.sub (.fin false m e) (.fin false n f) = .fin false k j ∧
      (F64.fin false k j).toRat = (F64.fin false m e).toRat - (F64.fin false n f).toRat := by
  have hA := snum_cast false m e (min e f) (min_le_left e f)
  have hB := snum_cast false n f (min e f) (min_le_right e f)
  have hp := two_zpow_pos (-(min e f))
  have habs : |(F64.fin false m e).toRat - (F64.fin false n f).toRat|
      = (F64.fin false m e).toRat - (F64.fin false n f).toRat := abs_of_nonneg (by linarith)
  by_cases heq : snum false m e (min e f) = snum false n f (min e f)
  · refine ⟨0, 0, by simp [F64.sub, heq], ?_⟩
    have h1 : (F64.fin false m e).toRat = (F64.fin false n f).toRat := by
      have : (F64.fin false m e).toRat * 2 ^ (-(min e f))
          = (F64.fin false n f).toRat * 2 ^ (-(min e f)) := by rw [← hA, ← hB, heq]
      exact mul_right_cancel₀ (ne_of_gt hp) this
    rw [h1, sub_self]
    simp [F64.toRat]
  · have hq : (((snum false m e (min e f) - snum false n f (min e f)).natAbs
        * 2 ^ (min e f).toNat : ℕ) : ℚ) / ((2 ^ (-(min e f)).toNat : ℕ) : ℚ)
        = |(F64.fin false m e).toRat - (F64.fin false n f).toRat| := by
      have h1 : (((snum false m e (min e f) - snum false n f (min e f)).natAbs : ℕ) : ℚ)
          = |(F64.fin false m e).toRat - (F64.fin false n f).toRat| * 2 ^ (-(min e f)) := by
        rw [Nat.cast_natAbs, Int.cast_abs, Int.cast_sub, hA, hB, ← sub_mul, abs_mul,
          abs_of_pos hp]
      have h2 := two_zpow_split (min e f)
      have h3 : (2 : ℚ) ^ (-(min e f)) = ((2 : ℚ) ^ (min e f))⁻¹ := zpow_neg _ _
      push_cast
      rw [h1, h3, h2]
      have h4 : (0 : ℚ) < 2 ^ (min e f).toNat := by positivity
      have h5 : (0 : ℚ) < 2 ^ (-(min e f)).toNat := by positivity
      field_simp
    have hR := round_rounds ((snum false m e (min e f) - snum false n f (min e f)).natAbs
        * 2 ^ (min e f).toNat) (2 ^ (-(min e f)).toNat) (by positivity)
        (by rw [hq, habs]; exact hx)
    rw [hq, habs] at hR
    have hex := hR.exact K g hg hK hd
    obtain ⟨k, j, hkj⟩ := hR.nonneg
    have hns : ¬ snum false m e (min e f) < snum false n f (min e f) := by
      intro hs
      have : ((snum false m e (min e f) : ℤ) : ℚ) < ((snum false n f (min e f) : ℤ) : ℚ) :=
        Int.cast_lt.2 hs
      rw [hA, hB] at this
      have := lt_of_mul_lt_mul_right this (le_of_lt hp)
      linarith
    refine ⟨k, j, ?_, ?_⟩
    · simp only [F64.sub, heq, if_false, hns, decide_False]
      exact hkj
    · rw [← hkj]
      exact hex

/-- The quotient of `divmod` is the floor of the true quotient or one more. -/
theorem divmod_quotient (m : Nat) (e : Int) (n : Nat) (f : Int) (hn : n ≠ 0)
    (hx : (F64.fin false m e).toRat / (F64.fin false n f).toRat < 2 ^ 52) :
    ∃ q : ℕ, (divmod (.fin false m e) (.fin false n f)).1 = .fin false q 0 ∧
      ⌊(F64.fin false m e).toRat / (F64.fin false n f).toRat⌋₊ ≤ q ∧
      q ≤ ⌊(F64.fin false m e).toRat / (F64.fin false n f).toRat⌋₊ + 1 := by
  have h52 : (2 : ℚ) ^ (52 : ℕ) < 2 ^ (1023 : ℤ) := by
    rw [← zpow_natCast]
    exact zpow_lt_zpow_right₀ (by norm_num) (by norm_num)
  have hR := F64.div_rounds m e n f hn (lt_trans hx h52)
  have hx0 := hR.arg_nonneg
  have hfl := Nat.floor_le hx0
  have hfl2 := Nat.lt_floor_add_one ((F64.fin false m e).toRat / (F64.fin false n f).toRat)
  have hKb : ⌊(F64.fin false m e).toRat / (F64.fin false n f).toRat⌋₊ + 1 ≤ 2 ^ 53 := by
    have : ((⌊(F64.fin false m e).toRat / (F64.fin false n f).toRat⌋₊ : ℕ) : ℚ)
        < ((2 ^ 52 : ℕ) : ℚ) := by
      push_cast; linarith
    have := Nat.cast_lt.1 this
    omega
  have hge := hR.mono_ge ⌊(F64.fin false m e).toRat / (F64.fin false n f).toRat⌋₊ 0
    (by norm_num) (by omega) (by rw [zpow_zero, mul_one]; exact hfl)
  have hle := hR.mono_le (⌊(F64.fin false m e).toRat / (F64.fin false n f).toRat⌋₊ + 1) 0
    (by norm_num) hKb (by rw [zpow_zero, mul_one]; push_cast; exact le_of_lt hfl2)
  rw [zpow_zero, mul_one] at hge hle
  obtain ⟨m1, e1, hr⟩ := hR.nonneg
  obtain ⟨q, hq, hq1, hq2⟩ := F64.floor_spec m1 e1
  refine ⟨q, ?_, ?_, ?_⟩
  · simp only [divmod]
    rw [hr, hq]
  · rw [hr] at hge
    have : ((⌊(F64.fin false m e).toRat / (F64.fin false n f).toRat⌋₊ : ℕ) : ℚ)
        < ((q + 1 : ℕ) : ℚ) := by
      push_cast; linarith
    have := Nat.cast_lt.1 this
    omega
  · rw [hr] at hle
    have : ((q : ℕ) : ℚ)
        ≤ ((⌊(F64.fin false m e).toRat / (F64.fin false n f).toRat⌋₊ + 1 : ℕ) : ℚ) := by
      linarith
    exact Nat.cast_le.1 this

/-- On whole numbers `divmod` is exact: the quotient is the integer quotient and the
remainder the integer remainder. -/
theorem divmod_whole (A B : Nat) (hA : A < 2 ^ 52) (hB0 : 0 < B) (hB : B < 2 ^ 53) :
    ∃ k j, divmod (.fin false A 0) (.fin false B 0) = (.fin false (A / B) 0, .fin false k j) ∧
      (F64.fin false k j).toRat = ((A % B : ℕ) : ℚ) := by
  have hBq : (0 : ℚ) < (B : ℚ) := by exact_mod_cast hB0
  have hAq : (A : ℚ) < 2 ^ 52 := by exact_mod_cast hA
  have hBq2 : (B : ℚ) < 2 ^ 53 := by exact_mod_cast hB
  have h52 : (2 : ℚ) ^ (52 : ℕ) < 2 ^ (1023 : ℤ) := by
    rw [← zpow_natCast]
    exact zpow_lt_zpow_right₀ (by norm_num) (by norm_num)
  have h53 : (2 : ℚ) ^ (53 : ℕ) < 2 ^ (1023 : ℤ) := by
    rw [← zpow_natCast]
    exact zpow_lt_zpow_right₀ (by norm_num) (by norm_num)
  have hdm := Nat.div_add_mod A B
  have hml := Nat.mod_lt A hB0
  have hkA : A / B ≤ A := Nat.div_le_self A B
  have hxle : (A : ℚ) / B ≤ A := div_le_self (Nat.cast_nonneg A) (by exact_mod_cast hB0)
  have hR := F64.div_rounds A 0 B 0 (by omega) (by
    rw [F64.toRat_nat, F64.toRat_nat]
    exact lt_of_le_of_lt hxle (lt_trans hAq h52))
  rw [F64.toRat_nat, F64.toRat_nat] at hR
  -- the rounded quotient lies in [A / B, A / B + 1)
  have hkx : ((A / B : ℕ) : ℚ) ≤ (A : ℚ) / B := Nat.cast_div_le
  have hge := hR.mono_ge (A / B) 0 (by norm_num) (by omega)
    (by rw [zpow_zero, mul_one]; exact hkx)
  rw [zpow_zero, mul_one] at hge
  have hup : (A : ℚ) / B + 1 / B ≤ ((A / B : ℕ) : ℚ) + 1 := by
    rw [← add_div, div_le_iff₀ hBq]
    have : A + 1 ≤ (A / B + 1) * B := by
      rw [add_mul, one_mul, mul_comm]; omega
    exact_mod_cast this
  have hrel := (abs_le.1 hR.rel).2
  have e53 : (2 : ℚ) ^ (-53 : ℤ) = 1 / 2 ^ 53 := by norm_num
  rw [e53] at hrel
  have hhalf : (A : ℚ) / B * (1 / 2 ^ 53) ≤ 1 / B / 2 := by
    rw [div_mul_eq_mul_div, div_div, div_le_div_iff₀ hBq (by positivity)]
    nlinarith
  have htiny : (2 : ℚ) ^ (-1075 : ℤ) < 1 / B / 2 := by
    have h1 := tiny_le70
    have h2 : (1 : ℚ) / 2 ^ 53 < 1 / B := by
      rw [div_lt_div_iff₀ (by positivity) hBq]
      linarith
    have h3 : (1 : ℚ) / 2 ^ 70 < 1 / 2 ^ 53 / 2 := by norm_num
    linarith
  have hlt : (F64.div (.fin false A 0) (.fin false B 0)).toRat < ((A / B : ℕ) : ℚ) + 1 := by
    linarith
  obtain ⟨m1, e1, hr⟩ := hR.nonneg
  obtain ⟨q, hq, hq1, hq2⟩ := F64.floor_spec m1 e1
  rw [hr] at hge hlt
  have hqk : q = A / B := by
    have h1 : ((q : ℕ) : ℚ) < ((A / B + 1 : ℕ) : ℚ) := by push_cast; linarith
    have h2 : ((A / B : ℕ) : ℚ) < ((q + 1 : ℕ) : ℚ) := by push_cast; linarith
    have h1' := Nat.cast_lt.1 h1
    have h2' := Nat.cast_lt.1 h2
    omega
  -- the product `q * b` is exact
  have hprod : ((A / B : ℕ) : ℚ) * B ≤ A := by
    have : A / B * B ≤ A := Nat.div_mul_le_self A B
    exact_mod_cast this
  have hM := F64.mul_rounds (A / B) 0 B 0 (by
    rw [F64.toRat_nat, F64.toRat_nat]
    exact lt_of_le_of_lt hprod (lt_trans hAq h52))
  rw [F64.toRat_nat, F64.toRat_nat] at hM
  have hMe := hM.exact (A / B * B) 0 (by norm_num)
    (le_trans (Nat.div_mul_le_self A B) (by omega)) (by rw [zpow_zero, mul_one]; push_cast; rfl)
  obtain ⟨m2, e2, hr2⟩ := hM.nonneg
  rw [hr2] at hMe
  -- and so is the subtraction
  have hdiff : (F64.fin false A 0).toRat - (F64.fin false m2 e2).toRat
      = ((A % B : ℕ) : ℚ) * 2 ^ (0 : ℤ) := by
    rw [F64.toRat_nat, hMe, zpow_zero, mul_one]
    have : (A : ℚ) = ((B * (A / B) + A % B : ℕ) : ℚ) := by rw [hdm]
    rw [this]; push_cast; ring
  have hmodq : ((A % B : ℕ) : ℚ) < 2 ^ (53 : ℕ) := by
    have : A % B < 2 ^ 53 := by omega
    exact_mod_cast this
  obtain ⟨k, j, hs, hv⟩ := F64.sub_exact A 0 m2 e2
    (by rw [F64.toRat_nat, hMe]; exact hprod) (A % B) 0 (by norm_num) (by omega) hdiff
    (by rw [hdiff, zpow_zero, mul_one]; exact lt_trans hmodq h53)
  refine ⟨k, j, ?_, ?_⟩
  · simp only [divmod]
    rw [hr, hq, hqk, hr2, hs]
  · rw [hv, hdiff, zpow_zero, mul_one]

theorem lit_1178_10 : F64.lit 1178 10 = .fin false 8289438064128819 (-46) := by decide!

theorem lit_2_10 : F64.lit 2 10 = .fin false 7205759403792794 (-55) := by decide!

/-- C20 (counterexample): for a = 117.8 and b = 0.2 (as binary64 values) the true
quotient is below 589, yet `divmod` returns q = 589 and the negative remainder
`-2^-46`. -/
theorem C20_counterexample :
    (F64.lit 1178 10).toRat / (F64.lit 2 10).toRat < 589 ∧
    divmod (F64.lit 1178 10) (F64.lit 2 10)
      = (.fin false 589 0, .fin true 4503599627370496 (-98)) ∧
    (F64.fin true 4503599627370496 (-98)).toRat < 0 := by
  refine ⟨?_, by decide!, by norm_num [F64.toRat]⟩
  rw [lit_1178_10, lit_2_10]
  norm_num [F64.toRat]

/-- C20 (amended): on whole numbers `a < 2^52` and `0 < b < 2^53`, `divmod a b` returns
exactly the integer quotient and the integer remainder, so `q = floor (a / b)`,
`r = a - q * b` and `0 ≤ r < b`; for arbitrary non-negative finite floats with `b > 0`
and `a / b < 2^52` the quotient is the floor of the true `a / b` or one more. -/
theorem C20_divmod (A B : Nat) (m : Nat) (e : Int) (n : Nat) (f : Int)
    (hA : A < 2 ^ 52) (hB0 : 0 < B) (hB : B < 2 ^ 53) (hn : n ≠ 0)
    (hx : (F64.fin false m e).toRat / (F64.fin false n f).toRat < 2 ^ 52) :
    (∃ k j, divmod (.fin false A 0) (.fin false B 0) = (.fin false (A / B) 0, .fin false k j) ∧
      (F64.fin false k j).toRat = ((A % B : ℕ) : ℚ) ∧
      (F64.fin false (A / B) 0).toRat = ⌊(F64.fin false A 0).toRat / (F64.fin false B 0).toRat⌋₊ ∧
      (F64.fin false k j).toRat
        = (F64.fin false A 0).toRat - (F64.fin false (A / B) 0).toRat * (F64.fin false B 0).toRat ∧
      0 ≤ (F64.fin false k j).toRat ∧ (F64.fin false k j).toRat < (F64.fin false B 0).toRat) ∧
    ∃ q : ℕ, (divmod (.fin false m e) (.fin false n f)).1 = .fin false q 0 ∧
      ⌊(F64.fin false m e).toRat / (F64.fin false n f).toRat⌋₊ ≤ q ∧
      q ≤ ⌊(F64.fin false m e).toRat / (F64.fin false n f).toRat⌋₊ + 1 := by
  refine ⟨?_, divmod_quotient m e n f hn hx⟩
  obtain ⟨k, j, h1, h2⟩ := divmod_whole A B hA hB0 hB
  refine ⟨k, j, h1, h2, ?_, ?_, ?_, ?_⟩
  · rw [F64.toRat_nat, F64.toRat_nat, F64.toRat_nat, Nat.floor_div_eq_div]
  · rw [h2, F64.toRat_nat, F64.toRat_nat, F64.toRat_nat]
    have hdm := Nat.div_add_mod A B
    have : (A : ℚ) = ((B * (A / B) + A % B : ℕ) : ℚ) := by rw [hdm]
    rw [this]; push_cast; ring
  · rw [h2]; exact Nat.cast_nonneg _
  · rw [h2, F64.toRat_nat]
    exact_mod_cast Nat.mod_lt A hB0

theorem C20_witness :
    (∃ k j, divmod (.fin false 3661 0) (.fin false 60 0)
        = (.fin false (3661 / 60) 0, .fin false k j) ∧
      (F64.fin false k j).toRat = ((3661 % 60 : ℕ) : ℚ) ∧
      (F64.fin false (3661 / 60) 0).toRat
        = ⌊(F64.fin false 3661 0).toRat / (F64.fin false 60 0).toRat⌋₊ ∧
      (F64.fin false k j).toRat
        = (F64.fin false 3661 0).toRat
          - (F64.fin false (3661 / 60) 0).toRat * (F64.fin false 60 0).toRat ∧
      0 ≤ (F64.fin false k j).toRat ∧ (F64.fin false k j).toRat < (F64.fin false 60 0).toRat) ∧
    ∃ q : ℕ, (divmod (.fin false 1178 (-1)) (.fin false 1 (-2))).1 = .fin false q 0 ∧
      ⌊(F64.fin false 1178 (-1)).toRat / (F64.fin false 1 (-2)).toRat⌋₊ ≤ q ∧
      q ≤ ⌊(F64.fin false 1178 (-1)).toRat / (F64.fin false 1 (-2)).toRat⌋₊ + 1 :=
  C20_divmod 3661 60 1178 (-1) 1 (-2) (by norm_num) (by norm_num) (by norm_num) (by norm_num)
    (by norm_num [F64.toRat])

/-! ## Exact `divmod` on whole divisors and the single-digit-remainder forms -/

/-- From 1 on, a rounding exceeds its argument by at most the relative error `2^-53`. -/
theorem Rounds.le_rel {r : F64} {x : ℚ} (h : Rounds r x) (hx : 1 ≤ x) :
    r.toRat ≤ x * (1 + 2 ^ (-53 : ℤ)) := by
  obtain ⟨m, e, rfl, hx0, he, herr, h3, h4⟩ := h
  simp only [F64.toRat, Bool.false_eq_true, if_false, one_mul]
  have h5 := (abs_le.1 herr).2
  rcases h3 with h3 | h3
  · exfalso
    subst h3
    have : (2 : ℚ) ^ ((-1074 : ℤ) + 53) ≤ 2 ^ (0 : ℤ) := two_zpow_le (by norm_num)
    rw [zpow_zero] at this
    linarith
  · have h6 : (2 : ℚ) ^ (e + 52) = 2 ^ e * 2 ^ (52 : ℕ) := by
      rw [zpow_add₀ (by norm_num), ← zpow_natCast]; rfl
    have h7 : (2 : ℚ) ^ e / 2 = 2 ^ e * 2 ^ (52 : ℕ) * 2 ^ (-53 : ℤ) := by
      norm_num
      ring
    have h8 : (2 : ℚ) ^ e * 2 ^ (52 : ℕ) * 2 ^ (-53 : ℤ) ≤ x * 2 ^ (-53 : ℤ) :=
      mul_le_mul_of_nonneg_right (by rw [← h6]; exact h3) (le_of_lt (two_zpow_pos _))
    rw [← h7] at h8
    have h9 : x * (1 + 2 ^ (-53 : ℤ)) = x + x * 2 ^ (-53 : ℤ) := by ring
    rw [h9]
    have h10 := le_trans h5 h8
    generalize x * 2 ^ (-53 : ℤ) = y at h10 ⊢
    generalize (m : ℚ) * 2 ^ e = z at h10 ⊢
    linarith

/-- Below a natural number `N`, a representable value under `2^53` stays below `N` even
after the relative error `2^-53` is added: the next grid point is at most `N`. -/
theorem grid_gap (m : Nat) (e : Int) (hm : m ≤ 2 ^ 53) (N : Nat)
    (h53 : (F64.fin false m e).toRat < 2 ^ 53) (h : (F64.fin false m e).toRat < N) :
    (F64.fin false m e).toRat * (1 + 2 ^ (-53 : ℤ)) < N := by
  have e53 : (2 : ℚ) ^ (-53 : ℤ) = 1 / 2 ^ 53 := by norm_num
  rw [e53]
  rcases le_or_lt 0 e with he | he
  · have hv : (F64.fin false m e).toRat = ((m * 2 ^ e.toNat : ℕ) : ℚ) := by
      simp only [F64.toRat, Bool.false_eq_true, if_false, one_mul]
      push_cast
      rw [← zpow_natCast, Int.toNat_of_nonneg he]
    rw [hv] at h h53 ⊢
    have h1 : m * 2 ^ e.toNat < N := by exact_mod_cast h
    have h2 : ((m * 2 ^ e.toNat + 1 : ℕ) : ℚ) ≤ N := by exact_mod_cast h1
    push_cast at h2 h53 ⊢
    have h3 : (m : ℚ) * 2 ^ e.toNat * (1 / 2 ^ 53) < 1 := by
      rw [mul_one_div, div_lt_one (by positivity)]
      exact h53
    linarith
  · have hP : (0 : ℚ) < 2 ^ (-e).toNat := by positivity
    have h2e : (2 : ℚ) ^ e = 1 / 2 ^ (-e).toNat := by
      rw [two_zpow_split e]
      have : e.toNat = 0 := by omega
      rw [this, pow_zero]
    have hv : (F64.fin false m e).toRat = (m : ℚ) / 2 ^ (-e).toNat := by
      simp only [F64.toRat, Bool.false_eq_true, if_false, one_mul]
      rw [h2e]; ring
    rw [hv] at h ⊢
    rw [div_lt_iff₀ hP] at h
    have h1 : m < N * 2 ^ (-e).toNat := by exact_mod_cast h
    have ht : (-e).toNat = ((-e).toNat - 1) + 1 := by omega
    have h3 : m + 1 ≤ N * 2 ^ (-e).toNat ∧ (m = 2 ^ 53 → m + 2 ≤ N * 2 ^ (-e).toNat) := by
      rw [ht, pow_succ] at h1 ⊢
      have : N * (2 ^ ((-e).toNat - 1) * 2) = 2 * (N * 2 ^ ((-e).toNat - 1)) := by ring
      rw [this] at h1 ⊢
      constructor
      · omega
      · intro hm2; omega
    have hmq : (m : ℚ) ≤ 2 ^ 53 := by exact_mod_cast hm
    have h4 : (m : ℚ) * (1 + 1 / 2 ^ 53) < N * 2 ^ (-e).toNat := by
      rcases Nat.lt_or_ge m (2 ^ 53) with hlt | hge
      · have h5 : ((m + 1 : ℕ) : ℚ) ≤ ((N * 2 ^ (-e).toNat : ℕ) : ℚ) := by exact_mod_cast h3.1
        have h6 : (m : ℚ) < 2 ^ 53 := by exact_mod_cast hlt
        have h7 : (m : ℚ) * (1 / 2 ^ 53) < 1 := by
          rw [mul_one_div, div_lt_one (by positivity)]; exact h6
        push_cast at h5
        linarith
      · have hmm : m = 2 ^ 53 := le_antisymm hm hge
        have h5 : ((m + 2 : ℕ) : ℚ) ≤ ((N * 2 ^ (-e).toNat : ℕ) : ℚ) := by
          exact_mod_cast h3.2 hmm
        have h7 : (m : ℚ) * (1 / 2 ^ 53) ≤ 1 := by
          rw [mul_one_div, div_le_one (by positivity)]; exact hmq
        push_cast at h5
        linarith
    rw [div_mul_eq_mul_div, div_lt_iff₀ hP]
    exact h4

/-- With a whole divisor `c` and a dividend between `c` and `2^20`, `divmod` is exact:
the quotient is the floor of the true quotient and the remainder is the true
remainder. -/
theorem divmod_nat_exact (m : Nat) (e : Int) (hm : m ≤ 2 ^ 53) (he : -1074 ≤ e) (c : Nat)
    (hc : 1 ≤ c) (hac : (c : ℚ) ≤ (F64.fin false m e).toRat)
    (ha : (F64.fin false m e).toRat < 2 ^ 20) :
    ∃ k j, divmod (.fin false m e) (.fin false c 0)
        = (.fin false ⌊(F64.fin false m e).toRat / c⌋₊ 0, .fin false k j) ∧
      (F64.fin false k j).toRat
        = (F64.fin false m e).toRat - (⌊(F64.fin false m e).toRat / c⌋₊ : ℚ) * c := by
  have hc0 : (0 : ℚ) < c := by exact_mod_cast hc
  have hc1 : (1 : ℚ) ≤ c := by exact_mod_cast hc
  have ha0 : (0 : ℚ) ≤ (F64.fin false m e).toRat := by linarith
  have h20 : (2 : ℚ) ^ (20 : ℕ) < 2 ^ (1023 : ℤ) := by
    rw [← zpow_natCast]
    exact zpow_lt_zpow_right₀ (by norm_num) (by norm_num)
  have hxle : (F64.fin false m e).toRat / c ≤ (F64.fin false m e).toRat :=
    div_le_self ha0 hc1
  have hx1 : 1 ≤ (F64.fin false m e).toRat / c := by
    rw [le_div_iff₀ hc0, one_mul]; exact hac
  have hR := F64.div_rounds m e c 0 (by omega) (by
    rw [F64.toRat_nat]
    exact lt_of_le_of_lt hxle (lt_trans ha h20))
  rw [F64.toRat_nat] at hR
  have hfl := Nat.floor_le (le_trans zero_le_one hx1)
  have hfl2 := Nat.lt_floor_add_one ((F64.fin false m e).toRat / c)
  generalize hK : ⌊(F64.fin false m e).toRat / c⌋₊ = K at hfl hfl2 ⊢
  have hKc : (K : ℚ) * c ≤ (F64.fin false m e).toRat := by
    rw [← le_div_iff₀ hc0]; exact hfl
  have hKc2 : (F64.fin false m e).toRat < ((K + 1) * c : ℕ) := by
    push_cast
    rw [← div_lt_iff₀ hc0]; exact hfl2
  have hKcn : K * c < 2 ^ 20 := by
    have : ((K * c : ℕ) : ℚ) < ((2 ^ 20 : ℕ) : ℚ) := by
      push_cast; linarith
    exact Nat.cast_lt.1 this
  have hKn : K ≤ K * c := Nat.le_mul_of_pos_right K hc
  -- the rounded quotient lies in [K, K + 1)
  have hge := hR.mono_ge K 0 (by norm_num) (by omega)
    (by rw [zpow_zero, mul_one]; exact hfl)
  rw [zpow_zero, mul_one] at hge
  have hgap := grid_gap m e hm ((K + 1) * c)
    (lt_trans ha (by norm_num)) hKc2
  have hrel := hR.le_rel hx1
  have hlt : (F64.div (.fin false m e) (.fin false c 0)).toRat < (K : ℚ) + 1 := by
    have h1 : (F64.fin false m e).toRat / c * (1 + 2 ^ (-53 : ℤ)) < (K : ℚ) + 1 := by
      rw [div_mul_eq_mul_div, div_lt_iff₀ hc0]
      push_cast at hgap
      exact hgap
    linarith
  obtain ⟨m1, e1, hr⟩ := hR.nonneg
  obtain ⟨q, hq, hq1, hq2⟩ := F64.floor_spec m1 e1
  rw [hr] at hge hlt
  have hqk : q = K := by
    have h1 : ((q : ℕ) : ℚ) < ((K + 1 : ℕ) : ℚ) := by push_cast; linarith
    have h2 : ((K : ℕ) : ℚ) < ((q + 1 : ℕ) : ℚ) := by push_cast; linarith
    have h1' := Nat.cast_lt.1 h1
    have h2' := Nat.cast_lt.1 h2
    omega
  -- the product `q * c` is exact
  have hM := F64.mul_rounds K 0 c 0 (by
    rw [F64.toRat_nat, F64.toRat_nat]
    exact lt_of_le_of_lt hKc (lt_trans ha h20))
  rw [F64.toRat_nat, F64.toRat_nat] at hM
  have hMe := hM.exact (K * c) 0 (by norm_num) (by omega)
    (by rw [zpow_zero, mul_one]; push_cast; rfl)
  obtain ⟨m2, e2, hr2⟩ := hM.nonneg
  rw [hr2] at hMe
  -- the difference is a multiple of the grid of the dividend, so it is exact too
  have hdiff : ∃ (D : ℕ) (g : ℤ), -1074 ≤ g ∧ D ≤ 2 ^ 53 ∧
      (F64.fin false m e).toRat - (F64.fin false m2 e2).toRat = (D : ℚ) * 2 ^ g := by
    rw [hMe]
    rcases le_or_lt 0 e with he0 | he0
    · have hv : (F64.fin false m e).toRat = ((m * 2 ^ e.toNat : ℕ) : ℚ) := by
        simp only [F64.toRat, Bool.false_eq_true, if_false, one_mul]
        push_cast
        rw [← zpow_natCast, Int.toNat_of_nonneg he0]
      rw [hv] at hKc ha ⊢
      have h1 : K * c ≤ m * 2 ^ e.toNat := by exact_mod_cast hKc
      have h2 : m * 2 ^ e.toNat < 2 ^ 20 := by exact_mod_cast ha
      refine ⟨m * 2 ^ e.toNat - K * c, 0, by norm_num, by omega, ?_⟩
      rw [zpow_zero, mul_one, Nat.cast_sub h1]
      push_cast; ring
    · have hP : (0 : ℚ) < 2 ^ (-e).toNat := by positivity
      have h2e : (2 : ℚ) ^ e = 1 / 2 ^ (-e).toNat := by
        rw [two_zpow_split e]
        have : e.toNat = 0 := by omega
        rw [this, pow_zero]
      have hv : (F64.fin false m e).toRat = (m : ℚ) / 2 ^ (-e).toNat := by
        simp only [F64.toRat, Bool.false_eq_true, if_false, one_mul]
        rw [h2e]; ring
      rw [hv] at hKc ⊢
      rw [le_div_iff₀ hP] at hKc
      have h1 : K * c * 2 ^ (-e).toNat ≤ m := by exact_mod_cast hKc
      refine ⟨m - K * c * 2 ^ (-e).toNat, e, he, by omega, ?_⟩
      rw [Nat.cast_sub h1, h2e]
      push_cast
      field_simp
      ring
  obtain ⟨D, g, hg, hD, hd⟩ := hdiff
  obtain ⟨k, j, hs, hv⟩ := F64.sub_exact m e m2 e2
    (by rw [hMe]; exact hKc) D g hg hD hd
    (by
      have : (0 : ℚ) ≤ (F64.fin false m2 e2).toRat := by rw [hMe]; positivity
      linarith [lt_trans ha h20])
  refine ⟨k, j, ?_, ?_⟩
  · simp only [divmod]
    rw [hr, hq, hqk, hr2, hs]
  · rw [hv, hMe]

/-- From 9.5 on, round-half-even gives at least 10: the tie at 9.5 goes to the even
neighbour. -/
theorem rhe_ge_ten (num den : Nat) (hd : 0 < den) (h : (19 : ℚ) / 2 ≤ (num : ℚ) / den) :
    10 ≤ rhe num den := by
  have hd' : (0 : ℚ) < den := by exact_mod_cast hd
  have h1 : 19 * den ≤ 2 * num := by
    rw [le_div_iff₀ hd'] at h
    have : (19 : ℚ) * den ≤ 2 * num := by linarith
    exact_mod_cast this
  by_contra hc
  have h9 : rhe num den ≤ 9 := by omega
  have hb := (rhe_bounds num den hd).2
  have hmul : den * rhe num den ≤ den * 9 := Nat.mul_le_mul_left den h9
  have htie := rhe_tie_even num den 9 hd (by omega)
  omega

/-- Length of `%W.f` with `W ≤ 1` on a value that rounds to a single digit. -/
theorem fmtFixed_length_digit (w : Option Nat) (hw : w.getD 0 ≤ 1) (m : Nat) (e : Int)
    (h : (F64.fin false m e).toRat + 1 / 2 < 10) :
    (fmtFixed w 0 false (.fin false m e)).length = 1 := by
  have h1 := decimalF_length_le 0 m e 1 le_rfl (by norm_num; linarith)
  have h2 := decimalF_length_ge 0 m e
  simp only [if_true] at h1 h2
  unfold fmtFixed
  rw [Fmt.fmtF_fin]
  simp only [Option.getD_some]
  cases w with
  | none => simp only [Fmt.pad]; omega
  | some w =>
    rw [Fmt.pad_length _ w _ rfl]
    simp only [Option.getD_some] at hw
    omega

/-- Length of `%W.f` with `W ≤ 2` on a value from 9.5 up to 99.5: two digits. -/
theorem fmtFixed_length_round_two (w : Option Nat) (hw : w.getD 0 ≤ 2) (m : Nat) (e : Int)
    (h1 : (19 : ℚ) / 2 ≤ (F64.fin false m e).toRat)
    (h2 : (F64.fin false m e).toRat < 199 / 2) :
    (fmtFixed w 0 false (.fin false m e)).length = 2 := by
  have hle := decimalF_length_le 0 m e 2 (by norm_num) (by norm_num; linarith)
  have hratio := decimalF_ratio 0 m e
  simp only [pow_zero, mul_one] at hratio
  have hge : 2 ≤ (decimalF 0 m e).length := by
    unfold decimalF
    rw [if_pos rfl]
    apply repr_length_ge _ 1
    apply rhe_ge_ten _ _ (by positivity)
    rw [hratio]
    exact h1
  simp only [if_true] at hle
  unfold fmtFixed
  rw [Fmt.fmtF_fin]
  simp only [Option.getD_some]
  cases w with
  | none => simp only [Fmt.pad]; omega
  | some w =>
    rw [Fmt.pad_length _ w _ rfl]
    simp only [Option.getD_some] at hw
    omega

/-- The two fields of a single-digit-remainder form: the quotient (10 to 99) takes two
characters, the remainder one character when it is below 9.5 and two from 9.5 on. -/
theorem divmod_short_lengths (m : Nat) (e : Int) (hm : m ≤ 2 ^ 53) (he : -1074 ≤ e)
    (c : Nat) (hc : 1 ≤ c) (hc2 : c ≤ 60)
    (hlo : (10 : ℚ) * c ≤ (F64.fin false m e).toRat)
    (hhi : (F64.fin false m e).toRat < 100 * c)
    (w : Option Nat) (hw : w.getD 0 ≤ 1)
    (h10 : (divmod (.fin false m e) (.fin false c 0)).2.lt (.fin false 10 0) = true) :
    (fmtFixed none 0 false (divmod (.fin false m e) (.fin false c 0)).1).length = 2 ∧
    (fmtFixed w 0 false (divmod (.fin false m e) (.fin false c 0)).2).length
      = if (divmod (.fin false m e) (.fin false c 0)).2.lt (.fin false 19 (-1)) then 1 else 2 := by
  have hc0 : (0 : ℚ) < c := by exact_mod_cast hc
  have hc1 : (1 : ℚ) ≤ c := by exact_mod_cast hc
  have hc60 : (c : ℚ) ≤ 60 := by exact_mod_cast hc2
  obtain ⟨k, j, hdm, hv⟩ := divmod_nat_exact m e hm he c hc (by linarith) (by
    norm_num; linarith)
  have hK1 : 10 ≤ ⌊(F64.fin false m e).toRat / c⌋₊ :=
    Nat.le_floor (by rw [le_div_iff₀ hc0]; exact_mod_cast hlo)
  have hK2 : ⌊(F64.fin false m e).toRat / c⌋₊ < 100 := by
    apply (Nat.floor_lt (div_nonneg (by linarith) (le_of_lt hc0))).2
    rw [div_lt_iff₀ hc0]; exact_mod_cast hhi
  rw [hdm] at h10 ⊢
  simp only at h10 ⊢
  generalize ⌊(F64.fin false m e).toRat / c⌋₊ = K at hK1 hK2 hv
  have hK1q : (10 : ℚ) ≤ K := by exact_mod_cast hK1
  have hK2q : (K : ℚ) ≤ 99 := by
    have : K ≤ 99 := by omega
    exact_mod_cast this
  constructor
  · rw [fmtFixed_length_exact none 0 K 0 1 (by simp) (by rw [F64.toRat_nat]; exact_mod_cast hK1)
      (by rw [F64.toRat_nat]; norm_num; linarith)]
    simp
  · rw [F64.lt_fin, F64.toRat_nat] at h10
    by_cases hlt : (F64.fin false k j).lt (.fin false 19 (-1)) = true
    · rw [if_pos hlt]
      rw [F64.lt_fin] at hlt
      have c95 : (F64.fin false 19 (-1)).toRat = 19 / 2 := by norm_num [F64.toRat]
      rw [c95] at hlt
      exact fmtFixed_length_digit w hw k j (by linarith)
    · rw [if_neg hlt]
      rw [F64.lt_fin] at hlt
      have c95 : (F64.fin false 19 (-1)).toRat = 19 / 2 := by norm_num [F64.toRat]
      rw [c95] at hlt
      exact fmtFixed_length_round_two w (by omega) k j (not_lt.1 hlt) (by
        push_cast at h10; linarith)

/-- Width of the hours + single-digit-minutes form (`dt` in minutes, from ten hours up
to a day, minutes remainder below 10): 5 characters when the remainder is below 9.5
and 6 from 9.5 on, where `%1.f` prints it as 10. -/
theorem formatMinutes_short (m : Nat) (e : Int) (hm : m ≤ 2 ^ 53) (he : -1074 ≤ e)
    (h2 : (F64.fin false m e).lt (.fin false 600 0) = false)
    (h3 : (F64.fin false m e).lt (.fin false 1440 0) = true)
    (h4 : (divmod (.fin false m e) (.fin false 60 0)).2.lt (.fin false 10 0) = true) :
    (formatMinutes (.fin false m e)).length
      = if (divmod (.fin false m e) (.fin false 60 0)).2.lt (.fin false 19 (-1)) then 5 else 6 := by
  have hv600 : 600 ≤ (F64.fin false m e).toRat := by
    have := Bool.eq_false_iff.1 h2
    rw [Ne, F64.lt_fin, F64.toRat_nat] at this
    push_cast at this; linarith
  have hv1440 : (F64.fin false m e).toRat < 1440 := by
    rw [F64.lt_fin, F64.toRat_nat] at h3
    push_cast at h3; exact h3
  have h1 : ¬ (F64.fin false m e).lt (F64.lit 9995 100) = true := by
    rw [lit_9995_100, F64.lt_fin]
    have : (F64.fin false 7033355980557517 (-46)).toRat < 100 := by norm_num [F64.toRat]
    linarith
  obtain ⟨l1, l2⟩ := divmod_short_lengths m e hm he 60 (by norm_num) (by norm_num)
    (by push_cast; linarith) (by push_cast; linarith) (some 1) (by simp) h4
  unfold formatMinutes
  rw [if_neg h1, if_neg (by rw [h2]; simp), if_pos h3, if_pos h4]
  rw [String.length_append, String.length_append, String.length_append, l1, l2]
  have hh1 : "h".length = 1 := rfl
  have hm1 : "m".length = 1 := rfl
  rw [hh1, hm1]
  split_ifs <;> rfl

/-- Width of the days + single-digit-hours form (`dt` in hours, from ten days up to
99.95 days, hours remainder below 10): 5 characters when the remainder is below 9.5
and 6 from 9.5 on, where `%.f` prints it as 10. -/
theorem formatDays_short (m : Nat) (e : Int) (hm : m ≤ 2 ^ 53) (he : -1074 ≤ e)
    (h5 : (F64.fin false m e).lt (.fin false 240 0) = false)
    (h6 : (F64.fin false m e).lt (F64.lit 23988 10) = true)
    (h7 : (divmod (.fin false m e) (.fin false 24 0)).2.lt (.fin false 10 0) = true) :
    (formatDays (.fin false m e)).length
      = if (divmod (.fin false m e) (.fin false 24 0)).2.lt (.fin false 19 (-1)) then 5 else 6 := by
  have hv240 : 240 ≤ (F64.fin false m e).toRat := by
    have := Bool.eq_false_iff.1 h5
    rw [Ne, F64.lt_fin, F64.toRat_nat] at this
    push_cast at this; linarith
  have hv2400 : (F64.fin false m e).toRat < 2400 := by
    rw [lit_23988_10, F64.lt_fin] at h6
    have : (F64.fin false 5275016985418138 (-41)).toRat < 2400 := by norm_num [F64.toRat]
    linarith
  obtain ⟨l1, l2⟩ := divmod_short_lengths m e hm he 24 (by norm_num) (by norm_num)
    (by push_cast; linarith) (by push_cast; linarith) none (by simp) h7
  unfold formatDays
  rw [if_pos h6, if_pos h7]
  rw [String.length_append, String.length_append, String.length_append, l1, l2]
  have hh1 : "h".length = 1 := rfl
  have hd1 : "d".length = 1 := rfl
  rw [hh1, hd1]
  split_ifs <;> rfl

theorem Repr64.bounds {m : Nat} {e : Int} (h : Repr64 (.fin false m e)) :
    m ≤ 2 ^ 53 ∧ -1074 ≤ e := by
  obtain ⟨m1, e1, heq, h1, h2⟩ := h
  injection heq with _ hm he
  subst hm he
  exact ⟨h1, h2⟩

/-- From a day on, `formatMinutes` hands over to `formatDays` unless the two-digit
days + hours form applies. -/
theorem formatMinutes_days (m : Nat) (e : Int)
    (h3 : (F64.fin false m e).lt (.fin false 1440 0) = false)
    (h5 : (F64.div (.fin false m e) (.fin false 60 0)).lt (.fin false 240 0) = false) :
    formatMinutes (.fin false m e) = formatDays (F64.div (.fin false m e) (.fin false 60 0)) := by
  have hv : 1440 ≤ (F64.fin false m e).toRat := by
    have := Bool.eq_false_iff.1 h3
    rw [Ne, F64.lt_fin, F64.toRat_nat] at this
    push_cast at this; linarith
  have h1 : ¬ (F64.fin false m e).lt (F64.lit 9995 100) = true := by
    rw [lit_9995_100, F64.lt_fin]
    have : (F64.fin false 7033355980557517 (-46)).toRat < 100 := by norm_num [F64.toRat]
    linarith
  have h2 : ¬ (F64.fin false m e).lt (.fin false 600 0) = true := by
    rw [F64.lt_fin, F64.toRat_nat]
    push_cast; linarith
  unfold formatMinutes
  rw [if_neg h1, if_neg h2, if_neg (by rw [h3]; simp), if_neg (by rw [h5]; simp)]

/-- The length of `FormatDuration` from a minute on and below 9999.5 years: 6 when a
single-digit remainder rounds up to 10, and 5 otherwise. -/
theorem formatDuration_length_cases (m : Nat) (e : Int) (hm : m < 2 ^ 53)
    (he1 : -1074 ≤ e) (he2 : e ≤ 971) (h60 : 60 ≤ (F64.fin false m e).toRat)
    (hy : (yearsOf (.fin false m e)).lt (.fin false 19999 (-1)) = true) :
    (FormatDuration (.fin false m e)).length
      = if shortFormRoundsUp (.fin false m e) then 6 else 5 := by
  have hT := big_ge_one
  have h1023 : (2 : ℚ) ^ (1023 : ℤ) = 2 ^ 23 * 2 ^ (1000 : ℤ) := big_split 23
  have c60 : (F64.fin false 60 0).toRat = 60 := by norm_num [F64.toRat]
  have hm1 : "m".length = 1 := rfl
  have hs1 : "s".length = 1 := rfl
  have e50 : (2 : ℚ) ^ (-50 : ℤ) = 1 / 2 ^ 50 := by norm_num
  have hrep : Repr64 (.fin false m e) := ⟨m, e, rfl, le_of_lt hm, he1⟩
  have hbig : (F64.fin false m e).toRat < 2 ^ 24 * 2 ^ (1000 : ℤ) := by
    simp only [F64.toRat, Bool.false_eq_true, if_false, one_mul]
    have h1 : (m : ℚ) < 2 ^ (53 : ℕ) := by exact_mod_cast hm
    have h2 : (2 : ℚ) ^ e ≤ 2 ^ (971 : ℤ) := two_zpow_le he2
    have h3 : (2 : ℚ) ^ (53 : ℕ) * 2 ^ (971 : ℤ) = 2 ^ 24 * 2 ^ (1000 : ℤ) := by
      rw [← big_split 24, ← zpow_natCast, ← zpow_add₀ (by norm_num)]; norm_num
    have h4 := two_zpow_pos e
    calc (m : ℚ) * 2 ^ e < 2 ^ (53 : ℕ) * 2 ^ e := mul_lt_mul_of_pos_right h1 h4
      _ ≤ 2 ^ (53 : ℕ) * 2 ^ (971 : ℤ) := mul_le_mul_of_nonneg_left h2 (by positivity)
      _ = 2 ^ 24 * 2 ^ (1000 : ℤ) := h3
  have hRm := F64.div_rounds m e 60 0 (by norm_num) (by rw [c60, h1023]; linarith)
  rw [c60] at hRm
  obtain ⟨mm, em, hdm⟩ := hRm.nonneg
  have hdm2 := hRm.le_double
  unfold shortFormRoundsUp
  unfold yearsOf at hy
  rw [hdm] at hRm hdm2 hy ⊢
  obtain ⟨hmm, hem⟩ := hRm.repr64.bounds
  -- hours
  have hRh := F64.div_rounds mm em 60 0 (by norm_num) (by
    rw [c60, h1023, div_lt_iff₀ (by norm_num)]; linarith)
  rw [c60] at hRh
  obtain ⟨mh, eh, hdh⟩ := hRh.nonneg
  have hhours : (F64.fin false mm em).lt (.fin false 1440 0) = true →
      (F64.div (.fin false mm em) (.fin false 60 0)).lt (.fin false 240 0) = true := by
    intro h
    rw [F64.lt_fin, F64.toRat_nat] at h
    push_cast at h
    have hle := hRh.mono_le 24 0 (by norm_num) (by norm_num) (by norm_num; linarith)
    rw [hdh] at hle ⊢
    rw [F64.lt_fin, F64.toRat_nat]
    norm_num at hle ⊢
    linarith
  unfold FormatDuration
  have hn60 : ¬ (F64.fin false m e).lt (.fin false 60 0) = true := by
    rw [F64.lt_fin, c60]; exact not_lt.2 h60
  rw [if_neg hn60, hdm]
  by_cases h2 : (F64.fin false m e).lt (.fin false 600 0) = true
  · rw [if_pos h2]
    rw [F64.lt_fin] at h2
    have hv : (F64.fin false m e).toRat < 600 := by
      norm_num [F64.toRat] at h2 ⊢; linarith
    have hp := hrep.le_pred (-43) 5277655813324800 (by norm_num) (by
      norm_num [F64.toRat] at h2 ⊢; linarith)
    obtain ⟨l1, l2⟩ := divmod_lengths m e 60 (by norm_num) (by norm_num) (by
      rw [e50]; norm_num at hp ⊢; linarith)
    have hle := hRm.mono_le 10 0 (by norm_num) (by norm_num) (by norm_num; linarith)
    have hb2 : (F64.fin false mm em).lt (.fin false 600 0) = true := by
      rw [F64.lt_fin, F64.toRat_nat]
      norm_num at hle ⊢; linarith
    have hb3 : (F64.fin false mm em).lt (.fin false 1440 0) = true := by
      rw [F64.lt_fin, F64.toRat_nat]
      norm_num at hle ⊢; linarith
    rw [String.length_append, String.length_append, String.length_append, l1, l2, hm1, hs1]
    simp [hb2, hb3]
  · rw [if_neg h2]
    have hv600 : 600 ≤ (F64.fin false m e).toRat := by
      rw [F64.lt_fin] at h2
      norm_num [F64.toRat] at h2 ⊢; linarith
    have hge := hRm.mono_ge 10 0 (by norm_num) (by norm_num) (by norm_num; linarith)
    have hlo : 10 ≤ (F64.fin false mm em).toRat := by norm_num at hge; exact hge
    by_cases b3 : (F64.fin false mm em).lt (.fin false 1440 0) = true
    · have hb5 := hhours b3
      have hs2 : ¬ ((F64.div (.fin false mm em) (.fin false 60 0)).lt (F64.lit 23988 10) = true ∧
          (divmod (F64.div (.fin false mm em) (.fin false 60 0)) (.fin false 24 0)).2.lt
            (.fin false 10 0) = true ∧
          (F64.div (.fin false mm em) (.fin false 60 0)).lt (.fin false 240 0) = false) := by
        rintro ⟨_, _, a3⟩
        rw [hb5] at a3; exact Bool.noConfusion a3
      by_cases b2 : (F64.fin false mm em).lt (.fin false 600 0) = true
      · rw [formatMinutes_length mm em hRm.repr64 hlo (by linarith)
          (by rintro ⟨_, _, a3⟩; rw [b2] at a3; exact Bool.noConfusion a3) hs2 hy]
        simp [b2, b3]
      · by_cases b4 : (divmod (.fin false mm em) (.fin false 60 0)).2.lt (.fin false 10 0) = true
        · rw [formatMinutes_short mm em hmm hem (Bool.eq_false_iff.2 b2) b3 b4]
          simp [b2, b3, b4]
          cases (divmod (.fin false mm em) (.fin false 60 0)).2.lt (.fin false 19 (-1)) <;> simp
        · rw [formatMinutes_length mm em hRm.repr64 hlo (by linarith)
            (by rintro ⟨_, a2, _⟩; exact b4 a2) hs2 hy]
          simp [b3, b4]
    · have hs1 : ¬ ((F64.fin false mm em).lt (.fin false 1440 0) = true ∧
          (divmod (.fin false mm em) (.fin false 60 0)).2.lt (.fin false 10 0) = true ∧
          (F64.fin false mm em).lt (.fin false 600 0) = false) := by
        rintro ⟨a1, _, _⟩; exact b3 a1
      by_cases hshort : (F64.div (.fin false mm em) (.fin false 60 0)).lt (F64.lit 23988 10) = true ∧
          (divmod (F64.div (.fin false mm em) (.fin false 60 0)) (.fin false 24 0)).2.lt
            (.fin false 10 0) = true ∧
          (F64.div (.fin false mm em) (.fin false 60 0)).lt (.fin false 240 0) = false
      · obtain ⟨b6, b7, b5⟩ := hshort
        rw [formatMinutes_days mm em (Bool.eq_false_iff.2 b3) b5]
        obtain ⟨hmh, heh⟩ := (hdh ▸ hRh.repr64 : Repr64 (.fin false mh eh)).bounds
        rw [hdh] at b5 b6 b7 ⊢
        rw [formatDays_short mh eh hmh heh b5 b6 b7]
        simp [b3, b5, b6, b7]
        cases (divmod (.fin false mh eh) (.fin false 24 0)).2.lt (.fin false 19 (-1)) <;> simp
      · rw [formatMinutes_length mm em hRm.repr64 hlo (by linarith) hs1 hshort hy]
        have b3f : (F64.fin false mm em).lt (.fin false 1440 0) = false := Bool.eq_false_iff.2 b3
        rw [b3f]
        simp only [Bool.false_and, Bool.not_false, Bool.true_and, Bool.false_or]
        rw [not_and_or, not_and_or] at hshort
        rcases hshort with h | h | h
        · simp [h]
        · simp [h]
        · have : (F64.div (.fin false mm em) (.fin false 60 0)).lt (.fin false 240 0) = true := by
            cases hh : (F64.div (.fin false mm em) (.fin false 60 0)).lt (.fin false 240 0)
            · exact absurd hh h
            · rfl
          simp [this]

/-- The single-digit-remainder forms at work: 5 characters when the remainder is below
9.5, and the two inputs whose remainder rounds up to 10 are the ones singled out. -/
theorem formatDuration_short_examples :
    FormatDuration (F64.ofNat 36000) = "10h0m" ∧
    FormatDuration (F64.ofNat 43500) = "12h5m" ∧
    FormatDuration (F64.ofNat 864000) = "10d0h" ∧
    shortFormRoundsUp (F64.ofNat 36000) = false ∧
    shortFormRoundsUp (F64.ofNat 43500) = false ∧
    shortFormRoundsUp (F64.ofNat 864000) = false ∧
    shortFormRoundsUp (F64.ofNat 36585) = true ∧
    shortFormRoundsUp (F64.ofNat 898920) = true := by decide!

/-- C6 (amended): a finite duration of at least a minute that the code counts as fewer
than 9999.5 Julian years is rendered in exactly 5 characters, except exactly when it
takes one of the two single-digit-remainder forms with a remainder of at least 9.5,
which is then printed as 10. -/
theorem C6_formatDuration_width (s : Bool) (m : Nat) (e : Int) (hm : m < 2 ^ 53)
    (he1 : -1074 ≤ e) (he2 : e ≤ 971) (h60 : 60 ≤ (F64.fin s m e).toRat)
    (hy : (yearsOf (.fin s m e)).lt (.fin false 19999 (-1)) = true) :
    (FormatDuration (.fin s m e)).length = 5 ↔ shortFormRoundsUp (.fin s m e) = false := by
  have hs : s = false := by
    cases s
    · rfl
    · exfalso
      simp only [F64.toRat, if_true] at h60
      have : (0 : ℚ) ≤ (m : ℚ) * 2 ^ e := by
        have := two_zpow_pos e
        positivity
      linarith
  subst hs
  rw [formatDuration_length_cases m e hm he1 he2 h60 hy]
  cases shortFormRoundsUp (.fin false m e) <;> simp

theorem C6_witness :
    36000 < 2 ^ 53 ∧ (-1074 : Int) ≤ 0 ∧ (0 : Int) ≤ 971 ∧
    60 ≤ (F64.fin false 36000 0).toRat ∧
    (yearsOf (.fin false 36000 0)).lt (.fin false 19999 (-1)) = true ∧
    ((FormatDuration (.fin false 36000 0)).length = 5 ↔
      shortFormRoundsUp (.fin false 36000 0) = false) :=
  ⟨by norm_num, by norm_num, by norm_num, by norm_num [F64.toRat], by decide!,
    C6_formatDuration_width false 36000 0 (by norm_num) (by norm_num)
      (by norm_num) (by norm_num [F64.toRat]) (by decide!)⟩

end Quantity
